import Mathlib

/-!
# higo: article discovery, path derivation and the render pool

A verification development for `main.go`: the discovery stage
(`findArticlesPaths`), the translation stage of `main` (file name to render
job) and the render pool (`runArticleHTMLRenderer`).

Go strings are byte sequences.  They are modelled as `List Char`, one `Char`
per byte: the library functions used by the program only ever compare a byte
with `'/'` or `'.'` and copy the others, so nothing depends on how the
remaining bytes are read.
-/

namespace Higo

/-- A Go `string`. -/
abbrev GoString := List Char

/-- A Go `error` value that is not nil. -/
abbrev GoError := String

/-! ## Go standard library: `strings` -/

namespace strings

/-- Go `strings.HasSuffix(s, suffix)`:
`len(s) >= len(suffix) && s[len(s)-len(suffix):] == suffix`. -/
def HasSuffix (s suffix : GoString) : Bool :=
  decide (s.length ≥ suffix.length) && (s.drop (s.length - suffix.length) == suffix)

/-- Go `strings.Split(s, sep)` for a one-byte separator `sep`: the substrings
of `s` between the occurrences of `sep`, `strings.Count(s, sep) + 1` of them. -/
def Split : GoString → Char → List GoString
  | [], _ => [[]]
  | c :: s, sep =>
    if c = sep then [] :: Split s sep
    else
      match Split s sep with
      | [] => [[c]]
      | h :: t => (c :: h) :: t

end strings

/-! ## Go standard library: `path` -/

namespace path

/-- The loop of Go `strings.LastIndexByte`:
`for i := len(s) - 1; i >= 0; i-- { if s[i] == c { return i } }; return -1`,
with `n` the number of indices still to visit. -/
def lastIndexFrom (s : GoString) (c : Char) : Nat → Int
  | 0 => -1
  | i + 1 => if s[i]? = some c then (i : Int) else lastIndexFrom s c i

/-- Go `strings.LastIndexByte(s, c)`: the index of the last `c` in `s`, or `-1`. -/
def LastIndexByte (s : GoString) (c : Char) : Int :=
  lastIndexFrom s c s.length

/-- The state of the loop of `path.Clean`: the bytes written so far
(`out.buf[:out.w]` of the lazy buffer) and the index `dotdot`. -/
structure CleanState where
  buf : GoString
  dotdot : Nat
deriving DecidableEq, Repr

/-- The inner loop of the `..` case of `path.Clean`:
`for out.w > dotdot && out.index(out.w) != '/' { out.w-- }`, returning the
final `out.w`. -/
def backtrack (buf : GoString) (dotdot : Nat) : Nat → Nat
  | 0 => 0
  | w + 1 =>
    if w + 1 > dotdot ∧ buf[w + 1]? ≠ some '/' then backtrack buf dotdot w else w + 1

/-- The test `r+k == n || path[r+k] == '/'` of `path.Clean`, on the unread
part `s = path[r:]`. -/
def endsElem (s : GoString) (k : Nat) : Bool :=
  decide (s.length = k) || decide (s[k]? = some '/')

/-- The separator written before a real path element in `path.Clean`:
`if rooted && out.w != 1 || !rooted && out.w != 0 { out.append('/') }`. -/
def addSlash (rooted : Bool) (buf : GoString) : GoString :=
  if (rooted ∧ buf.length ≠ 1) ∨ (¬ rooted ∧ buf.length ≠ 0) then buf ++ ['/'] else buf

/-- The main loop `for r < n { switch ... }` of Go `path.Clean`, on the
unread part `s = path[r:]` of the path.  Every iteration reads at least one
byte, so `fuel = len(path)` iterations are enough. -/
def cleanLoop (rooted : Bool) : Nat → GoString → CleanState → CleanState
  | 0, _, st => st
  | _ + 1, [], st => st
  | fuel + 1, c :: rest, st =>
    if c = '/' then
      -- empty path element
      cleanLoop rooted fuel rest st
    else if c = '.' ∧ endsElem (c :: rest) 1 then
      -- . element
      cleanLoop rooted fuel rest st
    else if c = '.' ∧ rest[0]? = some '.' ∧ endsElem (c :: rest) 2 then
      -- .. element: remove to last /
      if st.buf.length > st.dotdot then
        -- can backtrack
        cleanLoop rooted fuel (rest.drop 1)
          { st with buf := st.buf.take (backtrack st.buf st.dotdot (st.buf.length - 1)) }
      else if ¬ rooted then
        -- cannot backtrack, but not rooted, so append .. element
        let buf1 := (if st.buf.length > 0 then st.buf ++ ['/'] else st.buf) ++ ['.', '.']
        cleanLoop rooted fuel (rest.drop 1) { buf := buf1, dotdot := buf1.length }
      else
        cleanLoop rooted fuel (rest.drop 1) st
    else
      -- real path element: add slash if needed, copy element
      cleanLoop rooted fuel ((c :: rest).dropWhile (· ≠ '/'))
        { st with buf := addSlash rooted st.buf ++ (c :: rest).takeWhile (· ≠ '/') }

/-- Go `path.Clean(path)`: the shortest path name equivalent to `path` by
purely lexical processing. -/
def Clean (p : GoString) : GoString :=
  if p = [] then ['.']
  else
    let rooted : Bool := decide (p[0]? = some '/')
    let out := if rooted then cleanLoop rooted p.length (p.drop 1) { buf := ['/'], dotdot := 1 }
               else cleanLoop rooted p.length p { buf := [], dotdot := 0 }
    -- Turn empty string into "."
    if out.buf.length = 0 then ['.'] else out.buf

/-- The loop of Go `path.Join`: every element after the first one written is
preceded by a `'/'`; empty elements before the first non-empty one are
skipped. -/
def joinLoop : List GoString → GoString → GoString
  | [], buf => buf
  | e :: es, buf =>
    if buf.length > 0 ∨ e ≠ [] then
      joinLoop es ((if buf.length > 0 then buf ++ ['/'] else buf) ++ e)
    else joinLoop es buf

/-- Go `path.Join(elem...)`: joins the elements with slashes and cleans the
result; the empty string when all elements are empty. -/
def Join (elem : List GoString) : GoString :=
  if (elem.map List.length).sum = 0 then []
  else Clean (joinLoop elem [])

/-- Go `path.Split(path)`: splits immediately after the final slash. -/
def Split (p : GoString) : GoString × GoString :=
  let i := LastIndexByte p '/'
  (p.take (i + 1).toNat, p.drop (i + 1).toNat)

/-- Go `path.Dir(path)`: all but the last element of the path, cleaned. -/
def Dir (p : GoString) : GoString :=
  Clean (Split p).1

/-- The loop `for len(path) > 0 && path[len(path)-1] == '/'` of `path.Base`,
which strips the trailing slashes; `n` bounds the iterations by `len(path)`. -/
def stripSlashes : Nat → GoString → GoString
  | 0, p => p
  | n + 1, p =>
    if p.length > 0 ∧ p[p.length - 1]? = some '/' then stripSlashes n (p.take (p.length - 1))
    else p

/-- Go `path.Base(path)`: the last element of the path. -/
def Base (p : GoString) : GoString :=
  if p = [] then ['.']
  else
    let p1 := stripSlashes p.length p
    let i := LastIndexByte p1 '/'
    let p2 := if i ≥ 0 then p1.drop (i + 1).toNat else p1
    -- If empty now, it had only slashes.
    if p2 = [] then ['/'] else p2

end path

/-! ## The program's data -/

/-- The Go type `Res[T]` of `main.go`: a value or an error. -/
structure Res (T : Type) where
  Ok : T
  Err : Option GoError
deriving DecidableEq, Repr

/-- The Go function `Ok[T](v)`: `Res[T]{Ok: v}`. -/
def Ok {T : Type} (v : T) : Res T := { Ok := v, Err := none }

/-- The Go function `Err[T](err)`: `Res[T]{Err: err}`, with the zero value of
`T` in the field `Ok`. -/
def Err {T : Type} [Inhabited T] (err : GoError) : Res T := { Ok := default, Err := some err }

/-- The Go type `renderJob`. -/
structure renderJob where
  inPath : GoString
  outPath : GoString
deriving DecidableEq, Repr

/-- The Go type `renderRes`. -/
structure renderRes where
  path : GoString
  err : Option GoError
deriving DecidableEq, Repr

/-- The local type `tmplData` of `runArticleHTMLRenderer`. -/
structure tmplData where
  Title : GoString
  CreatedAt : GoString
  Content : GoString
deriving DecidableEq, Repr

/-- What a goroutine has done with a channel it writes: the values sent, in
order, and whether it closed the channel afterwards. -/
structure Chan (T : Type) where
  sent : List T
  closed : Bool
deriving DecidableEq, Repr

/-- A directory entry as returned by `os.ReadDir`; only `Name()` is used. -/
structure DirEntry where
  Name : GoString
deriving DecidableEq, Repr

/-- An open file as returned by `os.Create`. -/
structure File where
  name : GoString
deriving DecidableEq, Repr

/-- The operating-system and library calls of the program, over a state `σ`
of the outside world.  Each call returns what the Go call returns, and the
world after the call. -/
structure OS (σ : Type) where
  /-- Go `os.ReadDir(name)`: the entries read, and the error if any. -/
  ReadDir : GoString → σ → (List DirEntry × Option GoError) × σ
  /-- Go `os.ReadFile(name)`. -/
  ReadFile : GoString → σ → Except GoError GoString × σ
  /-- Go `os.MkdirAll(path, perm)`. -/
  MkdirAll : GoString → Nat → σ → Option GoError × σ
  /-- Go `os.Create(name)`. -/
  Create : GoString → σ → Except GoError File × σ
  /-- Go `tmpl.Execute(dst, data)` for the template parsed at the start of
  `runArticleHTMLRenderer`. -/
  Execute : File → tmplData → σ → Option GoError × σ
  /-- The markdown conversion `markdown.Render(parser.New().Parse(b), html.NewRenderer(...))`. -/
  Markdown : GoString → GoString
  /-- Go `template.ParseFiles(name)`: the error, if the template cannot be
  read or parsed; the template parsed is the one that `Execute` executes. -/
  ParseFiles : GoString → σ → Option GoError × σ

/-- A name that `os.ReadDir` can report for a directory entry: not empty,
without a slash, and neither `.` nor `..`. -/
def ValidName (name : GoString) : Prop :=
  name ≠ [] ∧ '/' ∉ name ∧ name ≠ ['.'] ∧ name ≠ ['.', '.']

instance (name : GoString) : Decidable (ValidName name) := by
  unfold ValidName; infer_instance

/-! ## The program -/

/-- The Go function `findArticlesPaths(dir, res)`: what it sends on `res`. -/
def findArticlesPaths {σ : Type} (os : OS σ) (dir : GoString) (s : σ) :
    Chan (Res GoString) × σ :=
  let ((entries, err), s1) := os.ReadDir dir s
  let res : List (Res GoString) :=
    match err with
    | some e => [Err e]
    | none => []
  let res := entries.foldl
    (fun res e =>
      let p := path.Join [dir, e.Name]
      if strings.HasSuffix p ".md".toList then res ++ [Ok p] else res)
    res
  ({ sent := res, closed := true }, s1)

/-- The body of the loop `for res := range articles` of the translation
goroutine of `main`: the job sent on `renderJobs` for `res`, if any. -/
def translate (outputDir : GoString) (res : Res GoString) : Option renderJob :=
  if res.Err ≠ none then none
  else
    let name := path.Base res.Ok
    let chunks := strings.Split name '.'
    if h : chunks.length ≠ 3 then none
    else
      let outPath := path.Join [outputDir, chunks[1], "index.html".toList]
      some { inPath := res.Ok, outPath := outPath }

/-- The translation goroutine of `main`: what it sends on `renderJobs`. -/
def translation (outputDir : GoString) (articles : List (Res GoString)) : Chan renderJob :=
  { sent := articles.filterMap (translate outputDir), closed := true }

/-- The goroutine that `runArticleHTMLRenderer` starts for one job: the
result it sends on `res`, and the world it leaves. -/
def renderTask {σ : Type} (os : OS σ) (job : renderJob) (s : σ) : renderRes × σ :=
  match os.ReadFile job.inPath s with
  | (.error err, s1) => ({ path := job.inPath, err := some err }, s1)
  | (.ok b, s1) =>
    let body := os.Markdown b
    match os.MkdirAll (path.Dir job.outPath) 0o777 s1 with
    | (some err, s2) => ({ path := job.inPath, err := some err }, s2)
    | (none, s2) =>
      match os.Create job.outPath s2 with
      | (.error err, s3) => ({ path := job.inPath, err := some err }, s3)
      | (.ok dst, s3) =>
        match os.Execute dst
            { Title := "title".toList, CreatedAt := "23/07/23".toList, Content := body } s3 with
        | (some err, s4) => ({ path := job.inPath, err := some err }, s4)
        | (none, s4) => ({ path := job.outPath, err := none }, s4)

/-! ## The render pool as concurrent goroutines -/

/-- Where a task goroutine of `runArticleHTMLRenderer` stands. -/
inductive TaskPc where
  /-- Before `os.ReadFile(job.inPath)`. -/
  | readFile
  /-- Before `os.MkdirAll(path.Dir(job.outPath), 0777)`, with the rendered body. -/
  | mkdirAll (body : GoString)
  /-- Before `os.Create(job.outPath)`. -/
  | create (body : GoString)
  /-- Before `tmpl.Execute(dst, ...)`. -/
  | execute (dst : File) (body : GoString)
  /-- Before one of the sends `res <- renderRes{...}`, with the value to send. -/
  | send (r : renderRes)
  /-- After the send, before the deferred `wg.Done()`. -/
  | done (r : renderRes)
  /-- The goroutine has returned, having sent `r`. -/
  | exited (r : renderRes)
deriving DecidableEq, Repr

/-- A task goroutine: its job and where it stands. -/
structure Task where
  job : renderJob
  pc : TaskPc
deriving DecidableEq, Repr

/-- Where the goroutine of `runArticleHTMLRenderer` itself stands. -/
inductive PoolPc where
  /-- At the head of `for job := range jobs`. -/
  | range
  /-- Before `wg.Add(1)` for the job just received. -/
  | add (job : renderJob)
  /-- Before the `go func() {...}()` statement for the job. -/
  | go (job : renderJob)
  /-- At `wg.Wait()`. -/
  | wait
  /-- Before `close(res)`. -/
  | close
  /-- The function has returned. -/
  | returned
deriving DecidableEq, Repr

/-- The state of the render pool: the jobs still to arrive on `jobs` (which
is closed after them), the pool goroutine, the task goroutines started so
far, the counter of the wait group, the values sent on `res`, whether `res`
is closed, and the outside world. -/
structure PoolState (σ : Type) where
  jobs : List renderJob
  pool : PoolPc
  tasks : List Task
  wg : Nat
  res : List renderRes
  closed : Bool
  world : σ

/-- The goroutine that takes the next step. -/
inductive Pick where
  | pool
  | task (k : Nat)
deriving DecidableEq, Repr

/-- The failure result that a task sends for `job`. -/
def failure (job : renderJob) (err : GoError) : renderRes := { path := job.inPath, err := some err }

/-- One step of the pool goroutine; `none` when it is blocked in `wg.Wait()`
or has returned. -/
def poolStep {σ : Type} (st : PoolState σ) : Option (PoolState σ) :=
  match st.pool with
  | .range =>
    match st.jobs with
    | job :: rest => some { st with jobs := rest, pool := .add job }
    | [] => some { st with pool := .wait }
  | .add job => some { st with wg := st.wg + 1, pool := .go job }
  | .go job => some { st with tasks := st.tasks ++ [{ job := job, pc := .readFile }], pool := .range }
  | .wait => if st.wg = 0 then some { st with pool := .close } else none
  | .close => some { st with closed := true, pool := .returned }
  | .returned => none

/-- One step of the task goroutine `t`, which is task number `k`; `none`
when the task has returned, or when the step panics (a send on the closed
channel, a negative wait-group counter). -/
def taskStep {σ : Type} (os : OS σ) (st : PoolState σ) (k : Nat) (t : Task) :
    Option (PoolState σ) :=
  match t.pc with
  | .readFile =>
    match os.ReadFile t.job.inPath st.world with
    | (.error err, w) =>
      some { st with tasks := st.tasks.set k { t with pc := .send (failure t.job err) }, world := w }
    | (.ok b, w) =>
      some { st with tasks := st.tasks.set k { t with pc := .mkdirAll (os.Markdown b) }, world := w }
  | .mkdirAll body =>
    match os.MkdirAll (path.Dir t.job.outPath) 0o777 st.world with
    | (some err, w) =>
      some { st with tasks := st.tasks.set k { t with pc := .send (failure t.job err) }, world := w }
    | (none, w) =>
      some { st with tasks := st.tasks.set k { t with pc := .create body }, world := w }
  | .create body =>
    match os.Create t.job.outPath st.world with
    | (.error err, w) =>
      some { st with tasks := st.tasks.set k { t with pc := .send (failure t.job err) }, world := w }
    | (.ok dst, w) =>
      some { st with tasks := st.tasks.set k { t with pc := .execute dst body }, world := w }
  | .execute dst body =>
    match os.Execute dst
        { Title := "title".toList, CreatedAt := "23/07/23".toList, Content := body } st.world with
    | (some err, w) =>
      some { st with tasks := st.tasks.set k { t with pc := .send (failure t.job err) }, world := w }
    | (none, w) =>
      some { st with
        tasks := st.tasks.set k { t with pc := .send { path := t.job.outPath, err := none } },
        world := w }
  | .send r =>
    if st.closed then none
    else some { st with tasks := st.tasks.set k { t with pc := .done r }, res := st.res ++ [r] }
  | .done r =>
    if st.wg = 0 then none
    else some { st with tasks := st.tasks.set k { t with pc := .exited r }, wg := st.wg - 1 }
  | .exited _ => none

/-- One step of the pool: the picked goroutine takes its next step. -/
def step {σ : Type} (os : OS σ) (st : PoolState σ) : Pick → Option (PoolState σ)
  | .pool => poolStep st
  | .task k =>
    match st.tasks[k]? with
    | some t => taskStep os st k t
    | none => none

/-- The pool after the steps of a schedule; `none` if the schedule picks a
goroutine that cannot take a step. -/
def exec {σ : Type} (os : OS σ) : PoolState σ → List Pick → Option (PoolState σ)
  | st, [] => some st
  | st, pick :: sched =>
    match step os st pick with
    | some st1 => exec os st1 sched
    | none => none

/-- The pool when `runArticleHTMLRenderer` has parsed its template and made
its wait group, with the jobs `jobs` to arrive. -/
def initPool {σ : Type} (jobs : List renderJob) (w : σ) : PoolState σ :=
  { jobs := jobs, pool := .range, tasks := [], wg := 0, res := [], closed := false, world := w }

/-- How a run of `runArticleHTMLRenderer` stands after the steps of a
schedule. -/
inductive Outcome (σ : Type) where
  /-- The call `template.Must` panicked on the error of `template.ParseFiles`:
  the process is gone, and nothing was sent on `res`. -/
  | panicked (err : GoError)
  /-- The schedule picks a goroutine that cannot take a step. -/
  | stuck
  /-- The pool after the steps of the schedule. -/
  | running (st : PoolState σ)

/-- The Go function `runArticleHTMLRenderer(jobs, res)`, for the jobs `jobs`
that arrive on its input channel: it parses the template `article.html` of
`tmplDir`, panics if that fails, and else runs its loop and the task
goroutines, whose steps interleave as the schedule says. -/
def runArticleHTMLRenderer {σ : Type} (os : OS σ) (tmplDir : GoString) (jobs : List renderJob)
    (w : σ) (sched : List Pick) : Outcome σ :=
  let tmplPath := path.Join [tmplDir, "article.html".toList]
  match os.ParseFiles tmplPath w with
  | (some err, _) => .panicked err
  | (none, w1) =>
    match exec os (initPool jobs w1) sched with
    | some st => .running st
    | none => .stuck

/-- The pipeline of `main`, with its stages composed in the order discovery,
translation, render pool; the goroutines of the pool interleave as the
schedule says.  The values that the final loop of `main` receives from
`renderRes` are the field `res` of the pool. -/
def pipeline {σ : Type} (os : OS σ) (sourceDir outputDir tmplDir : GoString) (w : σ)
    (sched : List Pick) : Outcome σ :=
  let (articles, w1) := findArticlesPaths os sourceDir w
  let renderJobs := translation outputDir articles.sent
  runArticleHTMLRenderer os tmplDir renderJobs.sent w1 sched

/-- The values sent on `res` in a run; none if the pool panicked. -/
def Outcome.res {σ : Type} : Outcome σ → List renderRes
  | .running st => st.res
  | _ => []

/-- Whether `res` was closed in a run. -/
def Outcome.closed {σ : Type} : Outcome σ → Bool
  | .running st => st.closed
  | _ => false

/-- The world that a run leaves, or `w` if the pool did not run. -/
def Outcome.world {σ : Type} (w : σ) : Outcome σ → σ
  | .running st => st.world
  | _ => w

/-! ## Notions for `path.Clean` -/

namespace path

/-- A directory prefix: empty, or ending in a slash. -/
def DirPart (b : GoString) : Prop := b = [] ∨ ∃ b1, b = b1 ++ ['/']

/-- A real path element: not empty, without a slash, neither `.` nor `..`. -/
def RealElem (e : GoString) : Prop := e ≠ [] ∧ '/' ∉ e ∧ e ≠ ['.'] ∧ e ≠ ['.', '.']

/-- One iteration of the loop of `path.Clean` on the unread part `c :: rest`:
the part left to read and the state after the iteration. -/
def cleanStep (rooted : Bool) (c : Char) (rest : GoString) (st : CleanState) :
    GoString × CleanState :=
  if c = '/' then (rest, st)
  else if c = '.' ∧ endsElem (c :: rest) 1 then (rest, st)
  else if c = '.' ∧ rest[0]? = some '.' ∧ endsElem (c :: rest) 2 then
    if st.buf.length > st.dotdot then
      (rest.drop 1,
        { st with buf := st.buf.take (backtrack st.buf st.dotdot (st.buf.length - 1)) })
    else if ¬ rooted then
      (rest.drop 1,
        { buf := (if st.buf.length > 0 then st.buf ++ ['/'] else st.buf) ++ ['.', '.'],
          dotdot := ((if st.buf.length > 0 then st.buf ++ ['/'] else st.buf) ++ ['.', '.']).length })
    else (rest.drop 1, st)
  else
    ((c :: rest).dropWhile (· ≠ '/'),
      { st with buf := addSlash rooted st.buf ++ (c :: rest).takeWhile (· ≠ '/') })

/-- The loop of `path.Clean` run to its end on the unread part `s`. -/
def cleanRun (rooted : Bool) (s : GoString) (st : CleanState) : CleanState :=
  cleanLoop rooted s.length s st

/-- What can follow a path element: the end of the path, or a slash. -/
def Term (cont : GoString) : Prop := cont = [] ∨ ∃ r, cont = '/' :: r

/-- The invariant of the loop of `path.Clean`: `dotdot` is an index into the
bytes written, and a rooted path keeps its leading slash. -/
def CleanInv (rooted : Bool) (st : CleanState) : Prop :=
  st.dotdot ≤ st.buf.length ∧ (rooted = true → st.dotdot = 1 ∧ st.buf[0]? = some '/')

/-- Whether `path.Clean` treats a path that starts with `q` as rooted. -/
def rootedOf (q : GoString) : Bool := decide (q[0]? = some '/')

/-- The state of the loop of `path.Clean` after it has read the directory
prefix `q` of a path. -/
def afterDir (q : GoString) : CleanState :=
  if rootedOf q then cleanRun true (q.drop 1) { buf := ['/'], dotdot := 1 }
  else cleanRun false q { buf := [], dotdot := 0 }

/-- What `path.Clean` writes for the directory prefix `q` of a path that goes
on with a real element. -/
def cleanDir (q : GoString) : GoString :=
  addSlash (rootedOf q) (afterDir q).buf

/-- The directory prefix that `path.Join` builds from a first element `dir`:
nothing if `dir` is empty, else `dir` and a slash. -/
def joinDir (dir : GoString) : GoString := if dir = [] then [] else dir ++ ['/']

end path

/-! ## Notions for the tasks, the pool and the pipeline -/

/-- A call of a render task to the outside world. -/
inductive Call where
  | ReadFile (name : GoString)
  | MkdirAll (name : GoString) (perm : Nat)
  | Create (name : GoString)
  | Execute (dst : File) (data : tmplData)
deriving DecidableEq, Repr

/-- The operating system `os` with a log of the calls made by the tasks, the
latest call last. -/
def OS.logged {σ : Type} (os : OS σ) : OS (σ × List Call) where
  ReadDir := fun p s => ((os.ReadDir p s.1).1, ((os.ReadDir p s.1).2, s.2))
  ReadFile := fun p s => ((os.ReadFile p s.1).1, ((os.ReadFile p s.1).2, s.2 ++ [Call.ReadFile p]))
  MkdirAll := fun p m s =>
    ((os.MkdirAll p m s.1).1, ((os.MkdirAll p m s.1).2, s.2 ++ [Call.MkdirAll p m]))
  Create := fun p s => ((os.Create p s.1).1, ((os.Create p s.1).2, s.2 ++ [Call.Create p]))
  Execute := fun f d s =>
    ((os.Execute f d s.1).1, ((os.Execute f d s.1).2, s.2 ++ [Call.Execute f d]))
  Markdown := os.Markdown
  ParseFiles := fun p s => ((os.ParseFiles p s.1).1, ((os.ParseFiles p s.1).2, s.2))

/-- The data that a task passes to the template for the input bytes `b`. -/
def taskData {σ : Type} (os : OS σ) (b : GoString) : tmplData :=
  { Title := "title".toList, CreatedAt := "23/07/23".toList, Content := os.Markdown b }

/-- The four fallible steps of the task for `job`, started in the world `s`,
all succeed: the input is read as `b`, the directories are made, the output
file is created as `dst`, and the template is executed, leaving the world
`s4`. -/
def StepsSucceed {σ : Type} (os : OS σ) (job : renderJob) (s : σ)
    (b : GoString) (dst : File) (s4 : σ) : Prop :=
  ∃ s1 s2 s3, os.ReadFile job.inPath s = (.ok b, s1) ∧
    os.MkdirAll (path.Dir job.outPath) 0o777 s1 = (none, s2) ∧
    os.Create job.outPath s2 = (.ok dst, s3) ∧
    os.Execute dst (taskData os b) s3 = (none, s4)

/-- The first step that fails in the task for `job`, started in the world
`s`: the number of steps taken (the failing one included), its error, and the
world it leaves. -/
def FirstFailure {σ : Type} (os : OS σ) (job : renderJob) (s : σ)
    (steps : Nat) (err : GoError) (sEnd : σ) : Prop :=
  (steps = 1 ∧ os.ReadFile job.inPath s = (.error err, sEnd)) ∨
  (steps = 2 ∧ ∃ b s1, os.ReadFile job.inPath s = (.ok b, s1) ∧
    os.MkdirAll (path.Dir job.outPath) 0o777 s1 = (some err, sEnd)) ∨
  (steps = 3 ∧ ∃ b s1 s2, os.ReadFile job.inPath s = (.ok b, s1) ∧
    os.MkdirAll (path.Dir job.outPath) 0o777 s1 = (none, s2) ∧
    os.Create job.outPath s2 = (.error err, sEnd)) ∨
  (steps = 4 ∧ ∃ b s1 s2 dst s3, os.ReadFile job.inPath s = (.ok b, s1) ∧
    os.MkdirAll (path.Dir job.outPath) 0o777 s1 = (none, s2) ∧
    os.Create job.outPath s2 = (.ok dst, s3) ∧
    os.Execute dst (taskData os b) s3 = (some err, sEnd))

/-- The calls that the task for `job` makes when started in the world `s`. -/
def taskCalls {σ : Type} (os : OS σ) (job : renderJob) (s : σ) : List Call :=
  (renderTask os.logged job (s, [])).2.2

/-- The kinds of the calls of a task, in the order of the source. -/
inductive CallKind where
  | ReadFile | MkdirAll | Create | Execute
deriving DecidableEq, Repr

/-- The kind of a call. -/
def Call.kind : Call → CallKind
  | .ReadFile _ => .ReadFile
  | .MkdirAll _ _ => .MkdirAll
  | .Create _ => .Create
  | .Execute _ _ => .Execute

/-- The result of a task for `job`: a success with the output path, or a
failure with the input path. -/
def ResultFor (job : renderJob) (r : renderRes) : Prop :=
  (r.err = none ∧ r.path = job.outPath) ∨ (r.err ≠ none ∧ r.path = job.inPath)

/-- The name of a directory entry passes the two tests of the pipeline: it
ends in `.md` and splits on `.` into exactly three components. -/
def eligible (e : DirEntry) : Bool :=
  strings.HasSuffix e.Name ".md".toList && decide ((strings.Split e.Name '.').length = 3)

/-- The job that the translation stage builds for the directory entry `e`. -/
def jobOf (sourceDir outputDir : GoString) (e : DirEntry) : renderJob :=
  { inPath := path.Join [sourceDir, e.Name],
    outPath := path.Join [outputDir, (strings.Split e.Name '.').getD 1 [], "index.html".toList] }

/-- Whether a task goroutine has returned. -/
def TaskPc.isExited : TaskPc → Bool
  | .exited _ => true
  | _ => false

/-- The result that a task has sent, once it has sent it. -/
def TaskPc.sent : TaskPc → Option renderRes
  | .done r => some r
  | .exited r => some r
  | _ => none

/-- The number of task goroutines that have not returned. -/
def activeCount : List Task → Nat
  | [] => 0
  | t :: ts => (if t.pc.isExited then 0 else 1) + activeCount ts

/-- The number of task goroutines that have sent their result. -/
def sentCount : List Task → Nat
  | [] => 0
  | t :: ts => (if t.pc.sent.isSome then 1 else 0) + sentCount ts

/-- The job that the pool goroutine has received and not yet started. -/
def PoolPc.pending : PoolPc → List renderJob
  | .add job => [job]
  | .go job => [job]
  | _ => []

/-- The invariant of the render pool for the jobs `all`. -/
structure PoolInv {σ : Type} (all : List renderJob) (st : PoolState σ) : Prop where
  /-- The wait-group counter counts the tasks that have not returned, and
  the task that `wg.Add(1)` has announced. -/
  counter : st.wg = activeCount st.tasks + (match st.pool with | .go _ => 1 | _ => 0)
  /-- Past `wg.Wait()` every task has returned. -/
  drained : (st.pool = .close ∨ st.pool = .returned) → ∀ t ∈ st.tasks, t.pc.isExited = true
  /-- Only the last step of the pool goroutine closes `res`. -/
  closing : st.closed = true → st.pool = .returned
  /-- What a task has sent is on `res`. -/
  posted : ∀ t ∈ st.tasks, ∀ r, t.pc.sent = some r → r ∈ st.res
  /-- Every value on `res` was sent by one task. -/
  count : st.res.length = sentCount st.tasks
  /-- Every job is started, about to be started, or still to arrive. -/
  jobsAll : st.tasks.map (·.job) ++ st.pool.pending ++ st.jobs = all
  /-- The pool goroutine leaves its loop when no job is left. -/
  loopEnd : (st.pool = .wait ∨ st.pool = .close ∨ st.pool = .returned) → st.jobs = []
  /-- The result of a task is a result for its own job. -/
  own : ∀ t ∈ st.tasks, ∀ r, (t.pc = .send r ∨ t.pc.sent = some r) → ResultFor t.job r

/-- The three kinds of step of a task: a call to the outside world, the
send of its result, and the deferred `wg.Done()`. -/
def TaskMove {σ : Type} (st st1 : PoolState σ) (k : Nat) (t : Task) : Prop :=
  ∃ pc1 w res1 wg1,
    st1 = { st with tasks := st.tasks.set k { job := t.job, pc := pc1 }, world := w,
                    res := res1, wg := wg1 } ∧
    ((t.pc.sent = none ∧ (∀ r, t.pc ≠ .send r) ∧ t.pc.isExited = false ∧ pc1.sent = none ∧
        pc1.isExited = false ∧ (∀ r, pc1 = .send r → ResultFor t.job r) ∧
        res1 = st.res ∧ wg1 = st.wg) ∨
     (∃ r, t.pc = .send r ∧ pc1 = .done r ∧ res1 = st.res ++ [r] ∧ wg1 = st.wg ∧
        w = st.world) ∨
     (∃ r, t.pc = .done r ∧ pc1 = .exited r ∧ res1 = st.res ∧ wg1 + 1 = st.wg ∧
        w = st.world))

/-- What the program relies on from the file system, for an observation
`content` of the bytes of a file and the output `tmplOut` of the template:
`os.ReadFile` returns the bytes of the file, `os.Create` returns a handle on
the named file and leaves it empty (it truncates), and executing the
template into an empty file leaves it holding the template's output for the
data; listing a directory, parsing the template, reading a file and making
directories change the bytes of no file, and creating a file or executing
the template into it changes the bytes of that file only. -/
structure FileContract {σ : Type} (os : OS σ) (content : σ → GoString → Option GoString)
    (tmplOut : tmplData → GoString) : Prop where
  readFile : ∀ p s b s1, os.ReadFile p s = (.ok b, s1) → content s p = some b
  create : ∀ p s dst s1, os.Create p s = (.ok dst, s1) → dst.name = p ∧ content s1 p = some []
  execute : ∀ dst d s s1, os.Execute dst d s = (none, s1) → content s dst.name = some [] →
    content s1 dst.name = some (tmplOut d)
  readDirFrame : ∀ p s, content (os.ReadDir p s).2 = content s
  parseFrame : ∀ p s, content (os.ParseFiles p s).2 = content s
  readFileFrame : ∀ p s, content (os.ReadFile p s).2 = content s
  mkdirAllFrame : ∀ p m s, content (os.MkdirAll p m s).2 = content s
  createFrame : ∀ p s q, q ≠ p → content (os.Create p s).2 q = content s q
  executeFrame : ∀ dst d s q, q ≠ dst.name → content (os.Execute dst d s).2 q = content s q

/-- What is known of the files of a task from where it stands: past the
reading, the body is the rendering of the input bytes `c0` held at the
start; before the execution of the template, the output file is open and
empty; and once the task has a success result, the output file holds the
template's output for the fixed title and date and that body. -/
def TaskContent {σ : Type} (os : OS σ) (content : σ → GoString → Option GoString)
    (tmplOut : tmplData → GoString) (c0 : GoString → Option GoString) (w : σ) (t : Task) :
    Prop :=
  match t.pc with
  | .readFile => True
  | .mkdirAll body => ∃ b, c0 t.job.inPath = some b ∧ body = os.Markdown b
  | .create body => ∃ b, c0 t.job.inPath = some b ∧ body = os.Markdown b
  | .execute dst body =>
    (∃ b, c0 t.job.inPath = some b ∧ body = os.Markdown b) ∧ dst.name = t.job.outPath ∧
      content w t.job.outPath = some []
  | .send r => r.err = none →
    ∃ b, c0 t.job.inPath = some b ∧ content w t.job.outPath = some (tmplOut (taskData os b))
  | .done r => r.err = none →
    ∃ b, c0 t.job.inPath = some b ∧ content w t.job.outPath = some (tmplOut (taskData os b))
  | .exited r => r.err = none →
    ∃ b, c0 t.job.inPath = some b ∧ content w t.job.outPath = some (tmplOut (taskData os b))

/-- The invariant of the files in a run of the pool over the jobs `all`,
started with the bytes `c0`: no file other than an output file of a job has
changed, and every task stands as `TaskContent` says. -/
structure ContentInv {σ : Type} (os : OS σ) (content : σ → GoString → Option GoString)
    (tmplOut : tmplData → GoString) (all : List renderJob) (c0 : GoString → Option GoString)
    (st : PoolState σ) : Prop where
  inputs : ∀ p, (∀ j ∈ all, p ≠ j.outPath) → content st.world p = c0 p
  tasks : ∀ (k : Nat) (t : Task), st.tasks[k]? = some t →
    TaskContent os content tmplOut c0 st.world t

/-- The results that the tasks have sent, in the order of the tasks. -/
def sentList (ts : List Task) : List renderRes :=
  ts.filterMap (fun t => t.pc.sent)

/-- A second invariant of the render pool: the values on `res` are, up to
their order, the results that the tasks have sent, and the pool goroutine
returns with `res` closed. -/
def ResInv {σ : Type} (st : PoolState σ) : Prop :=
  List.Perm st.res (sentList st.tasks) ∧ (st.pool = .returned → st.closed = true)

/-- A bound on the number of steps that a task goroutine can still take. -/
def TaskPc.measure : TaskPc → Nat
  | .readFile => 6
  | .mkdirAll _ => 5
  | .create _ => 4
  | .execute _ _ => 3
  | .send _ => 2
  | .done _ => 1
  | .exited _ => 0

/-- A bound on the number of steps that the task goroutines can still take. -/
def taskMeasure : List Task → Nat
  | [] => 0
  | t :: ts => t.pc.measure + taskMeasure ts

/-- A bound on the number of steps that the pool can still take: the steps
of the pool goroutine and, for each job still to be started, the steps of
its task. -/
def poolMeasure {σ : Type} (st : PoolState σ) : Nat :=
  taskMeasure st.tasks +
    (match st.pool with
     | .range => 9 * st.jobs.length + 3
     | .add _ => 9 * st.jobs.length + 11
     | .go _ => 9 * st.jobs.length + 10
     | .wait => 2
     | .close => 1
     | .returned => 0)


/-- The call to the outside world that the task `t` is about to make, if it
is about to make one, succeeds in the world of `st`. -/
def callOk {σ : Type} (os : OS σ) (st : PoolState σ) (t : Task) : Bool :=
  match t.pc with
  | .readFile =>
    match (os.ReadFile t.job.inPath st.world).1 with
    | .ok _ => true
    | .error _ => false
  | .mkdirAll _ => (os.MkdirAll (path.Dir t.job.outPath) 0o777 st.world).1.isNone
  | .create _ =>
    match (os.Create t.job.outPath st.world).1 with
    | .ok _ => true
    | .error _ => false
  | .execute dst body =>
    (os.Execute dst
      { Title := "title".toList, CreatedAt := "23/07/23".toList, Content := body } st.world).1.isNone
  | _ => true

/-- Along the schedule, started in `st`, every call that task number `k`
makes to the outside world succeeds: its own four steps succeed, whatever
happens to the steps of the other tasks. -/
def ownStepsOk {σ : Type} (os : OS σ) (k : Nat) : PoolState σ → List Pick → Bool
  | _, [] => true
  | st, pick :: sched =>
    (if pick = .task k then
      match st.tasks[k]? with
      | some t => callOk os st t
      | none => true
     else true) &&
    (match step os st pick with
     | some st1 => ownStepsOk os k st1 sched
     | none => true)

/-- The result that task number `k` is about to send or has sent, if any, is
the success result with its own output path. -/
def GoodResult {σ : Type} (k : Nat) (st : PoolState σ) : Prop :=
  ∀ t r, st.tasks[k]? = some t → (t.pc = .send r ∨ t.pc.sent = some r) →
    r = { path := t.job.outPath, err := none }


/-- The pool of `runArticleHTMLRenderer` once the template is parsed, in the
world that `template.ParseFiles` leaves. -/
def poolStart {σ : Type} (os : OS σ) (tmplDir : GoString) (jobs : List renderJob) (w : σ) :
    PoolState σ :=
  initPool jobs (os.ParseFiles (path.Join [tmplDir, "article.html".toList]) w).2


/-- The slug of a directory entry: the middle component of its name. -/
def slugOf (e : DirEntry) : GoString :=
  (strings.Split e.Name '.').getD 1 []

/-- The pool that a run has reached, or `st` if the pool did not run. -/
def Outcome.state {σ : Type} (st : PoolState σ) : Outcome σ → PoolState σ
  | .running st1 => st1
  | _ => st

/-! ## Sample worlds -/

/-- An operating system whose only interesting call is `os.ReadDir`, which
reports the entries `entries` together with the error `err`. -/
def listingOS (entries : List DirEntry) (err : Option GoError) : OS Unit where
  ReadDir := fun _ s => ((entries, err), s)
  ReadFile := fun _ s => (.ok [], s)
  MkdirAll := fun _ _ s => (none, s)
  Create := fun p s => (.ok { name := p }, s)
  Execute := fun _ _ s => (none, s)
  Markdown := fun b => b
  ParseFiles := fun _ s => (none, s)

/-- The files of a small file system: the path and the bytes of each file,
the latest version of a file first. -/
abbrev MemFiles := List (GoString × GoString)

/-- The bytes that the template of `memOS` writes for `d`. -/
def memTemplate (d : tmplData) : GoString :=
  d.Title ++ ['|'] ++ d.CreatedAt ++ ['|'] ++ d.Content

/-- A small operating system over `MemFiles`: the source directory holds the
entries `listing`; reading a missing file fails, every directory can be
made, creating a file truncates it, the template appends its output to the
file, and the template parses when its file exists. -/
def memOS (listing : List DirEntry) : OS MemFiles where
  ReadDir := fun _ s => ((listing, none), s)
  ReadFile := fun p s =>
    match s.lookup p with
    | some b => (.ok b, s)
    | none => (.error "no such file or directory", s)
  MkdirAll := fun _ _ s => (none, s)
  Create := fun p s => (.ok { name := p }, (p, []) :: s)
  Execute := fun f d s => (none, (f.name, (s.lookup f.name).getD [] ++ memTemplate d) :: s)
  Markdown := fun b => b
  ParseFiles := fun p s =>
    match s.lookup p with
    | some _ => (none, s)
    | none => (some "no such file or directory", s)

/-- The jobs of the sample run: the first has an input file, the second has
none. -/
def sampleJobs : List renderJob :=
  [{ inPath := "src/a.one.md".toList, outPath := "/out/one/index.html".toList },
   { inPath := "src/b.two.md".toList, outPath := "/out/two/index.html".toList }]

/-- A schedule of the sample run in which the first task is slow: the pool
goroutine starts both tasks, the second task runs to its end, then the first
one does, and only then can the pool goroutine pass `wg.Wait()` and close
`res`. -/
def sampleSchedule : List Pick :=
  [.pool, .pool, .pool, .pool, .pool, .pool, .pool,
   .task 1, .task 1, .task 1,
   .task 0, .task 0, .task 0, .task 0, .task 0, .task 0,
   .pool, .pool]

/-- The pool at the end of the sample schedule. -/
def sampleFinal : PoolState MemFiles :=
  { jobs := []
    pool := .returned
    tasks :=
      [{ job := { inPath := "src/a.one.md".toList, outPath := "/out/one/index.html".toList },
         pc := .exited { path := "/out/one/index.html".toList, err := none } },
       { job := { inPath := "src/b.two.md".toList, outPath := "/out/two/index.html".toList },
         pc := .exited { path := "src/b.two.md".toList, err := some "no such file or directory" } }]
    wg := 0
    res := [{ path := "src/b.two.md".toList, err := some "no such file or directory" },
            { path := "/out/one/index.html".toList, err := none }]
    closed := true
    world := [("/out/one/index.html".toList, "title|23/07/23|hi".toList),
              ("/out/one/index.html".toList, []), ("src/a.one.md".toList, "hi".toList)] }

/-- The listing of the scenario of the specification. -/
def sampleListing : List DirEntry :=
  [⟨"a.post-one.md".toList⟩, ⟨"b.post-two.md".toList⟩, ⟨"not-valid.md".toList⟩,
   ⟨"readme.txt".toList⟩]


/-- A world for the sample run of the pool: the template and the input of
the first job of `sampleJobs`; the input of the second job is missing. -/
def sampleStart : MemFiles :=
  [("tpl/article.html".toList, "<html>".toList), ("src/a.one.md".toList, "hi".toList)]

/-- The pool at the end of the sample schedule, started in `sampleStart`. -/
def sampleClosed : PoolState MemFiles :=
  { sampleFinal with
    world := [("/out/one/index.html".toList, "title|23/07/23|hi".toList),
              ("/out/one/index.html".toList, []),
              ("tpl/article.html".toList, "<html>".toList),
              ("src/a.one.md".toList, "hi".toList)] }

/-- A world for the sample run of the pipeline: the template and the input
`a.post-one.md`; the input `b.post-two.md` cannot be read. -/
def samplePipelineStart : MemFiles :=
  [("tpl/article.html".toList, "<html>".toList), ("src/a.post-one.md".toList, "one".toList)]


/-- A schedule for two jobs that succeed: the pool goroutine starts both
tasks, the first task runs to its end, then the second one, and the pool
goroutine closes `res`. -/
def scheduleFirstSecond : List Pick :=
  [.pool, .pool, .pool, .pool, .pool, .pool, .pool,
   .task 0, .task 0, .task 0, .task 0, .task 0, .task 0,
   .task 1, .task 1, .task 1, .task 1, .task 1, .task 1,
   .pool, .pool]

/-- A schedule for two jobs that succeed, in which the second task runs to
its end before the first one. -/
def scheduleSecondFirst : List Pick :=
  [.pool, .pool, .pool, .pool, .pool, .pool, .pool,
   .task 1, .task 1, .task 1, .task 1, .task 1, .task 1,
   .task 0, .task 0, .task 0, .task 0, .task 0, .task 0,
   .pool, .pool]

/-- A world in which the template and both inputs of `sampleListing` exist. -/
def twoInputs : MemFiles :=
  [("tpl/article.html".toList, "<html>".toList), ("src/a.post-one.md".toList, "one".toList),
   ("src/b.post-two.md".toList, "two".toList)]

/-- The pool at the end of a first run of the pipeline on `twoInputs`. -/
def firstRun : PoolState MemFiles :=
  (pipeline (memOS sampleListing) "src".toList "/out".toList "tpl".toList twoInputs
    scheduleFirstSecond).state (initPool [] [])

/-- The pool at the end of a second run of the pipeline, started in the
world that the first run has left, under another schedule. -/
def secondRun : PoolState MemFiles :=
  (pipeline (memOS sampleListing) "src".toList "/out".toList "tpl".toList firstRun.world
    scheduleSecondFirst).state (initPool [] [])

/-- A listing with two articles of the same slug `x`. -/
def sameSlugListing : List DirEntry :=
  [⟨"a.x.md".toList⟩, ⟨"b.x.md".toList⟩]

/-- A world in which the template and both inputs of `sameSlugListing`
exist. -/
def sameSlugInputs : MemFiles :=
  [("tpl/article.html".toList, "<html>".toList), ("src/a.x.md".toList, "A".toList),
   ("src/b.x.md".toList, "B".toList)]

/-- The first run of the pipeline on `sameSlugInputs`. -/
def sameSlugFirst : Outcome MemFiles :=
  pipeline (memOS sameSlugListing) "src".toList "/out".toList "tpl".toList sameSlugInputs
    scheduleFirstSecond

/-- The second run of the pipeline, on the world that the first run has
left, under another schedule. -/
def sameSlugSecond : Outcome MemFiles :=
  pipeline (memOS sameSlugListing) "src".toList "/out".toList "tpl".toList
    (sameSlugFirst.world sameSlugInputs) scheduleSecondFirst


/-- A small operating system like `memOS` on which the template cannot be
executed once the file system holds `quota` file versions: the write fails
for lack of space. -/
def quotaOS (listing : List DirEntry) (quota : Nat) : OS MemFiles where
  ReadDir := fun _ s => ((listing, none), s)
  ReadFile := fun p s =>
    match s.lookup p with
    | some b => (.ok b, s)
    | none => (.error "no such file or directory", s)
  MkdirAll := fun _ _ s => (none, s)
  Create := fun p s => (.ok { name := p }, (p, []) :: s)
  Execute := fun f d s =>
    if s.length ≥ quota then (some "no space left on device", s)
    else (none, (f.name, (s.lookup f.name).getD [] ++ memTemplate d) :: s)
  Markdown := fun b => b
  ParseFiles := fun p s =>
    match s.lookup p with
    | some _ => (none, s)
    | none => (some "no such file or directory", s)

/-- A schedule for one job: the pool goroutine starts the task, the task
runs to its end, and the pool goroutine closes `res`. -/
def scheduleOne : List Pick :=
  [.pool, .pool, .pool, .pool,
   .task 0, .task 0, .task 0, .task 0, .task 0, .task 0,
   .pool, .pool]

/-- A world in which the template and the input `a.post-one.md` exist. -/
def oneInput : MemFiles :=
  [("tpl/article.html".toList, "<html>".toList), ("src/a.post-one.md".toList, "one".toList)]

/-- The first run of the pipeline on `oneInput` with room for four file
versions. -/
def quotaFirst : Outcome MemFiles :=
  pipeline (quotaOS [⟨"a.post-one.md".toList⟩] 4) "src".toList "/out".toList "tpl".toList
    oneInput scheduleOne

/-- The second run of the pipeline, on the world that the first run has
left. -/
def quotaSecond : Outcome MemFiles :=
  pipeline (quotaOS [⟨"a.post-one.md".toList⟩] 4) "src".toList "/out".toList "tpl".toList
    (quotaFirst.world oneInput) scheduleOne

/-! ## Lemmas on `strings.Split` -/

namespace strings

theorem Split_ne_nil (s : GoString) (sep : Char) : Split s sep ≠ [] := by
  induction s with
  | nil => simp [Split]
  | cons c s ih =>
    unfold Split
    split
    · simp
    · split <;> simp

theorem sep_not_mem_of_mem_Split (s : GoString) (sep : Char) :
    ∀ x ∈ Split s sep, sep ∉ x := by
  induction s with
  | nil => simp [Split]
  | cons c s ih =>
    intro x hx
    unfold Split at hx
    split at hx
    · rcases List.mem_cons.1 hx with h | h
      · simp [h]
      · exact ih x h
    · rename_i hc
      split at hx
      · rename_i heq
        exact absurd heq (Split_ne_nil s sep)
      · rename_i h t heq
        rcases List.mem_cons.1 hx with h1 | h1
        · subst h1
          have := ih h (by rw [heq]; simp)
          simp only [List.mem_cons, not_or]
          exact ⟨fun e => hc e.symm, this⟩
        · exact ih x (by rw [heq]; simp [h1])

theorem mem_of_mem_Split (s : GoString) (sep : Char) :
    ∀ x ∈ Split s sep, ∀ c ∈ x, c ∈ s := by
  induction s with
  | nil => simp [Split]
  | cons d s ih =>
    intro x hx c hc
    unfold Split at hx
    split at hx
    · rcases List.mem_cons.1 hx with h | h
      · simp [h] at hc
      · exact List.mem_cons_of_mem _ (ih x h c hc)
    · split at hx
      · rename_i heq
        exact absurd heq (Split_ne_nil s sep)
      · rename_i h t heq
        rcases List.mem_cons.1 hx with h1 | h1
        · subst h1
          rcases List.mem_cons.1 hc with h2 | h2
          · simp [h2]
          · exact List.mem_cons_of_mem _ (ih h (by rw [heq]; simp) c h2)
        · exact List.mem_cons_of_mem _ (ih x (by rw [heq]; simp [h1]) c hc)

end strings

/-! ## Lemmas on `path.Base` and `path.Split` -/

namespace path

theorem lastIndexFrom_spec (s : GoString) (c : Char) (n : Nat) :
    (lastIndexFrom s c n = -1 ∧ ∀ j, j < n → s[j]? ≠ some c) ∨
    (∃ i : Nat, lastIndexFrom s c n = (i : Int) ∧ i < n ∧ s[i]? = some c ∧
      ∀ j, i < j → j < n → s[j]? ≠ some c) := by
  induction n with
  | zero => left; simp [lastIndexFrom]
  | succ n ih =>
    unfold lastIndexFrom
    split
    · rename_i h
      right
      exact ⟨n, rfl, Nat.lt_succ_self n, h, fun j h1 h2 => by omega⟩
    · rename_i h
      rcases ih with ⟨h1, h2⟩ | ⟨i, h1, h2, h3, h4⟩
      · left
        refine ⟨h1, fun j hj => ?_⟩
        rcases Nat.lt_succ_iff_lt_or_eq.1 hj with h5 | h5
        · exact h2 j h5
        · subst h5; exact h
      · right
        refine ⟨i, h1, by omega, h3, fun j hj1 hj2 => ?_⟩
        rcases Nat.lt_succ_iff_lt_or_eq.1 hj2 with h5 | h5
        · exact h4 j hj1 h5
        · subst h5; exact h

theorem getElem?_append_cons_length (x e : GoString) (c : Char) :
    (x ++ c :: e)[x.length]? = some c := by
  rw [List.getElem?_append_right (Nat.le_refl _)]
  simp

theorem getElem?_append_cons_succ (x e : GoString) (c : Char) (k : Nat) :
    (x ++ c :: e)[x.length + 1 + k]? = e[k]? := by
  rw [List.getElem?_append_right (by omega)]
  have : x.length + 1 + k - x.length = k + 1 := by omega
  rw [this, List.getElem?_cons_succ]

theorem LastIndexByte_append (x e : GoString) (c : Char) (he : c ∉ e) :
    LastIndexByte (x ++ c :: e) c = (x.length : Int) := by
  unfold LastIndexByte
  rcases lastIndexFrom_spec (x ++ c :: e) c (x ++ c :: e).length with ⟨_, h2⟩ | ⟨i, h1, h2, h3, h4⟩
  · exact absurd (getElem?_append_cons_length x e c) (h2 x.length (by simp))
  · rw [h1]
    congr 1
    rcases Nat.lt_trichotomy i x.length with h | h | h
    · exact absurd (getElem?_append_cons_length x e c) (h4 x.length h (by simp))
    · exact h
    · exfalso
      obtain ⟨k, hk⟩ : ∃ k, i = x.length + 1 + k := ⟨i - x.length - 1, by omega⟩
      rw [hk, getElem?_append_cons_succ] at h3
      exact he (List.getElem?_mem h3)

theorem LastIndexByte_not_mem (e : GoString) (c : Char) (he : c ∉ e) :
    LastIndexByte e c = -1 := by
  unfold LastIndexByte
  rcases lastIndexFrom_spec e c e.length with ⟨h1, _⟩ | ⟨i, _, _, h3, _⟩
  · exact h1
  · exact absurd (List.getElem?_mem h3) he

theorem getElem?_append_last (b e : GoString) (he : e ≠ []) :
    ∃ d ∈ e, (b ++ e)[(b ++ e).length - 1]? = some d := by
  obtain ⟨e1, d, rfl⟩ : ∃ e1 d, e = e1 ++ [d] :=
    ⟨e.dropLast, e.getLast he, (List.dropLast_append_getLast he).symm⟩
  refine ⟨d, by simp, ?_⟩
  have h : (b ++ (e1 ++ [d])).length - 1 = (b ++ e1).length := by simp
  rw [h, ← List.append_assoc]
  exact List.getElem?_concat_length _ _

theorem stripSlashes_of_last (n : Nat) (p : GoString) (h : p[p.length - 1]? ≠ some '/') :
    stripSlashes n p = p := by
  cases n with
  | zero => rfl
  | succ n =>
    unfold stripSlashes
    rw [if_neg (fun h1 => h h1.2)]

theorem not_mem_drop_of_lastIndex (s : GoString) (c : Char) (i : Nat)
    (h : ∀ j, i ≤ j → j < s.length → s[j]? ≠ some c) : c ∉ s.drop i := by
  intro hc
  obtain ⟨k, hk⟩ := List.getElem?_of_mem hc
  rw [List.getElem?_drop] at hk
  have hlt : i + k < s.length := by
    by_contra hge
    rw [List.getElem?_eq_none (by omega)] at hk
    exact Option.noConfusion hk
  exact h (i + k) (by omega) hlt hk

/-- The value of `path.Base` on a path that ends in a slash-free, non-empty element after a
directory prefix is that element. -/
theorem Base_append (b e : GoString) (hb : DirPart b) (he : e ≠ []) (hs : '/' ∉ e) :
    Base (b ++ e) = e := by
  have hne : b ++ e ≠ [] := by simp [he]
  obtain ⟨d, hd, hlast⟩ := getElem?_append_last b e he
  have hstrip : stripSlashes (b ++ e).length (b ++ e) = b ++ e := by
    apply stripSlashes_of_last
    rw [hlast]
    intro h
    injection h with h
    exact hs (h ▸ hd)
  unfold Base
  rw [if_neg hne]
  simp only [hstrip]
  rcases hb with rfl | ⟨b1, rfl⟩
  · rw [List.nil_append, LastIndexByte_not_mem e '/' hs]
    simp [he]
  · rw [List.append_assoc, List.singleton_append, LastIndexByte_append b1 e '/' hs]
    have h1 : ((b1.length : Int) + 1).toNat = b1.length + 1 := by omega
    simp [h1, he]

/-- The result of `path.Base` has no slash, unless it is the root `/`. -/
theorem Base_slash (p : GoString) (h : '/' ∈ Base p) : Base p = ['/'] := by
  by_cases hp : p = []
  · subst hp
    exact absurd h (by decide)
  · have key : ∀ p1 : GoString,
        '/' ∉ (if LastIndexByte p1 '/' ≥ 0 then p1.drop (LastIndexByte p1 '/' + 1).toNat else p1) := by
      intro p1
      unfold LastIndexByte
      rcases lastIndexFrom_spec p1 '/' p1.length with ⟨h3, h4⟩ | ⟨i, h3, _, _, h6⟩
      · rw [h3]
        simp only [show ¬ ((-1 : Int) ≥ 0) by omega, if_false]
        intro hmem
        obtain ⟨k, hk⟩ := List.getElem?_of_mem hmem
        have hlt : k < p1.length := by
          by_contra hge
          rw [List.getElem?_eq_none (by omega)] at hk
          exact Option.noConfusion hk
        exact h4 k hlt hk
      · rw [h3]
        have h7 : ((i : Int) + 1).toNat = i + 1 := by omega
        simp only [show ((i : Int) ≥ 0) by omega, if_true, h7]
        exact not_mem_drop_of_lastIndex p1 '/' (i + 1) (fun j hj1 hj2 => h6 j (by omega) hj2)
    have hk := key (stripSlashes p.length p)
    unfold Base at h ⊢
    rw [if_neg hp] at h ⊢
    simp only at h ⊢
    generalize (if LastIndexByte (stripSlashes p.length p) '/' ≥ 0
      then (stripSlashes p.length p).drop (LastIndexByte (stripSlashes p.length p) '/' + 1).toNat
      else stripSlashes p.length p) = p2 at h hk ⊢
    by_cases h2 : p2 = []
    · rw [if_pos h2]
    · rw [if_neg h2] at h
      exact absurd h hk

theorem Split_append (b e : GoString) (hs : '/' ∉ e) :
    Split (b ++ '/' :: e) = (b ++ ['/'], e) := by
  unfold Split
  simp only [LastIndexByte_append b e '/' hs]
  have h1 : ((b.length : Int) + 1).toNat = b.length + 1 := by omega
  rw [h1]
  have h2 : b ++ '/' :: e = (b ++ ['/']) ++ e := by simp
  have h3 : b.length + 1 = (b ++ ['/']).length := by simp
  rw [h2, h3, List.take_left, List.drop_left]

end path

/-! ## Lemmas on `path.Clean` -/

namespace path

theorem cleanLoop_cons (rooted : Bool) (n : Nat) (c : Char) (rest : GoString) (st : CleanState) :
    cleanLoop rooted (n + 1) (c :: rest) st =
      cleanLoop rooted n (cleanStep rooted c rest st).1 (cleanStep rooted c rest st).2 := by
  rw [cleanLoop]
  unfold cleanStep
  split_ifs <;> rfl

theorem dropWhile_length_le (f : Char → Bool) (l : GoString) :
    (l.dropWhile f).length ≤ l.length := by
  induction l with
  | nil => simp
  | cons a l ih =>
    rw [List.dropWhile_cons]
    split
    · exact Nat.le_succ_of_le ih
    · exact Nat.le_refl _

theorem cleanStep_length (rooted : Bool) (c : Char) (rest : GoString) (st : CleanState) :
    (cleanStep rooted c rest st).1.length ≤ rest.length := by
  unfold cleanStep
  by_cases h1 : c = '/'
  · simp [h1]
  · have : ((c :: rest).dropWhile (· ≠ '/')) = rest.dropWhile (· ≠ '/') := by
      rw [List.dropWhile_cons]
      simp [h1]
    rw [this]
    have hd := dropWhile_length_le (· ≠ '/') rest
    split_ifs <;> first | exact hd | simp

/-- The loop of `path.Clean` needs no more fuel than the length of the unread
part. -/
theorem cleanLoop_fuel (rooted : Bool) :
    ∀ (n : Nat) (s : GoString) (st : CleanState), s.length ≤ n →
      cleanLoop rooted n s st = cleanLoop rooted s.length s st := by
  intro n
  induction n using Nat.strong_induction_on with
  | _ n ih =>
    intro s st hn
    cases s with
    | nil => cases n <;> simp [cleanLoop]
    | cons c rest =>
      cases n with
      | zero => simp at hn
      | succ n =>
        have hlen := cleanStep_length rooted c rest st
        have hn1 : rest.length ≤ n := by simpa using hn
        rw [List.length_cons, cleanLoop_cons, cleanLoop_cons,
          ih n (Nat.lt_succ_self n) _ _ (Nat.le_trans hlen hn1)]
        rcases Nat.lt_or_ge rest.length (n + 1) with h | h
        · rw [ih rest.length h _ _ hlen]
        · omega

theorem cleanRun_nil (rooted : Bool) (st : CleanState) : cleanRun rooted [] st = st := by
  simp [cleanRun, cleanLoop]

theorem cleanRun_cons (rooted : Bool) (c : Char) (rest : GoString) (st : CleanState) :
    cleanRun rooted (c :: rest) st =
      cleanRun rooted (cleanStep rooted c rest st).1 (cleanStep rooted c rest st).2 := by
  unfold cleanRun
  rw [List.length_cons, cleanLoop_cons, cleanLoop_fuel rooted _ _ _ (cleanStep_length rooted c rest st)]

theorem cleanRun_slash (rooted : Bool) (rest : GoString) (st : CleanState) :
    cleanRun rooted ('/' :: rest) st = cleanRun rooted rest st := by
  rw [cleanRun_cons]
  simp [cleanStep]

theorem takeWhile_elem (e cont : GoString) (he : '/' ∉ e) (hc : Term cont) :
    (e ++ cont).takeWhile (· ≠ '/') = e := by
  have h : ∀ a ∈ e, (decide (a ≠ '/')) = true := by
    intro a ha
    simp only [decide_eq_true_eq]
    exact fun h1 => he (h1 ▸ ha)
  rw [List.takeWhile_append_of_pos h]
  rcases hc with rfl | ⟨r, rfl⟩ <;> simp

theorem dropWhile_elem (e cont : GoString) (he : '/' ∉ e) (hc : Term cont) :
    (e ++ cont).dropWhile (· ≠ '/') = cont := by
  have h : ∀ a ∈ e, (decide (a ≠ '/')) = true := by
    intro a ha
    simp only [decide_eq_true_eq]
    exact fun h1 => he (h1 ▸ ha)
  rw [List.dropWhile_append_of_pos h]
  rcases hc with rfl | ⟨r, rfl⟩ <;> simp

/-- An iteration of the loop of `path.Clean` that starts at a path element
reads exactly that element, and what it writes does not depend on what
follows the element. -/
theorem cleanStep_elem (rooted : Bool) (c : Char) (e cont : GoString) (st : CleanState)
    (hc : c ≠ '/') (he : '/' ∉ e) (ht : Term cont) :
    cleanStep rooted c (e ++ cont) st = (cont, (cleanStep rooted c e st).2) := by
  have htake := takeWhile_elem (c :: e) cont (by simp [he, Ne.symm hc]) ht
  have hdrop := dropWhile_elem (c :: e) cont (by simp [he, Ne.symm hc]) ht
  have htake0 := takeWhile_elem (c :: e) [] (by simp [he, Ne.symm hc]) (Or.inl rfl)
  rw [List.cons_append] at htake hdrop
  rw [List.append_nil] at htake0
  unfold cleanStep
  rw [htake, hdrop, htake0]
  rcases e with _ | ⟨d, _ | ⟨d2, e2⟩⟩
  · rcases ht with rfl | ⟨r, rfl⟩ <;> simp [hc, endsElem] <;> split_ifs <;> rfl
  · have hd : d ≠ '/' := fun h => he (by simp [h])
    rcases ht with rfl | ⟨r, rfl⟩ <;> simp [hc, hd, endsElem] <;> split_ifs <;> rfl
  · have hd : d ≠ '/' := fun h => he (by simp [h])
    have hd2 : d2 ≠ '/' := fun h => he (by simp [h])
    rcases ht with rfl | ⟨r, rfl⟩ <;> simp [hc, hd, hd2, endsElem]

theorem cleanRun_elem (rooted : Bool) (c : Char) (e cont : GoString) (st : CleanState)
    (hc : c ≠ '/') (he : '/' ∉ e) (ht : Term cont) :
    cleanRun rooted (c :: e ++ cont) st = cleanRun rooted cont (cleanStep rooted c e st).2 := by
  rw [List.cons_append, cleanRun_cons, cleanStep_elem rooted c e cont st hc he ht]

/-- On a real path element the loop of `path.Clean` writes a separator, if
one is needed, and the element. -/
theorem cleanStep_real (rooted : Bool) (c : Char) (e : GoString) (st : CleanState)
    (h : RealElem (c :: e)) :
    (cleanStep rooted c e st).2 = { st with buf := addSlash rooted st.buf ++ c :: e } := by
  obtain ⟨_, hs, h1, h2⟩ := h
  have hc : c ≠ '/' := fun h => hs (by simp [h])
  have he : '/' ∉ e := fun h => hs (by simp [h])
  have htake0 := takeWhile_elem (c :: e) [] (by simp [he, Ne.symm hc]) (Or.inl rfl)
  rw [List.append_nil] at htake0
  unfold cleanStep
  rw [htake0]
  rcases e with _ | ⟨d, _ | ⟨d2, e2⟩⟩
  · have hc2 : c ≠ '.' := fun h => h1 (by simp [h])
    simp [hc, hc2]
  · have hd : d ≠ '/' := fun h => he (by simp [h])
    have hcd : ¬ (c = '.' ∧ d = '.') := fun h => h2 (by simp [h.1, h.2])
    simp [hc, hd, endsElem, hcd]
  · have hd : d ≠ '/' := fun h => he (by simp [h])
    have hd2 : d2 ≠ '/' := fun h => he (by simp [h])
    simp [hc, hd, hd2, endsElem]

theorem cleanRun_real (rooted : Bool) (e cont : GoString) (st : CleanState)
    (h : RealElem e) (ht : Term cont) :
    cleanRun rooted (e ++ cont) st =
      cleanRun rooted cont { st with buf := addSlash rooted st.buf ++ e } := by
  rcases e with _ | ⟨c, e⟩
  · exact absurd rfl h.1
  · have hc : c ≠ '/' := fun h1 => h.2.1 (by simp [h1])
    have he : '/' ∉ e := fun h1 => h.2.1 (by simp [h1])
    rw [cleanRun_elem rooted c e cont st hc he ht, cleanStep_real rooted c e st h]

theorem DirPart_tail (c : Char) (q : GoString) (h : DirPart (c :: q)) : DirPart q := by
  rcases h with h | ⟨b, hb⟩
  · exact absurd h (by simp)
  · rcases b with _ | ⟨d, b⟩
    · left
      simp at hb
      exact hb.2
    · right
      simp at hb
      exact ⟨b, hb.2⟩

theorem DirPart_of_append (e r b : GoString) (hb : e ++ '/' :: r = b ++ ['/']) :
    DirPart ('/' :: r) := by
  right
  rcases List.eq_nil_or_concat r with hr | ⟨r1, x, hr⟩
  · exact ⟨[], by simp [hr]⟩
  · refine ⟨'/' :: r1, ?_⟩
    rw [List.concat_eq_append] at hr
    subst hr
    have h1 : e ++ '/' :: (r1 ++ [x]) = (e ++ '/' :: r1) ++ [x] := by simp
    rw [h1] at hb
    have hx := (List.append_inj' hb rfl).2
    simp at hx
    simp [hx]

theorem DirPart_split (c : Char) (q : GoString) (hc : c ≠ '/') (h : DirPart (c :: q)) :
    ∃ e r, q = e ++ '/' :: r ∧ '/' ∉ e ∧ DirPart ('/' :: r) := by
  rcases DirPart_tail c q h with hq | ⟨b, hb⟩
  · subst hq
    rcases h with h | ⟨b, hb⟩
    · exact absurd h (by simp)
    · rcases b with _ | ⟨d, b⟩
      · simp at hb
        exact absurd hb hc
      · simp at hb
  · have hmem : '/' ∈ q := by rw [hb]; simp
    obtain ⟨e, r, hqe, hne⟩ := List.eq_append_cons_of_mem hmem
    exact ⟨e, r, hqe, hne, DirPart_of_append e r b (hqe ▸ hb)⟩

/-- The loop of `path.Clean` reads a directory prefix `q` in the same way
whatever follows it. -/
theorem cleanRun_dirPart (rooted : Bool) (t : GoString) :
    ∀ (n : Nat) (q : GoString) (st : CleanState), q.length ≤ n → DirPart q →
      cleanRun rooted (q ++ t) st = cleanRun rooted t (cleanRun rooted q st) := by
  intro n
  induction n with
  | zero =>
    intro q st hn _
    have : q = [] := List.length_eq_zero.1 (Nat.le_zero.1 hn)
    subst this
    rw [List.nil_append, cleanRun_nil]
  | succ n ih =>
    intro q st hn hq
    rcases q with _ | ⟨c, q⟩
    · rw [List.nil_append, cleanRun_nil]
    · have hlen : q.length ≤ n := by simpa using hn
      by_cases hc : c = '/'
      · subst hc
        rw [List.cons_append, cleanRun_slash, cleanRun_slash]
        exact ih q st hlen (DirPart_tail _ q hq)
      · obtain ⟨e, r, hqe, he, hr⟩ := DirPart_split c q hc hq
        subst hqe
        have h1 : c :: (e ++ '/' :: r) ++ t = c :: e ++ '/' :: (r ++ t) := by simp
        have h2 : c :: (e ++ '/' :: r) = c :: e ++ '/' :: r := by simp
        rw [h1, cleanRun_elem rooted c e _ st hc he (Or.inr ⟨r ++ t, rfl⟩), h2,
          cleanRun_elem rooted c e _ st hc he (Or.inr ⟨r, rfl⟩)]
        exact ih ('/' :: r) _ (by simp at hlen ⊢; omega) hr

theorem backtrack_bounds (buf : GoString) (dd : Nat) :
    ∀ w, dd ≤ w → dd ≤ backtrack buf dd w ∧ backtrack buf dd w ≤ w := by
  intro w
  induction w with
  | zero => intro h; simp [backtrack, h]
  | succ w ih =>
    intro h
    unfold backtrack
    split
    · rename_i h1
      have := ih (by omega)
      exact ⟨this.1, by omega⟩
    · exact ⟨h, Nat.le_refl _⟩

theorem addSlash_length (rooted : Bool) (buf : GoString) :
    buf.length ≤ (addSlash rooted buf).length := by
  unfold addSlash
  split <;> simp

theorem addSlash_head (rooted : Bool) (buf : GoString) (h : 0 < buf.length) :
    (addSlash rooted buf)[0]? = buf[0]? := by
  unfold addSlash
  split
  · exact List.getElem?_append_left h
  · rfl

theorem cleanStep_inv (rooted : Bool) (c : Char) (rest : GoString) (st : CleanState)
    (h : CleanInv rooted st) : CleanInv rooted (cleanStep rooted c rest st).2 := by
  obtain ⟨h1, h2⟩ := h
  unfold cleanStep
  by_cases c1 : c = '/'
  · rw [if_pos c1]
    exact ⟨h1, h2⟩
  rw [if_neg c1]
  by_cases c2 : c = '.' ∧ endsElem (c :: rest) 1
  · rw [if_pos c2]
    exact ⟨h1, h2⟩
  rw [if_neg c2]
  by_cases c3 : c = '.' ∧ rest[0]? = some '.' ∧ endsElem (c :: rest) 2
  · rw [if_pos c3]
    by_cases c4 : st.buf.length > st.dotdot
    · rw [if_pos c4]
      have hb := backtrack_bounds st.buf st.dotdot (st.buf.length - 1) (by omega)
      refine ⟨?_, fun hr => ?_⟩
      · simp only [List.length_take]
        omega
      · obtain ⟨h3, h4⟩ := h2 hr
        refine ⟨h3, ?_⟩
        simp only
        rw [List.getElem?_take_of_lt (by omega)]
        exact h4
    · rw [if_neg c4]
      by_cases c5 : ¬ rooted
      · rw [if_pos c5]
        exact ⟨Nat.le_refl _, fun hr => absurd hr c5⟩
      · rw [if_neg c5]
        exact ⟨h1, h2⟩
  · rw [if_neg c3]
    refine ⟨?_, fun hr => ?_⟩
    · simp only [List.length_append]
      have := addSlash_length rooted st.buf
      omega
    · obtain ⟨h3, h4⟩ := h2 hr
      refine ⟨h3, ?_⟩
      simp only
      have h5 : 0 < st.buf.length := by omega
      have h6 : 0 < (addSlash rooted st.buf).length :=
        Nat.lt_of_lt_of_le h5 (addSlash_length rooted st.buf)
      rw [List.getElem?_append_left h6, addSlash_head rooted st.buf h5]
      exact h4

theorem cleanRun_inv (rooted : Bool) :
    ∀ (n : Nat) (s : GoString) (st : CleanState), s.length ≤ n → CleanInv rooted st →
      CleanInv rooted (cleanRun rooted s st) := by
  intro n
  induction n with
  | zero =>
    intro s st hn h
    have : s = [] := List.length_eq_zero.1 (Nat.le_zero.1 hn)
    subst this
    rw [cleanRun_nil]
    exact h
  | succ n ih =>
    intro s st hn h
    rcases s with _ | ⟨c, rest⟩
    · rw [cleanRun_nil]
      exact h
    · rw [cleanRun_cons]
      have hlen : rest.length ≤ n := by simpa using hn
      exact ih _ _ (Nat.le_trans (cleanStep_length rooted c rest st) hlen)
        (cleanStep_inv rooted c rest st h)

/-- Before a real path element `path.Clean` has written a directory prefix. -/
theorem addSlash_DirPart (rooted : Bool) (st : CleanState) (h : CleanInv rooted st) :
    DirPart (addSlash rooted st.buf) := by
  unfold addSlash
  split
  · exact Or.inr ⟨st.buf, rfl⟩
  · rename_i hc
    cases rooted with
    | false =>
      left
      simp at hc
      exact hc
    | true =>
      right
      simp at hc
      obtain ⟨_, h4⟩ := h.2 rfl
      refine ⟨[], ?_⟩
      rcases hbuf : st.buf with _ | ⟨x, _ | ⟨y, l⟩⟩
      · rw [hbuf] at hc; simp at hc
      · rw [hbuf] at h4
        simp at h4
        simp [h4]
      · rw [hbuf] at hc; simp at hc

theorem afterDir_inv (q : GoString) : CleanInv (rootedOf q) (afterDir q) := by
  unfold afterDir
  cases h : rootedOf q with
  | false =>
    simp only [Bool.false_eq_true, if_false]
    exact cleanRun_inv false _ _ _ (Nat.le_refl _) ⟨Nat.le_refl _, fun h => absurd h (by simp)⟩
  | true =>
    simp only [if_true]
    exact cleanRun_inv true _ _ _ (Nat.le_refl _) ⟨Nat.le_refl _, fun _ => ⟨rfl, rfl⟩⟩

theorem cleanDir_DirPart (q : GoString) : DirPart (cleanDir q) :=
  addSlash_DirPart _ _ (afterDir_inv q)

/-- The result of `path.Clean` on a directory prefix `q` followed by `t`, in
terms of the loop run on `t` alone. -/
theorem Clean_dirPart (q t : GoString) (hq : DirPart q) (ht : t ≠ [])
    (h0 : q = [] → t[0]? ≠ some '/') :
    Clean (q ++ t) =
      if (cleanRun (rootedOf q) t (afterDir q)).buf.length = 0 then ['.']
      else (cleanRun (rootedOf q) t (afterDir q)).buf := by
  have hne : q ++ t ≠ [] := by simp [ht]
  have hroot : decide ((q ++ t)[0]? = some '/') = rootedOf q := by
    unfold rootedOf
    rcases q with _ | ⟨c, q⟩
    · have := h0 rfl
      simp [this]
    · simp
  unfold Clean
  rw [if_neg hne]
  simp only [hroot]
  unfold afterDir
  cases hr : rootedOf q with
  | false =>
    simp only [Bool.false_eq_true, if_false]
    rw [cleanLoop_fuel false _ _ _ (Nat.le_refl _)]
    have := cleanRun_dirPart false t q.length q { buf := [], dotdot := 0 } (Nat.le_refl _) hq
    unfold cleanRun at this ⊢
    rw [this]
  | true =>
    simp only [if_true]
    rcases q with _ | ⟨c, q⟩
    · simp [rootedOf] at hr
    · have hq1 : DirPart q := DirPart_tail c q hq
      have hd : (c :: q ++ t).drop 1 = q ++ t := by simp
      have hd2 : (c :: q).drop 1 = q := by simp
      rw [hd, hd2, cleanLoop_fuel true _ _ _ (by simp)]
      have := cleanRun_dirPart true t q.length q { buf := ['/'], dotdot := 1 } (Nat.le_refl _) hq1
      unfold cleanRun at this ⊢
      rw [this]

theorem RealElem_head (e : GoString) (h : RealElem e) : e[0]? ≠ some '/' := by
  rcases e with _ | ⟨c, e⟩
  · simp
  · have hc : c ≠ '/' := fun h1 => h.2.1 (by simp [h1])
    simpa using hc

/-- The function `path.Clean` keeps a real last element as it is. -/
theorem Clean_append_elem (q e : GoString) (hq : DirPart q) (he : RealElem e) :
    Clean (q ++ e) = cleanDir q ++ e := by
  rw [Clean_dirPart q e hq he.1 (fun _ => RealElem_head e he)]
  have h := cleanRun_real (rootedOf q) e [] (afterDir q) he (Or.inl rfl)
  rw [List.append_nil, cleanRun_nil] at h
  rw [h]
  have hlen : (addSlash (rootedOf q) (afterDir q).buf ++ e).length ≠ 0 := by
    have := List.length_pos.2 he.1
    simp only [List.length_append]
    omega
  simp only [hlen, if_false]
  rfl

/-- The function `path.Clean` drops a slash after a real last element. -/
theorem Clean_append_elem_slash (q e : GoString) (hq : DirPart q) (he : RealElem e) :
    Clean (q ++ (e ++ ['/'])) = cleanDir q ++ e := by
  rw [Clean_dirPart q (e ++ ['/']) hq (by simp)
    (fun _ => by
      have := RealElem_head e he
      rcases e with _ | ⟨c, e⟩
      · exact absurd rfl he.1
      · simpa using this)]
  have h := cleanRun_real (rootedOf q) e ['/'] (afterDir q) he (Or.inr ⟨[], rfl⟩)
  rw [cleanRun_slash, cleanRun_nil] at h
  rw [h]
  have hlen : (addSlash (rootedOf q) (afterDir q).buf ++ e).length ≠ 0 := by
    have := List.length_pos.2 he.1
    simp only [List.length_append]
    omega
  simp only [hlen, if_false]
  rfl

theorem addSlash_after_elem (q e : GoString) (he : e ≠ []) :
    addSlash (rootedOf q) (cleanDir q ++ e) = cleanDir q ++ e ++ ['/'] := by
  have hinv := afterDir_inv q
  have hpos := List.length_pos.2 he
  have h1 := addSlash_length (rootedOf q) (afterDir q).buf
  unfold addSlash
  rw [if_pos]
  cases hr : rootedOf q with
  | false =>
    right
    refine ⟨by simp, ?_⟩
    simp only [List.length_append]
    omega
  | true =>
    left
    refine ⟨rfl, ?_⟩
    obtain ⟨h3, _⟩ := hinv.2 hr
    have h4 := hinv.1
    unfold cleanDir
    simp only [List.length_append]
    rw [hr] at h1 ⊢
    omega

/-- The function `path.Clean` keeps two real last elements and the slash
between them. -/
theorem Clean_append_elem2 (q e1 e2 : GoString) (hq : DirPart q) (he1 : RealElem e1)
    (he2 : RealElem e2) :
    Clean (q ++ (e1 ++ '/' :: e2)) = cleanDir q ++ e1 ++ '/' :: e2 := by
  rw [Clean_dirPart q (e1 ++ '/' :: e2) hq (by simp)
    (fun _ => by
      have := RealElem_head e1 he1
      rcases e1 with _ | ⟨c, e1⟩
      · exact absurd rfl he1.1
      · simpa using this)]
  have h := cleanRun_real (rootedOf q) e1 ('/' :: e2) (afterDir q) he1 (Or.inr ⟨e2, rfl⟩)
  rw [cleanRun_slash] at h
  have h2 := cleanRun_real (rootedOf q) e2 []
    { afterDir q with buf := addSlash (rootedOf q) (afterDir q).buf ++ e1 } he2 (Or.inl rfl)
  rw [List.append_nil, cleanRun_nil] at h2
  rw [h, h2]
  have h3 := addSlash_after_elem q e1 he1.1
  unfold cleanDir at h3 ⊢
  simp only [h3]
  have hlen : (addSlash (rootedOf q) (afterDir q).buf ++ e1 ++ ['/'] ++ e2).length ≠ 0 := by
    simp only [List.length_append, List.length_singleton]
    omega
  simp only [hlen, if_false]
  simp

end path

/-! ## Lemmas on `path.Join` -/

namespace path

theorem cleanDir_append_slash (q : GoString) (hne : q ≠ []) (hq : DirPart q) :
    cleanDir (q ++ ['/']) = cleanDir q := by
  have hroot : rootedOf (q ++ ['/']) = rootedOf q := by
    unfold rootedOf
    rcases q with _ | ⟨c, q⟩
    · exact absurd rfl hne
    · simp
  unfold cleanDir
  rw [hroot]
  congr 2
  unfold afterDir
  rw [hroot]
  cases hr : rootedOf q with
  | false =>
    simp only [Bool.false_eq_true, if_false]
    rw [cleanRun_dirPart false ['/'] q.length q _ (Nat.le_refl _) hq, cleanRun_slash, cleanRun_nil]
  | true =>
    simp only [if_true]
    rcases q with _ | ⟨c, q⟩
    · exact absurd rfl hne
    · have hd : (c :: q ++ ['/']).drop 1 = q ++ ['/'] := by simp
      have hd2 : (c :: q).drop 1 = q := by simp
      rw [hd, hd2, cleanRun_dirPart true ['/'] q.length q _ (Nat.le_refl _) (DirPart_tail c q hq),
        cleanRun_slash, cleanRun_nil]

theorem joinDir_DirPart (dir : GoString) : DirPart (joinDir dir) := by
  unfold joinDir
  split
  · exact Or.inl rfl
  · exact Or.inr ⟨dir, rfl⟩

/-- The value of `path.Join(dir, name)` for a real element `name`. -/
theorem Join_two (dir name : GoString) (h : RealElem name) :
    Join [dir, name] = cleanDir (joinDir dir) ++ name := by
  have hpos := List.length_pos.2 h.1
  have hsum : ([dir, name].map List.length).sum ≠ 0 := by
    simp only [List.map_cons, List.map_nil, List.sum_cons, List.sum_nil]
    omega
  unfold Join
  rw [if_neg hsum, ← Clean_append_elem _ _ (joinDir_DirPart dir) h]
  congr 1
  unfold joinDir
  by_cases hd : dir = []
  · simp [joinLoop, hd, h.1]
  · have hl : 0 < dir.length := List.length_pos.2 hd
    simp [joinLoop, hd, hl]

/-- The value of `path.Join(out, slug, idx)` for real elements `slug` and
`idx`. -/
theorem Join_three (out slug idx : GoString) (hs : RealElem slug) (hi : RealElem idx) :
    Join [out, slug, idx] = cleanDir (joinDir out) ++ slug ++ '/' :: idx := by
  have hpos := List.length_pos.2 hs.1
  have hsum : ([out, slug, idx].map List.length).sum ≠ 0 := by
    simp only [List.map_cons, List.map_nil, List.sum_cons, List.sum_nil]
    omega
  unfold Join
  rw [if_neg hsum, ← Clean_append_elem2 _ _ _ (joinDir_DirPart out) hs hi]
  congr 1
  unfold joinDir
  by_cases hd : out = []
  · simp [joinLoop, hd, hs.1, hpos]
  · have hl : 0 < out.length := List.length_pos.2 hd
    simp [joinLoop, hd, hl]

/-- The value of `path.Join(out, "", idx)` for a real element `idx`: the empty element
leaves no trace. -/
theorem Join_three_empty (out idx : GoString) (hi : RealElem idx) :
    Join [out, [], idx] = cleanDir (joinDir out) ++ idx := by
  have hpos := List.length_pos.2 hi.1
  have hsum : ([out, [], idx].map List.length).sum ≠ 0 := by
    simp only [List.map_cons, List.map_nil, List.sum_cons, List.sum_nil]
    omega
  unfold Join
  rw [if_neg hsum]
  by_cases hd : out = []
  · rw [← Clean_append_elem _ _ (joinDir_DirPart out) hi]
    congr 1
    simp [joinLoop, joinDir, hd, hi.1]
  · have hl : 0 < out.length := List.length_pos.2 hd
    have hj : joinDir out = out ++ ['/'] := by simp [joinDir, hd]
    rw [hj, ← cleanDir_append_slash (out ++ ['/']) (by simp) (Or.inr ⟨out, rfl⟩),
      ← Clean_append_elem _ _ (Or.inr ⟨out ++ ['/'], rfl⟩) hi]
    congr 1
    simp [joinLoop, hd, hl]

end path

/-! ## Lemmas on the discovery and translation stages -/

theorem HasSuffix_iff (s suf : GoString) :
    strings.HasSuffix s suf = true ↔ ∃ x, s = x ++ suf := by
  unfold strings.HasSuffix
  simp only [Bool.and_eq_true, decide_eq_true_eq, beq_iff_eq]
  constructor
  · rintro ⟨_, h2⟩
    refine ⟨s.take (s.length - suf.length), ?_⟩
    conv_lhs => rw [← List.take_append_drop (s.length - suf.length) s]
    rw [h2]
  · rintro ⟨x, rfl⟩
    refine ⟨by simp, ?_⟩
    have : (x ++ suf).length - suf.length = x.length := by simp
    rw [this, List.drop_left]

/-- Behind a directory prefix, a name ends in `.md` exactly when the whole
path does. -/
theorem HasSuffix_md (b name : GoString) (hb : path.DirPart b) :
    strings.HasSuffix (b ++ name) ".md".toList = strings.HasSuffix name ".md".toList := by
  rw [Bool.eq_iff_iff, HasSuffix_iff, HasSuffix_iff]
  constructor
  · rintro ⟨x, hx⟩
    rcases hb with rfl | ⟨b1, rfl⟩
    · exact ⟨x, hx⟩
    · rcases List.append_eq_append_iff.1 hx with ⟨a, h1, h2⟩ | ⟨c, h1, h2⟩
      · exact ⟨a, h2⟩
      · rcases List.eq_nil_or_concat c with hc | ⟨c1, y, hc⟩
        · subst hc
          exact ⟨[], by rw [h2]; rfl⟩
        · exfalso
          rw [List.concat_eq_append] at hc
          subst hc
          rw [← List.append_assoc] at h1
          have hy := (List.append_inj' h1 rfl).2
          simp at hy
          subst hy
          have hmem : '/' ∈ ".md".toList := by
            rw [h2]
            simp
          exact absurd hmem (by decide)
  · rintro ⟨x, hx⟩
    exact ⟨b ++ x, by rw [hx, List.append_assoc]⟩

theorem ValidName_RealElem (name : GoString) (h : ValidName name) : path.RealElem name := h

/-- The path that `findArticlesPaths` builds for a directory entry keeps the
entry's name as its last element. -/
theorem Base_Join_name (dir name : GoString) (h : ValidName name) :
    path.Base (path.Join [dir, name]) = name := by
  rw [path.Join_two dir name h]
  exact path.Base_append _ _ (path.cleanDir_DirPart _) h.1 h.2.1

theorem HasSuffix_Join_name (dir name : GoString) (h : ValidName name) :
    strings.HasSuffix (path.Join [dir, name]) ".md".toList =
      strings.HasSuffix name ".md".toList := by
  rw [path.Join_two dir name h]
  exact HasSuffix_md _ _ (path.cleanDir_DirPart _)

/-- The middle component of a file name that splits into three is a real
path element as soon as it is not empty. -/
theorem slug_RealElem (p a slug c : GoString)
    (h : strings.Split (path.Base p) '.' = [a, slug, c]) (hne : slug ≠ []) :
    path.RealElem slug := by
  have hmem : slug ∈ strings.Split (path.Base p) '.' := by rw [h]; simp
  have hdot : '.' ∉ slug := strings.sep_not_mem_of_mem_Split _ _ slug hmem
  have hbase : '/' ∉ path.Base p := by
    intro hs
    rw [path.Base_slash p hs] at h
    simp [strings.Split] at h
  have hslash : '/' ∉ slug := fun hs => hbase (strings.mem_of_mem_Split _ _ slug hmem _ hs)
  refine ⟨hne, hslash, ?_, ?_⟩
  · intro h1
    exact hdot (by simp [h1])
  · intro h1
    exact hdot (by simp [h1])

theorem indexHtml_RealElem : path.RealElem "index.html".toList := by
  unfold path.RealElem
  decide

theorem translate_Ok (out p a slug c : GoString)
    (h : strings.Split (path.Base p) '.' = [a, slug, c]) :
    translate out (Ok p) =
      some { inPath := p, outPath := path.Join [out, slug, "index.html".toList] } := by
  unfold translate
  simp [Ok, h]

theorem translate_none (out p : GoString) (h : (strings.Split (path.Base p) '.').length ≠ 3) :
    translate out (Ok p) = none := by
  unfold translate
  simp [Ok, h]

/-- The output path of a job whose slug is not empty. -/
theorem outPath_real (out slug : GoString) (hs : path.RealElem slug) :
    path.Join [out, slug, "index.html".toList] =
      path.cleanDir (path.joinDir out) ++ slug ++ '/' :: "index.html".toList :=
  path.Join_three out slug _ hs indexHtml_RealElem

/-- The output path of a job whose slug is empty. -/
theorem outPath_empty (out : GoString) :
    path.Join [out, [], "index.html".toList] =
      path.cleanDir (path.joinDir out) ++ "index.html".toList :=
  path.Join_three_empty out _ indexHtml_RealElem

/-! ## The translation stage -/

/-- C1, amended: for every output root and every discovered path whose file
name splits on `.` into exactly three components `a.slug.c` with a non-empty
slug, the translation stage builds a job whose output path has `index.html`
as its last element and `slug` as the last element of its parent directory;
`foo.my-slug.md` with output root `/out` gives `/out/my-slug/index.html`. -/
theorem translate_outPath_slug (out p a slug c : GoString)
    (h : strings.Split (path.Base p) '.' = [a, slug, c]) (hne : slug ≠ []) :
    (∃ job, translate out (Ok p) = some job ∧
      path.Base job.outPath = "index.html".toList ∧
      path.Base (path.Dir job.outPath) = slug) ∧
    translate "/out".toList (Ok "foo.my-slug.md".toList) =
      some { inPath := "foo.my-slug.md".toList, outPath := "/out/my-slug/index.html".toList } := by
  refine ⟨?_, by decide⟩
  have hs := slug_RealElem p a slug c h hne
  refine ⟨_, translate_Ok out p a slug c h, ?_, ?_⟩
  · simp only [outPath_real out slug hs]
    have h1 : path.cleanDir (path.joinDir out) ++ slug ++ '/' :: "index.html".toList =
        (path.cleanDir (path.joinDir out) ++ slug ++ ['/']) ++ "index.html".toList := by simp
    rw [h1]
    exact path.Base_append _ _ (Or.inr ⟨_, rfl⟩) indexHtml_RealElem.1 indexHtml_RealElem.2.1
  · simp only [outPath_real out slug hs]
    unfold path.Dir
    rw [path.Split_append _ _ indexHtml_RealElem.2.1]
    simp only
    rw [List.append_assoc, path.Clean_append_elem_slash _ _ (path.cleanDir_DirPart _) hs]
    exact path.Base_append _ _ (path.cleanDir_DirPart _) hs.1 hs.2.1

theorem translate_outPath_slug_witness :
    (∃ job, translate "/out".toList (Ok "src/foo.my-slug.md".toList) = some job ∧
      path.Base job.outPath = "index.html".toList ∧
      path.Base (path.Dir job.outPath) = "my-slug".toList) ∧
    translate "/out".toList (Ok "foo.my-slug.md".toList) =
      some { inPath := "foo.my-slug.md".toList, outPath := "/out/my-slug/index.html".toList } :=
  translate_outPath_slug "/out".toList "src/foo.my-slug.md".toList "foo".toList "my-slug".toList
    "md".toList (by decide) (by decide)

/-- C1 as stated fails: the file name `a..md` splits into the three
components `a`, the empty slug and `md`, and with output root `/out` its job
has the output path `/out/index.html`, whose parent directory ends in `out`,
not in the slug. -/
theorem translate_outPath_empty_slug :
    ¬ ∀ (out p a slug c : GoString) (job : renderJob),
      strings.Split (path.Base p) '.' = [a, slug, c] → translate out (Ok p) = some job →
        path.Base job.outPath = "index.html".toList ∧ path.Base (path.Dir job.outPath) = slug := by
  intro h
  have h1 := h "/out".toList "src/a..md".toList "a".toList [] "md".toList
    { inPath := "src/a..md".toList, outPath := "/out/index.html".toList } (by decide) (by decide)
  exact absurd h1.2 (by decide)

/-- C2: a discovered path becomes a render job exactly when its file name
splits on `.` into exactly three components, an error value never does, the
job carries the discovered path unchanged as its input path, and the names
`not-valid.md` and `a.b.c.md` give no job. -/
theorem translate_format_gate (out p : GoString) :
    ((∃ job, translate out (Ok p) = some job) ↔
      (strings.Split (path.Base p) '.').length = 3) ∧
    (∀ job, translate out (Ok p) = some job → job.inPath = p) ∧
    (∀ e : GoError, translate out (Err e) = none) ∧
    translate out (Ok "not-valid.md".toList) = none ∧
    translate out (Ok "a.b.c.md".toList) = none := by
  refine ⟨?_, ?_, ?_, ?_, ?_⟩
  · unfold translate
    by_cases h : (strings.Split (path.Base p) '.').length = 3
    · simp [Ok, h]
    · simp [Ok, h]
  · intro job hj
    unfold translate at hj
    by_cases h : (strings.Split (path.Base p) '.').length = 3
    · simp [Ok, h] at hj
      rw [← hj]
    · simp [Ok, h] at hj
  · intro e
    simp [translate, Err]
  · exact translate_none out _ (by decide)
  · exact translate_none out _ (by decide)

/-- C10: for every output root, two discovered paths whose file names each
split on `.` into exactly three components and whose slugs differ get
different output paths. -/
theorem translate_outPath_ne (out p1 p2 a1 s1 c1 a2 s2 c2 : GoString)
    (h1 : strings.Split (path.Base p1) '.' = [a1, s1, c1])
    (h2 : strings.Split (path.Base p2) '.' = [a2, s2, c2]) (hne : s1 ≠ s2) :
    ∃ j1 j2, translate out (Ok p1) = some j1 ∧ translate out (Ok p2) = some j2 ∧
      j1.outPath ≠ j2.outPath := by
  refine ⟨_, _, translate_Ok out p1 a1 s1 c1 h1, translate_Ok out p2 a2 s2 c2 h2, ?_⟩
  simp only
  have hlen : ∀ (b s : GoString), s ≠ [] →
      b ++ "index.html".toList ≠ b ++ s ++ '/' :: "index.html".toList := by
    intro b s hs heq
    have := congrArg List.length heq
    simp at this
  by_cases e1 : s1 = []
  · by_cases e2 : s2 = []
    · exact absurd (e1.trans e2.symm) hne
    · subst e1
      rw [outPath_empty, outPath_real out s2 (slug_RealElem p2 a2 s2 c2 h2 e2)]
      exact hlen _ _ e2
  · by_cases e2 : s2 = []
    · subst e2
      rw [outPath_empty, outPath_real out s1 (slug_RealElem p1 a1 s1 c1 h1 e1)]
      exact fun heq => hlen _ _ e1 heq.symm
    · rw [outPath_real out s1 (slug_RealElem p1 a1 s1 c1 h1 e1),
        outPath_real out s2 (slug_RealElem p2 a2 s2 c2 h2 e2)]
      intro heq
      rw [List.append_assoc, List.append_assoc] at heq
      have h3 := List.append_cancel_left heq
      exact hne (List.append_cancel_right h3)

theorem translate_outPath_ne_witness :
    ∃ j1 j2, translate "/out".toList (Ok "src/a.post-one.md".toList) = some j1 ∧
      translate "/out".toList (Ok "src/b.post-two.md".toList) = some j2 ∧
      j1.outPath ≠ j2.outPath :=
  translate_outPath_ne "/out".toList "src/a.post-one.md".toList "src/b.post-two.md".toList
    "a".toList "post-one".toList "md".toList "b".toList "post-two".toList "md".toList
    (by decide) (by decide) (by decide)

/-! ## The discovery stage -/

theorem foldl_send {α β : Type} (f : α → β) (c1 c2 : α → Bool) (l : List α)
    (h : ∀ a ∈ l, c1 a = c2 a) (init : List β) :
    l.foldl (fun res a => if c1 a then res ++ [f a] else res) init =
      init ++ (l.filter c2).map f := by
  induction l generalizing init with
  | nil => simp
  | cons a l ih =>
    have ha := h a (by simp)
    have hl : ∀ b ∈ l, c1 b = c2 b := fun b hb => h b (by simp [hb])
    rw [List.foldl_cons, ih hl, List.filter_cons]
    cases hc : c2 a with
    | false => simp [ha, hc]
    | true => simp [ha, hc]

/-- What `findArticlesPaths` sends when the listing of `dir` succeeds. -/
theorem findArticlesPaths_sent {σ : Type} (os : OS σ) (dir : GoString) (s s1 : σ)
    (entries : List DirEntry) (h : os.ReadDir dir s = ((entries, none), s1))
    (hv : ∀ e ∈ entries, ValidName e.Name) :
    findArticlesPaths os dir s =
      ({ sent := (entries.filter (fun e => strings.HasSuffix e.Name ".md".toList)).map
            (fun e => Ok (path.Join [dir, e.Name])),
         closed := true }, s1) := by
  unfold findArticlesPaths
  rw [h]
  simp only
  rw [foldl_send (fun e : DirEntry => Ok (path.Join [dir, e.Name]))
    (fun e => strings.HasSuffix (path.Join [dir, e.Name]) ".md".toList)
    (fun e => strings.HasSuffix e.Name ".md".toList) entries
    (fun e he => HasSuffix_Join_name dir e.Name (hv e he))]
  simp

/-- C5: when the listing of `dir` succeeds, `findArticlesPaths` sends, in
listing order and once each, `Ok(path.Join(dir, name))` for exactly the
entries whose name ends in `.md`, sends nothing else (no error value), and
closes the channel. -/
theorem findArticlesPaths_listed {σ : Type} (os : OS σ) (dir : GoString) (s s1 : σ)
    (entries : List DirEntry) (h : os.ReadDir dir s = ((entries, none), s1))
    (hv : ∀ e ∈ entries, ValidName e.Name) :
    (findArticlesPaths os dir s).1.sent =
        (entries.filter (fun e => strings.HasSuffix e.Name ".md".toList)).map
          (fun e => Ok (path.Join [dir, e.Name])) ∧
      (∀ r ∈ (findArticlesPaths os dir s).1.sent, r.Err = none) ∧
      (findArticlesPaths os dir s).1.closed = true := by
  rw [findArticlesPaths_sent os dir s s1 entries h hv]
  refine ⟨rfl, ?_, rfl⟩
  intro r hr
  simp only [List.mem_map] at hr
  obtain ⟨e, _, rfl⟩ := hr
  rfl

theorem findArticlesPaths_listed_witness :
    (findArticlesPaths (listingOS sampleListing none) "src".toList ()).1.sent =
        (sampleListing.filter (fun e => strings.HasSuffix e.Name ".md".toList)).map
          (fun e => Ok (path.Join ["src".toList, e.Name])) ∧
      (∀ r ∈ (findArticlesPaths (listingOS sampleListing none) "src".toList ()).1.sent,
        r.Err = none) ∧
      (findArticlesPaths (listingOS sampleListing none) "src".toList ()).1.closed = true :=
  findArticlesPaths_listed (listingOS sampleListing none) "src".toList () () sampleListing rfl
    (by decide)

/-- C6 fails on the code: when `os.ReadDir` reports an error together with
the entries it could read, `findArticlesPaths` sends the error and then goes
on to send a path for the entry `a.post.md`: two values, not one. -/
theorem findArticlesPaths_error_then_paths :
    findArticlesPaths (listingOS [⟨"a.post.md".toList⟩] (some "input/output error"))
        "src".toList () =
      ({ sent := [Err "input/output error", Ok "src/a.post.md".toList], closed := true }, ()) := by
  decide

/-! ## One render task -/

/-- The result and final world of a task do not depend on the call log. -/
theorem renderTask_logged {σ : Type} (os : OS σ) (job : renderJob) (s : σ) (log : List Call) :
    ((renderTask os.logged job (s, log)).1, (renderTask os.logged job (s, log)).2.1) =
      renderTask os job s := by
  unfold renderTask
  simp only [OS.logged]
  rcases h1 : os.ReadFile job.inPath s with ⟨_ | b, s1⟩
  · rfl
  · simp only
    rcases h2 : os.MkdirAll (path.Dir job.outPath) 0o777 s1 with ⟨_ | e, s2⟩
    · simp only
      rcases h3 : os.Create job.outPath s2 with ⟨_ | dst, s3⟩
      · rfl
      · simp only
        rcases h4 : os.Execute dst
          { Title := "title".toList, CreatedAt := "23/07/23".toList, Content := os.Markdown b }
          s3 with ⟨_ | e, s4⟩ <;> rfl
    · rfl

theorem renderTask_of_succeed {σ : Type} (os : OS σ) (job : renderJob) (s : σ)
    (b : GoString) (dst : File) (s4 : σ) (h : StepsSucceed os job s b dst s4) :
    renderTask os job s = ({ path := job.outPath, err := none }, s4) := by
  obtain ⟨s1, s2, s3, h1, h2, h3, h4⟩ := h
  unfold renderTask
  unfold taskData at h4
  simp only [h1, h2, h3, h4]

theorem renderTask_of_failure {σ : Type} (os : OS σ) (job : renderJob) (s : σ)
    (steps : Nat) (err : GoError) (sEnd : σ) (h : FirstFailure os job s steps err sEnd) :
    renderTask os job s = ({ path := job.inPath, err := some err }, sEnd) := by
  unfold renderTask
  rcases h with ⟨_, h1⟩ | ⟨_, b, s1, h1, h2⟩ | ⟨_, b, s1, s2, h1, h2, h3⟩ |
    ⟨_, b, s1, s2, dst, s3, h1, h2, h3, h4⟩
  · simp only [h1]
  · simp only [h1, h2]
  · simp only [h1, h2, h3]
  · unfold taskData at h4
    simp only [h1, h2, h3, h4]

theorem taskCalls_of_succeed {σ : Type} (os : OS σ) (job : renderJob) (s : σ)
    (b : GoString) (dst : File) (s4 : σ) (h : StepsSucceed os job s b dst s4) :
    taskCalls os job s =
      [Call.ReadFile job.inPath, Call.MkdirAll (path.Dir job.outPath) 0o777,
        Call.Create job.outPath, Call.Execute dst (taskData os b)] := by
  obtain ⟨s1, s2, s3, h1, h2, h3, h4⟩ := h
  unfold taskCalls renderTask
  unfold taskData at h4 ⊢
  simp only [OS.logged, h1, h2, h3, h4]
  rfl

theorem taskCalls_of_failure {σ : Type} (os : OS σ) (job : renderJob) (s : σ)
    (steps : Nat) (err : GoError) (sEnd : σ) (h : FirstFailure os job s steps err sEnd) :
    (taskCalls os job s).map Call.kind =
      [CallKind.ReadFile, CallKind.MkdirAll, CallKind.Create, CallKind.Execute].take steps := by
  unfold taskCalls renderTask
  rcases h with ⟨hs, h1⟩ | ⟨hs, b, s1, h1, h2⟩ | ⟨hs, b, s1, s2, h1, h2, h3⟩ |
    ⟨hs, b, s1, s2, dst, s3, h1, h2, h3, h4⟩
  · simp only [OS.logged, h1, hs]
    rfl
  · simp only [OS.logged, h1, h2, hs]
    rfl
  · simp only [OS.logged, h1, h2, h3, hs]
    rfl
  · unfold taskData at h4
    simp only [OS.logged, h1, h2, h3, h4, hs]
    rfl

/-- Every task either takes all four steps successfully or has a first
failing step. -/
theorem renderTask_cases {σ : Type} (os : OS σ) (job : renderJob) (s : σ) :
    (∃ b dst s4, StepsSucceed os job s b dst s4) ∨
      (∃ steps err sEnd, FirstFailure os job s steps err sEnd) := by
  rcases h1 : os.ReadFile job.inPath s with ⟨e | b, s1⟩
  · exact Or.inr ⟨1, e, s1, Or.inl ⟨rfl, h1⟩⟩
  · rcases h2 : os.MkdirAll (path.Dir job.outPath) 0o777 s1 with ⟨_ | e, s2⟩
    · rcases h3 : os.Create job.outPath s2 with ⟨e | dst, s3⟩
      · exact Or.inr ⟨3, e, s3, Or.inr (Or.inr (Or.inl ⟨rfl, b, s1, s2, h1, h2, h3⟩))⟩
      · rcases h4 : os.Execute dst (taskData os b) s3 with ⟨_ | e, s4⟩
        · exact Or.inl ⟨b, dst, s4, s1, s2, s3, h1, h2, h3, h4⟩
        · exact Or.inr ⟨4, e, s4,
            Or.inr (Or.inr (Or.inr ⟨rfl, b, s1, s2, dst, s3, h1, h2, h3, h4⟩))⟩
    · exact Or.inr ⟨2, e, s2, Or.inr (Or.inl ⟨rfl, b, s1, h1, h2⟩)⟩

/-- C3: the result of the task for a job has no error and the output path
exactly when the four steps (read the input, make the directories, create
the output file, execute the template) all succeed; otherwise a first step
fails, the result carries the input path and exactly the error of that step,
the world is left as that step left it, and the calls made are the steps up
to and including the failing one. -/
theorem renderTask_result {σ : Type} (os : OS σ) (job : renderJob) (s : σ) :
    (((renderTask os job s).1.err = none ∧ (renderTask os job s).1.path = job.outPath) ↔
      ∃ b dst s4, StepsSucceed os job s b dst s4) ∧
    (∀ b dst s4, StepsSucceed os job s b dst s4 →
      renderTask os job s = ({ path := job.outPath, err := none }, s4) ∧
      taskCalls os job s =
        [Call.ReadFile job.inPath, Call.MkdirAll (path.Dir job.outPath) 0o777,
          Call.Create job.outPath, Call.Execute dst (taskData os b)]) ∧
    ((¬ ∃ b dst s4, StepsSucceed os job s b dst s4) →
      ∃ steps err sEnd, FirstFailure os job s steps err sEnd) ∧
    (∀ steps err sEnd, FirstFailure os job s steps err sEnd →
      renderTask os job s = ({ path := job.inPath, err := some err }, sEnd) ∧
      (taskCalls os job s).map Call.kind =
        [CallKind.ReadFile, CallKind.MkdirAll, CallKind.Create, CallKind.Execute].take steps) := by
  refine ⟨⟨?_, ?_⟩, ?_, ?_, ?_⟩
  · rintro ⟨herr, _⟩
    rcases renderTask_cases os job s with h | ⟨steps, err, sEnd, h⟩
    · exact h
    · rw [renderTask_of_failure os job s steps err sEnd h] at herr
      exact absurd herr (by simp)
  · rintro ⟨b, dst, s4, h⟩
    rw [renderTask_of_succeed os job s b dst s4 h]
    exact ⟨rfl, rfl⟩
  · intro b dst s4 h
    exact ⟨renderTask_of_succeed os job s b dst s4 h, taskCalls_of_succeed os job s b dst s4 h⟩
  · intro hno
    rcases renderTask_cases os job s with h | h
    · exact absurd h hno
    · exact h
  · intro steps err sEnd h
    exact ⟨renderTask_of_failure os job s steps err sEnd h,
      taskCalls_of_failure os job s steps err sEnd h⟩

/-! ## The jobs of the pipeline -/

theorem renderTask_ResultFor {σ : Type} (os : OS σ) (job : renderJob) (s : σ) :
    ResultFor job (renderTask os job s).1 := by
  rcases renderTask_cases os job s with ⟨b, dst, s4, h⟩ | ⟨steps, err, sEnd, h⟩
  · rw [renderTask_of_succeed os job s b dst s4 h]
    exact Or.inl ⟨rfl, rfl⟩
  · rw [renderTask_of_failure os job s steps err sEnd h]
    exact Or.inr ⟨by simp, rfl⟩

theorem translate_Join (src out name : GoString) (h : ValidName name) :
    translate out (Ok (path.Join [src, name])) =
      if (strings.Split name '.').length = 3 then some (jobOf src out { Name := name })
      else none := by
  split
  · rename_i h3
    obtain ⟨a, slug, c, hs⟩ : ∃ a slug c, strings.Split name '.' = [a, slug, c] := by
      rcases hsp : strings.Split name '.' with _ | ⟨a, _ | ⟨b, _ | ⟨c, _ | ⟨d, l⟩⟩⟩⟩ <;>
        rw [hsp] at h3 <;> simp at h3
      exact ⟨a, b, c, rfl⟩
    rw [translate_Ok out _ a slug c (by rw [Base_Join_name src name h]; exact hs)]
    simp [jobOf, hs]
  · rename_i h3
    exact translate_none out _ (by rw [Base_Join_name src name h]; exact h3)

/-- The jobs of the pipeline are the jobs of the eligible entries, in
listing order. -/
theorem translation_discovered (src out : GoString) (entries : List DirEntry)
    (hv : ∀ e ∈ entries, ValidName e.Name) :
    (translation out ((entries.filter (fun e => strings.HasSuffix e.Name ".md".toList)).map
        (fun e => Ok (path.Join [src, e.Name])))).sent =
      (entries.filter eligible).map (jobOf src out) := by
  unfold translation
  simp only
  induction entries with
  | nil => simp
  | cons e entries ih =>
    have he := hv e (by simp)
    have ih1 := ih (fun x hx => hv x (by simp [hx]))
    have helig : eligible e = (strings.HasSuffix e.Name ".md".toList &&
        decide ((strings.Split e.Name '.').length = 3)) := rfl
    rw [List.filter_cons, List.filter_cons, helig]
    cases hmd : strings.HasSuffix e.Name ".md".toList with
    | false =>
      simp only [Bool.false_and, Bool.false_eq_true, if_false]
      exact ih1
    | true =>
      simp only [if_true, List.map_cons, List.filterMap_cons, translate_Join src out e.Name he,
        Bool.true_and]
      by_cases h3 : (strings.Split e.Name '.').length = 3
      · simp only [h3, if_true, decide_True, List.map_cons]
        rw [← ih1]
      · simp only [h3, if_false, decide_False, Bool.false_eq_true]
        rw [← ih1]

/-! ## The render pool as concurrent goroutines -/

theorem activeCount_append (ts : List Task) (t : Task) :
    activeCount (ts ++ [t]) = activeCount ts + (if t.pc.isExited then 0 else 1) := by
  induction ts with
  | nil => simp [activeCount]
  | cons a ts ih => simp [activeCount, ih]; omega

theorem sentCount_append (ts : List Task) (t : Task) :
    sentCount (ts ++ [t]) = sentCount ts + (if t.pc.sent.isSome then 1 else 0) := by
  induction ts with
  | nil => simp [sentCount]
  | cons a ts ih => simp [sentCount, ih]; omega

theorem activeCount_set (ts : List Task) (k : Nat) (t t1 : Task) (h : ts[k]? = some t) :
    activeCount (ts.set k t1) + (if t.pc.isExited then 0 else 1) =
      activeCount ts + (if t1.pc.isExited then 0 else 1) := by
  induction ts generalizing k with
  | nil => simp at h
  | cons a ts ih =>
    cases k with
    | zero =>
      simp at h
      subst h
      simp only [List.set_cons_zero, activeCount]
      omega
    | succ k =>
      simp at h
      have := ih k h
      simp only [List.set_cons_succ, activeCount]
      omega

theorem sentCount_set (ts : List Task) (k : Nat) (t t1 : Task) (h : ts[k]? = some t) :
    sentCount (ts.set k t1) + (if t.pc.sent.isSome then 1 else 0) =
      sentCount ts + (if t1.pc.sent.isSome then 1 else 0) := by
  induction ts generalizing k with
  | nil => simp at h
  | cons a ts ih =>
    cases k with
    | zero =>
      simp at h
      subst h
      simp only [List.set_cons_zero, sentCount]
      omega
    | succ k =>
      simp at h
      have := ih k h
      simp only [List.set_cons_succ, sentCount]
      omega

theorem map_job_set (ts : List Task) (k : Nat) (t t1 : Task) (h : ts[k]? = some t)
    (hj : t1.job = t.job) : (ts.set k t1).map (·.job) = ts.map (·.job) := by
  induction ts generalizing k with
  | nil => simp
  | cons a ts ih =>
    cases k with
    | zero =>
      simp at h
      subst h
      simp [hj]
    | succ k =>
      simp at h
      simp only [List.set_cons_succ, List.map_cons, ih k h]

theorem activeCount_eq_zero (ts : List Task) (h : activeCount ts = 0) :
    ∀ t ∈ ts, t.pc.isExited = true := by
  induction ts with
  | nil => simp
  | cons a ts ih =>
    simp only [activeCount] at h
    intro t ht
    rcases List.mem_cons.1 ht with rfl | ht
    · by_contra hne
      simp [hne] at h
    · exact ih (by omega) t ht

theorem activeCount_pos (ts : List Task) (t : Task) (ht : t ∈ ts) (hne : t.pc.isExited = false) :
    0 < activeCount ts := by
  by_contra h
  have := activeCount_eq_zero ts (by omega) t ht
  rw [hne] at this
  exact Bool.noConfusion this

theorem initPool_inv {σ : Type} (jobs : List renderJob) (w : σ) :
    PoolInv jobs (initPool jobs w) where
  counter := rfl
  drained := by simp [initPool]
  closing := by simp [initPool]
  posted := by simp [initPool]
  count := rfl
  jobsAll := by simp [initPool, PoolPc.pending]
  loopEnd := by simp [initPool]
  own := by simp [initPool]

theorem poolStep_inv {σ : Type} (all : List renderJob) (st st1 : PoolState σ)
    (inv : PoolInv all st) (h : poolStep st = some st1) : PoolInv all st1 := by
  have hopen : st.pool ≠ .returned → st.closed = false := by
    intro hp
    cases hc : st.closed with
    | false => rfl
    | true => exact absurd (inv.closing hc) hp
  unfold poolStep at h
  rcases hp : st.pool with _ | job | job | _ | _ | _ <;> rw [hp] at h <;> simp only at h
  · have hcl := hopen (by rw [hp]; simp)
    have hcount := inv.counter
    have hall := inv.jobsAll
    rw [hp] at hcount hall
    rcases hj : st.jobs with _ | ⟨job, rest⟩ <;> rw [hj] at h <;> simp only at h <;>
      injection h with h <;> subst h
    · exact ⟨hcount, by simp, by simp [hcl], inv.posted, inv.count,
        by simpa [PoolPc.pending, hj] using hall, fun _ => rfl, inv.own⟩
    · exact ⟨hcount, by simp, by simp [hcl], inv.posted, inv.count,
        by simpa [PoolPc.pending, hj] using hall, by simp, inv.own⟩
  · have hcl := hopen (by rw [hp]; simp)
    have hcount := inv.counter
    have hall := inv.jobsAll
    rw [hp] at hcount hall
    injection h with h
    subst h
    simp only at hcount
    exact ⟨by simp only; omega, by simp, by simp [hcl], inv.posted, inv.count,
      by simpa [PoolPc.pending] using hall, by simp, inv.own⟩
  · have hcl := hopen (by rw [hp]; simp)
    have hcount := inv.counter
    have hall := inv.jobsAll
    rw [hp] at hcount hall
    injection h with h
    subst h
    refine ⟨?_, by simp, by simp [hcl], ?_, ?_, ?_, by simp, ?_⟩
    · simp only [activeCount_append, TaskPc.isExited]
      simpa using hcount
    · intro t ht r hr
      rcases List.mem_append.1 ht with ht | ht
      · exact inv.posted t ht r hr
      · simp at ht
        subst ht
        simp [TaskPc.sent] at hr
    · simp only [sentCount_append, TaskPc.sent]
      simpa using inv.count
    · simpa [PoolPc.pending] using hall
    · intro t ht r hr
      rcases List.mem_append.1 ht with ht | ht
      · exact inv.own t ht r hr
      · simp at ht
        subst ht
        simp [TaskPc.sent] at hr
  · have hcl := hopen (by rw [hp]; simp)
    have hcount := inv.counter
    have hall := inv.jobsAll
    have hend := inv.loopEnd (Or.inl hp)
    rw [hp] at hcount hall
    by_cases hw : st.wg = 0
    · rw [if_pos hw] at h
      injection h with h
      subst h
      refine ⟨by simpa using hcount, ?_, by simp [hcl], inv.posted, inv.count,
        by simpa [PoolPc.pending] using hall, fun _ => hend, inv.own⟩
      intro _
      simp only at hcount
      exact activeCount_eq_zero st.tasks (by omega)
    · rw [if_neg hw] at h
      exact Option.noConfusion h
  · have hcount := inv.counter
    have hall := inv.jobsAll
    have hend := inv.loopEnd (Or.inr (Or.inl hp))
    have hdr := inv.drained (Or.inl hp)
    rw [hp] at hcount hall
    injection h with h
    subst h
    exact ⟨by simpa using hcount, fun _ => hdr, by simp, inv.posted, inv.count,
      by simpa [PoolPc.pending] using hall, fun _ => hend, inv.own⟩
  · exact Option.noConfusion h

theorem taskStep_move {σ : Type} (os : OS σ) (st st1 : PoolState σ) (k : Nat) (t : Task)
    (h : taskStep os st k t = some st1) : TaskMove st st1 k t := by
  have hfail : ∀ err, ResultFor t.job (failure t.job err) := fun err => Or.inr ⟨by simp [failure], rfl⟩
  unfold taskStep at h
  rcases hpc : t.pc with _ | body | body | ⟨dst, body⟩ | r | r | r <;> rw [hpc] at h <;>
    simp only at h
  · rcases hr : os.ReadFile t.job.inPath st.world with ⟨err | b, w⟩ <;> rw [hr] at h <;>
      simp only at h <;> injection h with h <;> subst h
    · exact ⟨_, w, st.res, st.wg, rfl, Or.inl ⟨by rw [hpc]; rfl, by rw [hpc]; simp, by rw [hpc]; rfl, rfl, rfl,
        fun r hr => by injection hr with hr; subst hr; exact hfail err, rfl, rfl⟩⟩
    · exact ⟨_, w, st.res, st.wg, rfl, Or.inl ⟨by rw [hpc]; rfl, by rw [hpc]; simp, by rw [hpc]; rfl, rfl, rfl,
        fun r hr => by simp at hr, rfl, rfl⟩⟩
  · rcases hr : os.MkdirAll (path.Dir t.job.outPath) 0o777 st.world with ⟨_ | err, w⟩ <;>
      rw [hr] at h <;> simp only at h <;> injection h with h <;> subst h
    · exact ⟨_, w, st.res, st.wg, rfl, Or.inl ⟨by rw [hpc]; rfl, by rw [hpc]; simp, by rw [hpc]; rfl, rfl, rfl,
        fun r hr => by simp at hr, rfl, rfl⟩⟩
    · exact ⟨_, w, st.res, st.wg, rfl, Or.inl ⟨by rw [hpc]; rfl, by rw [hpc]; simp, by rw [hpc]; rfl, rfl, rfl,
        fun r hr => by injection hr with hr; subst hr; exact hfail err, rfl, rfl⟩⟩
  · rcases hr : os.Create t.job.outPath st.world with ⟨err | dst, w⟩ <;> rw [hr] at h <;>
      simp only at h <;> injection h with h <;> subst h
    · exact ⟨_, w, st.res, st.wg, rfl, Or.inl ⟨by rw [hpc]; rfl, by rw [hpc]; simp, by rw [hpc]; rfl, rfl, rfl,
        fun r hr => by injection hr with hr; subst hr; exact hfail err, rfl, rfl⟩⟩
    · exact ⟨_, w, st.res, st.wg, rfl, Or.inl ⟨by rw [hpc]; rfl, by rw [hpc]; simp, by rw [hpc]; rfl, rfl, rfl,
        fun r hr => by simp at hr, rfl, rfl⟩⟩
  · rcases hr : os.Execute dst
      { Title := "title".toList, CreatedAt := "23/07/23".toList, Content := body } st.world
      with ⟨_ | err, w⟩ <;> rw [hr] at h <;> simp only at h <;> injection h with h <;> subst h
    · exact ⟨_, w, st.res, st.wg, rfl, Or.inl ⟨by rw [hpc]; rfl, by rw [hpc]; simp, by rw [hpc]; rfl, rfl, rfl,
        fun r hr => by injection hr with hr; subst hr; exact Or.inl ⟨rfl, rfl⟩, rfl, rfl⟩⟩
    · exact ⟨_, w, st.res, st.wg, rfl, Or.inl ⟨by rw [hpc]; rfl, by rw [hpc]; simp, by rw [hpc]; rfl, rfl, rfl,
        fun r hr => by injection hr with hr; subst hr; exact hfail err, rfl, rfl⟩⟩
  · by_cases hc : st.closed = true
    · rw [if_pos hc] at h
      exact Option.noConfusion h
    · rw [if_neg hc] at h
      injection h with h
      subst h
      exact ⟨_, st.world, _, st.wg, rfl, Or.inr (Or.inl ⟨r, hpc, rfl, rfl, rfl, rfl⟩)⟩
  · by_cases hw : st.wg = 0
    · rw [if_pos hw] at h
      exact Option.noConfusion h
    · rw [if_neg hw] at h
      injection h with h
      subst h
      exact ⟨_, st.world, st.res, _, rfl,
        Or.inr (Or.inr ⟨r, hpc, rfl, rfl, by omega, rfl⟩)⟩
  · exact Option.noConfusion h

theorem taskStep_inv {σ : Type} (os : OS σ) (all : List renderJob) (st st1 : PoolState σ)
    (k : Nat) (t : Task) (hk : st.tasks[k]? = some t) (inv : PoolInv all st)
    (h : taskStep os st k t = some st1) : PoolInv all st1 := by
  have htmem : t ∈ st.tasks := List.getElem?_mem hk
  obtain ⟨pc1, w, res1, wg1, rfl, hmove⟩ := taskStep_move os st st1 k t h
  have hact := activeCount_set st.tasks k t { job := t.job, pc := pc1 } hk
  have hsent := sentCount_set st.tasks k t { job := t.job, pc := pc1 } hk
  have hjobs := map_job_set st.tasks k t { job := t.job, pc := pc1 } hk rfl
  have hnotExited : t.pc.isExited = false := by
    rcases hmove with ⟨_, _, h3, _⟩ | ⟨r, h1, _⟩ | ⟨r, h1, _⟩
    · exact h3
    · rw [h1]; rfl
    · rw [h1]; rfl
  have hpool : ¬ (st.pool = .close ∨ st.pool = .returned) := by
    intro hp
    have := inv.drained hp t htmem
    rw [hnotExited] at this
    exact Bool.noConfusion this
  have hcounter := inv.counter
  have hcount := inv.count
  refine ⟨?_, fun hp => absurd hp hpool, inv.closing, ?_, ?_, ?_, inv.loopEnd, ?_⟩
  · simp only
    rcases hmove with ⟨_, _, h3, _, h5, _, _, h8⟩ | ⟨r, h1, h2, _, h4, _⟩ | ⟨r, h1, h2, _, h4, _⟩
    · simp only [h3, h5] at hact
      omega
    · subst h2
      simp only [h1, TaskPc.isExited] at hact
      omega
    · subst h2
      simp only [h1, TaskPc.isExited] at hact
      simp at hact
      omega
  · intro t1 ht1 r hr
    simp only at ht1 ⊢
    have hres : ∀ x ∈ st.res, x ∈ res1 := by
      rcases hmove with ⟨_, _, _, _, _, _, h7, _⟩ | ⟨_, _, _, h3, _⟩ | ⟨_, _, _, h3, _⟩
      · intro x hx; rw [h7]; exact hx
      · intro x hx; rw [h3]; exact List.mem_append_left _ hx
      · intro x hx; rw [h3]; exact hx
    rcases List.mem_or_eq_of_mem_set ht1 with ht1 | ht1
    · exact hres r (inv.posted t1 ht1 r hr)
    · subst ht1
      simp only at hr
      rcases hmove with ⟨_, _, _, h4, _⟩ | ⟨r1, _, h2, h3, _⟩ | ⟨r1, h1, h2, h3, _⟩
      · rw [h4] at hr
        exact Option.noConfusion hr
      · subst h2
        simp only [TaskPc.sent] at hr
        injection hr with hr
        subst hr
        rw [h3]
        simp
      · subst h2
        simp only [TaskPc.sent] at hr
        injection hr with hr
        subst hr
        rw [h3]
        exact inv.posted t htmem r1 (by rw [h1]; rfl)
  · simp only
    rcases hmove with ⟨h1, _, _, h4, _, _, h7, _⟩ | ⟨r, h1, h2, h3, _⟩ | ⟨r, h1, h2, h3, _⟩
    · simp only [h1, h4] at hsent
      rw [h7]
      simp at hsent
      omega
    · subst h2
      simp only [h1, TaskPc.sent] at hsent
      rw [h3]
      simp at hsent ⊢
      omega
    · subst h2
      simp only [h1, TaskPc.sent] at hsent
      rw [h3]
      simp at hsent
      omega
  · simp only
    rw [hjobs]
    exact inv.jobsAll
  · intro t1 ht1 r hr
    simp only at ht1
    rcases List.mem_or_eq_of_mem_set ht1 with ht1 | ht1
    · exact inv.own t1 ht1 r hr
    · subst ht1
      simp only at hr ⊢
      rcases hmove with ⟨_, _, _, h4, _, h6, _⟩ | ⟨r1, h1, h2, _⟩ | ⟨r1, h1, h2, _⟩
      · rcases hr with hr | hr
        · exact h6 r hr
        · rw [h4] at hr
          exact Option.noConfusion hr
      · subst h2
        rcases hr with hr | hr
        · exact TaskPc.noConfusion hr
        · simp only [TaskPc.sent] at hr
          injection hr with hr
          subst hr
          exact inv.own t htmem r1 (Or.inl h1)
      · subst h2
        rcases hr with hr | hr
        · exact TaskPc.noConfusion hr
        · simp only [TaskPc.sent] at hr
          injection hr with hr
          subst hr
          exact inv.own t htmem r1 (Or.inr (by rw [h1]; rfl))

theorem step_inv {σ : Type} (os : OS σ) (all : List renderJob) (st st1 : PoolState σ)
    (pick : Pick) (inv : PoolInv all st) (h : step os st pick = some st1) : PoolInv all st1 := by
  cases pick with
  | pool => exact poolStep_inv all st st1 inv h
  | task k =>
    unfold step at h
    simp only at h
    rcases hk : st.tasks[k]? with _ | t
    · rw [hk] at h
      exact Option.noConfusion h
    · rw [hk] at h
      exact taskStep_inv os all st st1 k t hk inv h

/-- The invariant holds after every schedule. -/
theorem exec_inv {σ : Type} (os : OS σ) (all : List renderJob) (sched : List Pick) :
    ∀ (st st1 : PoolState σ), PoolInv all st → exec os st sched = some st1 → PoolInv all st1 := by
  induction sched with
  | nil =>
    intro st st1 inv h
    simp only [exec] at h
    injection h with h
    exact h ▸ inv
  | cons pick sched ih =>
    intro st st1 inv h
    simp only [exec] at h
    rcases hs : step os st pick with _ | st2
    · rw [hs] at h
      exact Option.noConfusion h
    · rw [hs] at h
      exact ih st2 st1 (step_inv os all st st2 pick inv hs) h

/-- C9: under every schedule of the goroutines of `runArticleHTMLRenderer`,
once `res` is closed a task has been started for every job, every task has
returned, and the result of every task is among the values sent on `res`,
one value per task: the channel is not closed while a started task has yet
to send its result. -/
theorem close_after_all_sent {σ : Type} (os : OS σ) (jobs : List renderJob) (w : σ)
    (sched : List Pick) (st : PoolState σ) (h : exec os (initPool jobs w) sched = some st)
    (hclosed : st.closed = true) :
    st.tasks.map (·.job) = jobs ∧
      (∀ t ∈ st.tasks, ∃ r, t.pc = .exited r ∧ r ∈ st.res ∧ ResultFor t.job r) ∧
      st.res.length = st.tasks.length := by
  have inv := exec_inv os jobs sched _ st (initPool_inv jobs w) h
  have hret := inv.closing hclosed
  have hall := inv.jobsAll
  rw [hret, inv.loopEnd (Or.inr (Or.inr hret))] at hall
  have hex := inv.drained (Or.inr hret)
  have hexited : ∀ t ∈ st.tasks, ∃ r, t.pc = .exited r := by
    intro t ht
    have := hex t ht
    rcases hpc : t.pc with _ | _ | _ | _ | _ | _ | r <;> rw [hpc] at this <;>
      first | exact Bool.noConfusion this | exact ⟨r, rfl⟩
  refine ⟨by simpa [PoolPc.pending] using hall, ?_, ?_⟩
  · intro t ht
    obtain ⟨r, hr⟩ := hexited t ht
    have hs : t.pc.sent = some r := by rw [hr]; rfl
    exact ⟨r, hr, inv.posted t ht r hs, inv.own t ht r (Or.inr hs)⟩
  · rw [inv.count]
    have : ∀ ts : List Task, (∀ t ∈ ts, ∃ r, t.pc = .exited r) → sentCount ts = ts.length := by
      intro ts
      induction ts with
      | nil => intro _; rfl
      | cons a ts ih =>
        intro hts
        obtain ⟨r, hr⟩ := hts a (by simp)
        simp only [sentCount, hr, TaskPc.sent, List.length_cons, Option.isSome_some, if_true]
        rw [ih (fun t ht => hts t (by simp [ht]))]
        omega
    exact this st.tasks hexited

theorem exec_append {σ : Type} (os : OS σ) (a b : List Pick) :
    ∀ st : PoolState σ, exec os st (a ++ b) = (exec os st a).bind (fun st1 => exec os st1 b) := by
  induction a with
  | nil => intro st; rfl
  | cons pick a ih =>
    intro st
    simp only [List.cons_append, exec]
    rcases step os st pick with _ | st1
    · rfl
    · exact ih st1

theorem close_after_all_sent_witness :
    sampleFinal.tasks.map (·.job) = sampleJobs ∧
      (∀ t ∈ sampleFinal.tasks, ∃ r, t.pc = .exited r ∧ r ∈ sampleFinal.res ∧ ResultFor t.job r) ∧
      sampleFinal.res.length = sampleFinal.tasks.length :=
  close_after_all_sent (memOS []) sampleJobs [("src/a.one.md".toList, "hi".toList)]
    sampleSchedule sampleFinal rfl rfl


/-- A task that runs without interruption from its start to its end does
what `renderTask` says: it sends the result of `renderTask`, leaves its
world, and takes its announcement back from the wait group. -/
theorem exec_task {σ : Type} (os : OS σ) (jobsLeft : List renderJob) (pool : PoolPc)
    (ts : List Task) (job : renderJob) (wg : Nat) (res : List renderRes) (w : σ) :
    ∃ n, exec os
        { jobs := jobsLeft, pool := pool, tasks := ts ++ [{ job := job, pc := .readFile }],
          wg := wg + 1, res := res, closed := false, world := w }
        (List.replicate n (.task ts.length)) =
      some { jobs := jobsLeft, pool := pool,
             tasks := ts ++ [{ job := job, pc := .exited (renderTask os job w).1 }],
             wg := wg, res := res ++ [(renderTask os job w).1], closed := false,
             world := (renderTask os job w).2 } := by
  rcases h1 : os.ReadFile job.inPath w with ⟨err | b, w1⟩
  · refine ⟨3, ?_⟩
    simp [exec, step, taskStep, renderTask, h1, failure, List.replicate]
  · rcases h2 : os.MkdirAll (path.Dir job.outPath) 0o777 w1 with ⟨_ | err, w2⟩
    · rcases h3 : os.Create job.outPath w2 with ⟨err | dst, w3⟩
      · refine ⟨5, ?_⟩
        simp [exec, step, taskStep, renderTask, h1, h2, h3, failure, List.replicate]
      · rcases h4 : os.Execute dst
          { Title := "title".toList, CreatedAt := "23/07/23".toList, Content := os.Markdown b }
          w3 with ⟨_ | err, w4⟩
        · refine ⟨6, ?_⟩
          simp only [String.toList] at h4
          simp [exec, step, taskStep, renderTask, h1, h2, h3, h4, failure, List.replicate]
        · refine ⟨6, ?_⟩
          simp only [String.toList] at h4
          simp [exec, step, taskStep, renderTask, h1, h2, h3, h4, failure, List.replicate]
    · refine ⟨4, ?_⟩
      simp [exec, step, taskStep, renderTask, h1, h2, failure, List.replicate]

/-! ## Every job gets one result, and every run can finish -/

theorem sentList_set (ts : List Task) (k : Nat) (t t1 : Task) (h : ts[k]? = some t) :
    (t.pc.sent = t1.pc.sent → sentList (ts.set k t1) = sentList ts) ∧
    (∀ r, t.pc.sent = none → t1.pc.sent = some r →
      List.Perm (sentList (ts.set k t1)) (r :: sentList ts)) := by
  induction ts generalizing k with
  | nil => simp at h
  | cons a ts ih =>
    cases k with
    | zero =>
      simp at h
      subst h
      refine ⟨fun heq => ?_, fun r h1 h2 => ?_⟩
      · simp only [List.set_cons_zero, sentList, List.filterMap_cons, heq]
      · simp only [List.set_cons_zero, sentList, List.filterMap_cons, h1, h2]
        exact List.Perm.refl _
    | succ k =>
      simp at h
      obtain ⟨ih1, ih2⟩ := ih k h
      refine ⟨fun heq => ?_, fun r h1 h2 => ?_⟩
      · have := ih1 heq
        simp only [sentList] at this
        simp only [List.set_cons_succ, sentList, List.filterMap_cons, this]
      · have := ih2 r h1 h2
        simp only [sentList] at this
        simp only [List.set_cons_succ, sentList, List.filterMap_cons]
        rcases a.pc.sent with _ | x
        · exact this
        · exact (List.Perm.cons x this).trans (List.Perm.swap r x _)

theorem initPool_resInv {σ : Type} (jobs : List renderJob) (w : σ) :
    ResInv (initPool jobs w) :=
  ⟨List.Perm.refl _, by simp [initPool]⟩

theorem step_resInv {σ : Type} (os : OS σ) (st st1 : PoolState σ) (pick : Pick)
    (inv : ResInv st) (h : step os st pick = some st1) : ResInv st1 := by
  obtain ⟨hperm, hret⟩ := inv
  cases pick with
  | pool =>
    simp only [step] at h
    unfold poolStep at h
    rcases hp : st.pool with _ | job | job | _ | _ | _ <;> rw [hp] at h <;> simp only at h
    · rcases hj : st.jobs with _ | ⟨job, rest⟩ <;> rw [hj] at h <;> simp only at h <;>
        injection h with h <;> subst h <;> exact ⟨hperm, by simp⟩
    · injection h with h
      subst h
      exact ⟨hperm, by simp⟩
    · injection h with h
      subst h
      refine ⟨?_, by simp⟩
      simpa [sentList, TaskPc.sent] using hperm
    · by_cases hw : st.wg = 0
      · rw [if_pos hw] at h
        injection h with h
        subst h
        exact ⟨hperm, by simp⟩
      · rw [if_neg hw] at h
        exact Option.noConfusion h
    · injection h with h
      subst h
      exact ⟨hperm, fun _ => rfl⟩
    · exact Option.noConfusion h
  | task k =>
    simp only [step] at h
    rcases hk : st.tasks[k]? with _ | t
    · rw [hk] at h
      exact Option.noConfusion h
    · rw [hk] at h
      obtain ⟨pc1, w, res1, wg1, rfl, hmove⟩ := taskStep_move os st st1 k t h
      obtain ⟨hs1, hs2⟩ := sentList_set st.tasks k t { job := t.job, pc := pc1 } hk
      refine ⟨?_, hret⟩
      simp only
      rcases hmove with ⟨h1, _, _, h4, _, _, h7, _⟩ | ⟨r, h1, h2, h3, _⟩ | ⟨r, h1, h2, h3, _⟩
      · rw [hs1 (by rw [h1, h4]), h7]
        exact hperm
      · subst h2
        rw [h3]
        have := hs2 r (by rw [h1]; rfl) rfl
        exact (List.perm_append_singleton r st.res).trans
          ((List.Perm.cons r hperm).trans this.symm)
      · subst h2
        rw [hs1 (by rw [h1]; rfl), h3]
        exact hperm

theorem exec_resInv {σ : Type} (os : OS σ) (sched : List Pick) :
    ∀ (st st1 : PoolState σ), ResInv st → exec os st sched = some st1 → ResInv st1 := by
  induction sched with
  | nil =>
    intro st st1 inv h
    simp only [exec] at h
    injection h with h
    exact h ▸ inv
  | cons pick sched ih =>
    intro st st1 inv h
    simp only [exec] at h
    rcases hs : step os st pick with _ | st2
    · rw [hs] at h
      exact Option.noConfusion h
    · rw [hs] at h
      exact ih st2 st1 (step_resInv os st st2 pick inv hs) h

theorem sentList_exited (ts : List Task)
    (h : ∀ t ∈ ts, ∃ r, t.pc = .exited r ∧ ResultFor t.job r) :
    List.Forall₂ ResultFor (ts.map (·.job)) (sentList ts) := by
  induction ts with
  | nil => exact List.Forall₂.nil
  | cons a ts ih =>
    obtain ⟨r, hr, hres⟩ := h a (by simp)
    simp only [List.map_cons, sentList, List.filterMap_cons, hr, TaskPc.sent]
    exact List.Forall₂.cons hres (ih (fun t ht => h t (by simp [ht])))

/-- Once `res` is closed, the values sent on it are, up to their order, one
result for each job: the results of the tasks, in the order of the jobs. -/
theorem closed_results {σ : Type} (os : OS σ) (jobs : List renderJob) (w : σ)
    (sched : List Pick) (st : PoolState σ) (h : exec os (initPool jobs w) sched = some st)
    (hclosed : st.closed = true) :
    st.tasks.map (·.job) = jobs ∧ List.Perm st.res (sentList st.tasks) ∧
      List.Forall₂ ResultFor jobs (sentList st.tasks) := by
  have inv := exec_inv os jobs sched _ st (initPool_inv jobs w) h
  have rinv := exec_resInv os sched _ st (initPool_resInv jobs w) h
  have hret := inv.closing hclosed
  have hall := inv.jobsAll
  rw [hret, inv.loopEnd (Or.inr (Or.inr hret))] at hall
  have hjobs : st.tasks.map (·.job) = jobs := by simpa [PoolPc.pending] using hall
  have hex := inv.drained (Or.inr hret)
  have hexited : ∀ t ∈ st.tasks, ∃ r, t.pc = .exited r ∧ ResultFor t.job r := by
    intro t ht
    have := hex t ht
    rcases hpc : t.pc with _ | _ | _ | _ | _ | _ | r <;> rw [hpc] at this <;>
      first
      | exact Bool.noConfusion this
      | exact ⟨r, rfl, inv.own t ht r (Or.inr (by rw [hpc]; rfl))⟩
  refine ⟨hjobs, rinv.1, ?_⟩
  rw [← hjobs]
  exact sentList_exited st.tasks hexited


theorem taskMeasure_append (ts : List Task) (t : Task) :
    taskMeasure (ts ++ [t]) = taskMeasure ts + t.pc.measure := by
  induction ts with
  | nil => simp [taskMeasure]
  | cons a ts ih => simp [taskMeasure, ih]; omega

theorem taskMeasure_set (ts : List Task) (k : Nat) (t t1 : Task) (h : ts[k]? = some t) :
    taskMeasure (ts.set k t1) + t.pc.measure = taskMeasure ts + t1.pc.measure := by
  induction ts generalizing k with
  | nil => simp at h
  | cons a ts ih =>
    cases k with
    | zero =>
      simp at h
      subst h
      simp only [List.set_cons_zero, taskMeasure]
      omega
    | succ k =>
      simp at h
      have := ih k h
      simp only [List.set_cons_succ, taskMeasure]
      omega

theorem taskStep_measure {σ : Type} (os : OS σ) (st st1 : PoolState σ) (k : Nat) (t : Task)
    (h : taskStep os st k t = some st1) :
    ∃ pc1, st1.tasks = st.tasks.set k { job := t.job, pc := pc1 } ∧
      pc1.measure < t.pc.measure ∧ st1.pool = st.pool ∧ st1.jobs = st.jobs := by
  unfold taskStep at h
  rcases hpc : t.pc with _ | body | body | ⟨dst, body⟩ | r | r | r <;> rw [hpc] at h <;>
    simp only at h
  · rcases hr : os.ReadFile t.job.inPath st.world with ⟨err | b, w⟩ <;> rw [hr] at h <;>
      simp only at h <;> injection h with h <;> subst h <;>
      exact ⟨_, rfl, by simp [TaskPc.measure], rfl, rfl⟩
  · rcases hr : os.MkdirAll (path.Dir t.job.outPath) 0o777 st.world with ⟨_ | err, w⟩ <;>
      rw [hr] at h <;> simp only at h <;> injection h with h <;> subst h <;>
      exact ⟨_, rfl, by simp [TaskPc.measure], rfl, rfl⟩
  · rcases hr : os.Create t.job.outPath st.world with ⟨err | dst, w⟩ <;> rw [hr] at h <;>
      simp only at h <;> injection h with h <;> subst h <;>
      exact ⟨_, rfl, by simp [TaskPc.measure], rfl, rfl⟩
  · rcases hr : os.Execute dst
      { Title := "title".toList, CreatedAt := "23/07/23".toList, Content := body } st.world
      with ⟨_ | err, w⟩ <;> rw [hr] at h <;> simp only at h <;> injection h with h <;>
      subst h <;> exact ⟨_, rfl, by simp [TaskPc.measure], rfl, rfl⟩
  · by_cases hc : st.closed = true
    · rw [if_pos hc] at h
      exact Option.noConfusion h
    · rw [if_neg hc] at h
      injection h with h
      subst h
      exact ⟨_, rfl, by simp [TaskPc.measure], rfl, rfl⟩
  · by_cases hw : st.wg = 0
    · rw [if_pos hw] at h
      exact Option.noConfusion h
    · rw [if_neg hw] at h
      injection h with h
      subst h
      exact ⟨_, rfl, by simp [TaskPc.measure], rfl, rfl⟩
  · exact Option.noConfusion h

/-- Every step brings the pool nearer to its end. -/
theorem step_measure {σ : Type} (os : OS σ) (st st1 : PoolState σ) (pick : Pick)
    (h : step os st pick = some st1) : poolMeasure st1 < poolMeasure st := by
  cases pick with
  | pool =>
    simp only [step] at h
    unfold poolStep at h
    unfold poolMeasure
    rcases hp : st.pool with _ | job | job | _ | _ | _ <;> rw [hp] at h <;> simp only at h
    · rcases hj : st.jobs with _ | ⟨job, rest⟩ <;> rw [hj] at h <;> simp only at h <;>
        injection h with h <;> subst h <;> simp only [List.length_cons] <;> omega
    · injection h with h
      subst h
      simp only
      omega
    · injection h with h
      subst h
      simp only [taskMeasure_append, TaskPc.measure]
      omega
    · by_cases hw : st.wg = 0
      · rw [if_pos hw] at h
        injection h with h
        subst h
        simp only
        omega
      · rw [if_neg hw] at h
        exact Option.noConfusion h
    · injection h with h
      subst h
      simp only
      omega
    · exact Option.noConfusion h
  | task k =>
    simp only [step] at h
    rcases hk : st.tasks[k]? with _ | t
    · rw [hk] at h
      exact Option.noConfusion h
    · rw [hk] at h
      obtain ⟨pc1, h1, h2, h3, h4⟩ := taskStep_measure os st st1 k t h
      have := taskMeasure_set st.tasks k t { job := t.job, pc := pc1 } hk
      unfold poolMeasure
      rw [h1, h3, h4]
      simp only at this
      omega

theorem exists_active (ts : List Task) (h : 0 < activeCount ts) :
    ∃ (k : Nat) (t : Task), ts[k]? = some t ∧ t.pc.isExited = false := by
  induction ts with
  | nil => simp [activeCount] at h
  | cons a ts ih =>
    cases ha : a.pc.isExited with
    | false => exact ⟨0, a, by simp, ha⟩
    | true =>
      simp only [activeCount, ha, if_true] at h
      obtain ⟨k, t, hk, ht⟩ := ih (by omega)
      exact ⟨k + 1, t, by rw [List.getElem?_cons_succ]; exact hk, ht⟩

/-- No failure blocks the pool: until the pool goroutine has returned, some
goroutine can take a step. -/
theorem step_exists {σ : Type} (os : OS σ) (all : List renderJob) (st : PoolState σ)
    (inv : PoolInv all st) (hp : st.pool ≠ .returned) :
    ∃ pick st1, step os st pick = some st1 := by
  have hopen : st.closed = false := by
    cases hc : st.closed with
    | false => rfl
    | true => exact absurd (inv.closing hc) hp
  by_cases hwait : st.pool = .wait ∧ st.wg ≠ 0
  · obtain ⟨hw, hwg⟩ := hwait
    have hcount := inv.counter
    rw [hw] at hcount
    simp only at hcount
    obtain ⟨k, t, hk, ht⟩ := exists_active st.tasks (by omega)
    refine ⟨.task k, ?_⟩
    simp only [step, hk]
    unfold taskStep
    rcases hpc : t.pc with _ | body | body | ⟨dst, body⟩ | r | r | r <;> simp only
    · rcases os.ReadFile t.job.inPath st.world with ⟨err | b, w⟩ <;> exact ⟨_, rfl⟩
    · rcases os.MkdirAll (path.Dir t.job.outPath) 0o777 st.world with ⟨_ | err, w⟩ <;>
        exact ⟨_, rfl⟩
    · rcases os.Create t.job.outPath st.world with ⟨err | dst, w⟩ <;> exact ⟨_, rfl⟩
    · rcases os.Execute dst
        { Title := "title".toList, CreatedAt := "23/07/23".toList, Content := body } st.world
        with ⟨_ | err, w⟩ <;> exact ⟨_, rfl⟩
    · rw [if_neg (by simp [hopen])]
      exact ⟨_, rfl⟩
    · rw [if_neg hwg]
      exact ⟨_, rfl⟩
    · rw [hpc] at ht
      exact Bool.noConfusion ht
  · refine ⟨.pool, ?_⟩
    simp only [step]
    unfold poolStep
    rcases hpc : st.pool with _ | job | job | _ | _ | _ <;> simp only
    · rcases st.jobs with _ | ⟨job, rest⟩ <;> exact ⟨_, rfl⟩
    · exact ⟨_, rfl⟩
    · exact ⟨_, rfl⟩
    · have hwg : st.wg = 0 := by
        by_contra hne
        exact hwait ⟨hpc, hne⟩
      rw [if_pos hwg]
      exact ⟨_, rfl⟩
    · exact ⟨_, rfl⟩
    · exact absurd hpc hp

/-- From every state of the pool some schedule leads to the return of the
pool goroutine. -/
theorem exec_finish {σ : Type} (os : OS σ) (all : List renderJob) :
    ∀ (n : Nat) (st : PoolState σ), poolMeasure st ≤ n → PoolInv all st →
      ∃ sched st1, exec os st sched = some st1 ∧ st1.pool = .returned := by
  intro n
  induction n with
  | zero =>
    intro st hn inv
    by_cases hp : st.pool = .returned
    · exact ⟨[], st, rfl, hp⟩
    · obtain ⟨pick, st1, hs⟩ := step_exists os all st inv hp
      have := step_measure os st st1 pick hs
      omega
  | succ n ih =>
    intro st hn inv
    by_cases hp : st.pool = .returned
    · exact ⟨[], st, rfl, hp⟩
    · obtain ⟨pick, st1, hs⟩ := step_exists os all st inv hp
      have hm := step_measure os st st1 pick hs
      obtain ⟨sched, st2, he, hr⟩ := ih st1 (by omega) (step_inv os all st st1 pick inv hs)
      exact ⟨pick :: sched, st2, by simp only [exec, hs, he], hr⟩

/-- Every run of the pool can be continued until `res` is closed. -/
theorem exec_can_close {σ : Type} (os : OS σ) (jobs : List renderJob) (w : σ)
    (sched : List Pick) (st : PoolState σ) (h : exec os (initPool jobs w) sched = some st) :
    ∃ sched1 st1, exec os (initPool jobs w) (sched ++ sched1) = some st1 ∧
      st1.closed = true := by
  have inv := exec_inv os jobs sched _ st (initPool_inv jobs w) h
  obtain ⟨sched1, st1, he, hr⟩ := exec_finish os jobs (poolMeasure st) st (Nat.le_refl _) inv
  refine ⟨sched1, st1, ?_, ?_⟩
  · rw [exec_append, h, Option.some_bind, he]
  · have rinv := exec_resInv os sched1 st st1
      (exec_resInv os sched _ st (initPool_resInv jobs w) h) he
    exact rinv.2 hr


/-! ## A task whose own steps succeed -/

theorem taskStep_good {σ : Type} (os : OS σ) (st st1 : PoolState σ) (k : Nat) (t : Task)
    (hk : st.tasks[k]? = some t) (good : GoodResult k st) (hok : callOk os st t = true)
    (h : taskStep os st k t = some st1) : GoodResult k st1 := by
  have hlt : k < st.tasks.length := by
    by_contra hge
    rw [List.getElem?_eq_none (by omega)] at hk
    exact Option.noConfusion hk
  have hset : ∀ t1 : Task, (st.tasks.set k t1)[k]? = some t1 := by
    intro t1
    rw [List.getElem?_set_self hlt]
  unfold callOk at hok
  unfold taskStep at h
  intro t2 r ht2 hr
  rcases hpc : t.pc with _ | body | body | ⟨dst, body⟩ | r0 | r0 | r0 <;> rw [hpc] at h hok <;>
    simp only at h hok
  · rcases hr1 : os.ReadFile t.job.inPath st.world with ⟨err | b, w⟩ <;> rw [hr1] at h hok <;>
      simp only at h hok
    · exact Bool.noConfusion hok
    · injection h with h
      subst h
      simp only [hset] at ht2
      injection ht2 with ht2
      subst ht2
      rcases hr with hr | hr
      · exact TaskPc.noConfusion hr
      · exact Option.noConfusion hr
  · rcases hr1 : os.MkdirAll (path.Dir t.job.outPath) 0o777 st.world with ⟨_ | err, w⟩ <;>
      rw [hr1] at h hok <;> simp only at h hok
    · injection h with h
      subst h
      simp only [hset] at ht2
      injection ht2 with ht2
      subst ht2
      rcases hr with hr | hr
      · exact TaskPc.noConfusion hr
      · exact Option.noConfusion hr
    · exact Bool.noConfusion hok
  · rcases hr1 : os.Create t.job.outPath st.world with ⟨err | dst, w⟩ <;> rw [hr1] at h hok <;>
      simp only at h hok
    · exact Bool.noConfusion hok
    · injection h with h
      subst h
      simp only [hset] at ht2
      injection ht2 with ht2
      subst ht2
      rcases hr with hr | hr
      · exact TaskPc.noConfusion hr
      · exact Option.noConfusion hr
  · rcases hr1 : os.Execute dst
      { Title := "title".toList, CreatedAt := "23/07/23".toList, Content := body } st.world
      with ⟨_ | err, w⟩ <;> rw [hr1] at h hok <;> simp only at h hok
    · injection h with h
      subst h
      simp only [hset] at ht2
      injection ht2 with ht2
      subst ht2
      rcases hr with hr | hr
      · injection hr with hr
        exact hr.symm
      · exact Option.noConfusion hr
    · exact Bool.noConfusion hok
  · by_cases hc : st.closed = true
    · rw [if_pos hc] at h
      exact Option.noConfusion h
    · rw [if_neg hc] at h
      injection h with h
      subst h
      simp only [hset] at ht2
      injection ht2 with ht2
      subst ht2
      rcases hr with hr | hr
      · exact TaskPc.noConfusion hr
      · simp only [TaskPc.sent] at hr
        injection hr with hr
        subst hr
        exact good t r0 hk (Or.inl hpc)
  · by_cases hw : st.wg = 0
    · rw [if_pos hw] at h
      exact Option.noConfusion h
    · rw [if_neg hw] at h
      injection h with h
      subst h
      simp only [hset] at ht2
      injection ht2 with ht2
      subst ht2
      rcases hr with hr | hr
      · exact TaskPc.noConfusion hr
      · simp only [TaskPc.sent] at hr
        injection hr with hr
        subst hr
        exact good t r0 hk (Or.inr (by rw [hpc]; rfl))
  · exact Option.noConfusion h

theorem step_good {σ : Type} (os : OS σ) (st st1 : PoolState σ) (k : Nat) (pick : Pick)
    (good : GoodResult k st) (h : step os st pick = some st1)
    (hok : pick = .task k → ∀ t, st.tasks[k]? = some t → callOk os st t = true) :
    GoodResult k st1 := by
  cases pick with
  | pool =>
    simp only [step] at h
    unfold poolStep at h
    rcases hp : st.pool with _ | job | job | _ | _ | _ <;> rw [hp] at h <;> simp only at h
    · rcases hj : st.jobs with _ | ⟨job, rest⟩ <;> rw [hj] at h <;> simp only at h <;>
        injection h with h <;> subst h <;> exact good
    · injection h with h
      subst h
      exact good
    · injection h with h
      subst h
      intro t r ht hr
      simp only at ht
      by_cases hlt : k < st.tasks.length
      · rw [List.getElem?_append_left hlt] at ht
        exact good t r ht hr
      · rw [List.getElem?_append_right (by omega)] at ht
        rcases hidx : k - st.tasks.length with _ | m
        · rw [hidx] at ht
          simp at ht
          subst ht
          rcases hr with hr | hr
          · exact TaskPc.noConfusion hr
          · exact Option.noConfusion hr
        · rw [hidx] at ht
          simp at ht
    · by_cases hw : st.wg = 0
      · rw [if_pos hw] at h
        injection h with h
        subst h
        exact good
      · rw [if_neg hw] at h
        exact Option.noConfusion h
    · injection h with h
      subst h
      exact good
    · exact Option.noConfusion h
  | task k1 =>
    simp only [step] at h
    rcases hk1 : st.tasks[k1]? with _ | t1
    · rw [hk1] at h
      exact Option.noConfusion h
    · rw [hk1] at h
      by_cases heq : k1 = k
      · subst heq
        exact taskStep_good os st st1 k1 t1 hk1 good (hok rfl t1 hk1) h
      · obtain ⟨pc1, w, res1, wg1, rfl, _⟩ := taskStep_move os st st1 k1 t1 h
        intro t r ht hr
        simp only at ht
        rw [List.getElem?_set_ne heq] at ht
        exact good t r ht hr

theorem exec_good {σ : Type} (os : OS σ) (k : Nat) (sched : List Pick) :
    ∀ (st st1 : PoolState σ), GoodResult k st → exec os st sched = some st1 →
      ownStepsOk os k st sched = true → GoodResult k st1 := by
  induction sched with
  | nil =>
    intro st st1 good h _
    simp only [exec] at h
    injection h with h
    exact h ▸ good
  | cons pick sched ih =>
    intro st st1 good h hok
    simp only [exec] at h
    simp only [ownStepsOk, Bool.and_eq_true] at hok
    rcases hs : step os st pick with _ | st2
    · rw [hs] at h
      exact Option.noConfusion h
    · rw [hs] at h hok
      refine ih st2 st1 (step_good os st st2 k pick good hs ?_) h hok.2
      intro hp t ht
      have := hok.1
      rw [if_pos hp, ht] at this
      exact this


/-! ## The render pool and the pipeline under every schedule -/

theorem run_running {σ : Type} (os : OS σ) (tpl : GoString) (jobs : List renderJob) (w : σ)
    (sched : List Pick) (st : PoolState σ) :
    runArticleHTMLRenderer os tpl jobs w sched = .running st ↔
      (os.ParseFiles (path.Join [tpl, "article.html".toList]) w).1 = none ∧
        exec os (initPool jobs (os.ParseFiles (path.Join [tpl, "article.html".toList]) w).2)
          sched = some st := by
  unfold runArticleHTMLRenderer
  simp only
  rcases hp : os.ParseFiles (path.Join [tpl, "article.html".toList]) w with ⟨_ | err, w1⟩
  · simp only
    rcases he : exec os (initPool jobs w1) sched with _ | st2
    · simp
    · simp
  · simp

theorem run_panicked {σ : Type} (os : OS σ) (tpl : GoString) (jobs : List renderJob) (w : σ)
    (sched : List Pick) (err : GoError)
    (h : (os.ParseFiles (path.Join [tpl, "article.html".toList]) w).1 = some err) :
    runArticleHTMLRenderer os tpl jobs w sched = .panicked err := by
  unfold runArticleHTMLRenderer
  simp only
  rcases hp : os.ParseFiles (path.Join [tpl, "article.html".toList]) w with ⟨_ | err1, w1⟩
  · rw [hp] at h
    exact Option.noConfusion h
  · rw [hp] at h
    injection h with h
    subst h
    rfl

theorem tasks_job_at {σ : Type} (all : List renderJob) (st : PoolState σ) (inv : PoolInv all st)
    (k : Nat) (t : Task) (hk : st.tasks[k]? = some t) : all[k]? = some t.job := by
  have hlt : k < st.tasks.length := by
    by_contra hge
    rw [List.getElem?_eq_none (by omega)] at hk
    exact Option.noConfusion hk
  rw [← inv.jobsAll, List.append_assoc,
    List.getElem?_append_left (by rw [List.length_map]; exact hlt), List.getElem?_map, hk]
  rfl

theorem sentList_at (ts : List Task) (h : ∀ t ∈ ts, t.pc.isExited = true) (k : Nat) (t : Task)
    (hk : ts[k]? = some t) : (sentList ts)[k]? = t.pc.sent := by
  induction ts generalizing k with
  | nil => simp at hk
  | cons a ts ih =>
    have ha := h a (by simp)
    obtain ⟨r, hr⟩ : ∃ r, a.pc = .exited r := by
      rcases hpc : a.pc with _ | _ | _ | _ | _ | _ | r <;> rw [hpc] at ha <;>
        first | exact Bool.noConfusion ha | exact ⟨r, rfl⟩
    cases k with
    | zero =>
      simp at hk
      subst hk
      simp [sentList, hr, TaskPc.sent]
    | succ k =>
      simp at hk
      have := ih (fun t ht => h t (by simp [ht])) k hk
      simp only [sentList] at this
      simp only [sentList, List.filterMap_cons, hr, TaskPc.sent, List.getElem?_cons_succ]
      exact this

/-- The pool started on the jobs `jobs` in a world where the template
parses: a task whose own steps succeed sends the success result with its own
output path whatever happens to the other tasks; once `res` is closed its
values are, up to their order, one result for each job; and every run can be
continued until `res` is closed. -/
theorem pool_runs {σ : Type} (os : OS σ) (jobs : List renderJob) (w : σ) (sched : List Pick)
    (st : PoolState σ) (h : exec os (initPool jobs w) sched = some st) :
    (∀ k t r, st.tasks[k]? = some t → ownStepsOk os k (initPool jobs w) sched = true →
        (t.pc = .send r ∨ t.pc.sent = some r) →
        jobs[k]? = some t.job ∧ r = { path := t.job.outPath, err := none }) ∧
      (st.closed = true →
        ∃ results, List.Perm st.res results ∧ List.Forall₂ ResultFor jobs results ∧
          ∀ k job, jobs[k]? = some job → ownStepsOk os k (initPool jobs w) sched = true →
            results[k]? = some { path := job.outPath, err := none }) ∧
      (∃ sched1 st1, exec os (initPool jobs w) (sched ++ sched1) = some st1 ∧
        st1.closed = true) := by
  have inv := exec_inv os jobs sched _ st (initPool_inv jobs w) h
  have hgood : ∀ k, ownStepsOk os k (initPool jobs w) sched = true → GoodResult k st := by
    intro k hok
    refine exec_good os k sched _ st ?_ h hok
    intro t r ht _
    simp [initPool] at ht
  refine ⟨?_, ?_, exec_can_close os jobs w sched st h⟩
  · intro k t r hk hok hr
    exact ⟨tasks_job_at jobs st inv k t hk, hgood k hok t r hk hr⟩
  · intro hclosed
    obtain ⟨hjobs, hperm, hfor⟩ := closed_results os jobs w sched st h hclosed
    refine ⟨sentList st.tasks, hperm, hfor, ?_⟩
    intro k job hk hok
    have hex := inv.drained (Or.inr (inv.closing hclosed))
    rw [← hjobs, List.getElem?_map] at hk
    rcases ht : st.tasks[k]? with _ | t
    · rw [ht] at hk
      exact Option.noConfusion hk
    · rw [ht] at hk
      simp only [Option.map_some'] at hk
      injection hk with hk
      subst hk
      rw [sentList_at st.tasks hex k t ht]
      have hx := hex t (List.getElem?_mem ht)
      rcases hpc : t.pc with _ | _ | _ | _ | _ | _ | r <;> rw [hpc] at hx <;>
        first
        | exact Bool.noConfusion hx
        | (simp only [TaskPc.sent]
           rw [hgood k hok t r ht (Or.inr (by rw [hpc]; rfl))])


/-- C7, amended: in every run of `runArticleHTMLRenderer` that has parsed
its template, under every schedule of its goroutines and whatever happens to
the other jobs (a failure at any step included), a job whose own steps
succeed yields the success result with its own output path; once `res` is
closed its values are, up to their order, exactly one result per job; and no
failure aborts the run: it can always be continued until `res` is closed. -/
theorem pool_isolation {σ : Type} (os : OS σ) (tpl : GoString) (jobs : List renderJob) (w : σ)
    (sched : List Pick) (st : PoolState σ)
    (hrun : runArticleHTMLRenderer os tpl jobs w sched = .running st) :
    (∀ k t r, st.tasks[k]? = some t →
        ownStepsOk os k (poolStart os tpl jobs w) sched = true →
        (t.pc = .send r ∨ t.pc.sent = some r) →
        jobs[k]? = some t.job ∧ r = { path := t.job.outPath, err := none }) ∧
      (st.closed = true →
        ∃ results, List.Perm st.res results ∧ List.Forall₂ ResultFor jobs results ∧
          ∀ k job, jobs[k]? = some job →
            ownStepsOk os k (poolStart os tpl jobs w) sched = true →
            results[k]? = some { path := job.outPath, err := none }) ∧
      (∃ sched1 st1, runArticleHTMLRenderer os tpl jobs w (sched ++ sched1) = .running st1 ∧
        st1.closed = true) := by
  obtain ⟨hparse, hexec⟩ := (run_running os tpl jobs w sched st).1 hrun
  obtain ⟨h1, h2, sched1, st1, h3, h4⟩ := pool_runs os jobs _ sched st hexec
  exact ⟨h1, h2, sched1, st1, (run_running os tpl jobs w _ st1).2 ⟨hparse, h3⟩, h4⟩

theorem pool_isolation_witness :
    (∀ k t r, sampleClosed.tasks[k]? = some t →
        ownStepsOk (memOS []) k (poolStart (memOS []) "tpl".toList sampleJobs sampleStart)
          sampleSchedule = true →
        (t.pc = .send r ∨ t.pc.sent = some r) →
        sampleJobs[k]? = some t.job ∧ r = { path := t.job.outPath, err := none }) ∧
      (sampleClosed.closed = true →
        ∃ results, List.Perm sampleClosed.res results ∧
          List.Forall₂ ResultFor sampleJobs results ∧
          ∀ k job, sampleJobs[k]? = some job →
            ownStepsOk (memOS []) k (poolStart (memOS []) "tpl".toList sampleJobs sampleStart)
              sampleSchedule = true →
            results[k]? = some { path := job.outPath, err := none }) ∧
      (∃ sched1 st1, runArticleHTMLRenderer (memOS []) "tpl".toList sampleJobs sampleStart
          (sampleSchedule ++ sched1) = .running st1 ∧ st1.closed = true) :=
  pool_isolation (memOS []) "tpl".toList sampleJobs sampleStart sampleSchedule sampleClosed rfl

/-- In the sample run the first job's own steps succeed and the second job
fails at its first step. -/
theorem sample_ownStepsOk :
    ownStepsOk (memOS []) 0 (poolStart (memOS []) "tpl".toList sampleJobs sampleStart)
        sampleSchedule = true ∧
      ownStepsOk (memOS []) 1 (poolStart (memOS []) "tpl".toList sampleJobs sampleStart)
        sampleSchedule = false := by
  decide

/-- C7 as stated fails: when the template `tpl/article.html` is missing, the
pool panics before it takes a job; under every schedule the run of the two
jobs of `sampleJobs`, whose slugs differ, sends no result at all. -/
theorem pool_no_template :
    sampleJobs.length = 2 ∧
      ∀ sched : List Pick,
        runArticleHTMLRenderer (memOS []) "tpl".toList sampleJobs
            [("src/a.one.md".toList, "hi".toList)] sched =
          .panicked "no such file or directory" ∧
        (runArticleHTMLRenderer (memOS []) "tpl".toList sampleJobs
            [("src/a.one.md".toList, "hi".toList)] sched).res = [] := by
  refine ⟨rfl, fun sched => ?_⟩
  have h := run_panicked (memOS []) "tpl".toList sampleJobs
    [("src/a.one.md".toList, "hi".toList)] sched "no such file or directory" (by decide)
  rw [h]
  exact ⟨rfl, rfl⟩

theorem pipeline_eq {σ : Type} (os : OS σ) (src out tpl : GoString) (w w1 : σ)
    (entries : List DirEntry) (sched : List Pick)
    (hlist : os.ReadDir src w = ((entries, none), w1))
    (hv : ∀ e ∈ entries, ValidName e.Name) :
    pipeline os src out tpl w sched =
      runArticleHTMLRenderer os tpl ((entries.filter eligible).map (jobOf src out)) w1 sched := by
  unfold pipeline
  rw [findArticlesPaths_sent os src w w1 entries hlist hv]
  simp only
  rw [translation_discovered src out entries hv]

/-- C4, amended: when the listing of the source directory succeeds and the
template parses, then under every schedule of the pool's goroutines, once
`res` is closed, the results sent are, up to their order, exactly one for
each directory entry whose name ends in `.md` and splits on `.` into exactly
three components, each the success or the failure of that entry's job, and
no other result; the pipeline starts, and every run can be continued until
`res` is closed.  For the listing `a.post-one.md`, `b.post-two.md`,
`not-valid.md`, `readme.txt` these are exactly two results, for the output
paths `<out>/post-one/index.html` and `<out>/post-two/index.html`. -/
theorem pipeline_results {σ : Type} (os : OS σ) (src out tpl : GoString) (w w1 : σ)
    (entries : List DirEntry) (hlist : os.ReadDir src w = ((entries, none), w1))
    (hv : ∀ e ∈ entries, ValidName e.Name)
    (htpl : (os.ParseFiles (path.Join [tpl, "article.html".toList]) w1).1 = none) :
    (∀ sched st, pipeline os src out tpl w sched = .running st → st.closed = true →
        ∃ results, List.Perm st.res results ∧
          List.Forall₂ (fun e r => ResultFor (jobOf src out e) r)
            (entries.filter eligible) results) ∧
      (∃ st, pipeline os src out tpl w [] = .running st) ∧
      (∀ sched st, pipeline os src out tpl w sched = .running st →
        ∃ sched1 st1, pipeline os src out tpl w (sched ++ sched1) = .running st1 ∧
          st1.closed = true) ∧
      (entries = [⟨"a.post-one.md".toList⟩, ⟨"b.post-two.md".toList⟩, ⟨"not-valid.md".toList⟩,
          ⟨"readme.txt".toList⟩] →
        ∀ sched st, pipeline os src out tpl w sched = .running st → st.closed = true →
          ∃ r1 r2, List.Perm st.res [r1, r2] ∧
            ResultFor { inPath := path.Join [src, "a.post-one.md".toList],
                        outPath := path.Join [out, "post-one".toList,
                          "index.html".toList] } r1 ∧
            ResultFor { inPath := path.Join [src, "b.post-two.md".toList],
                        outPath := path.Join [out, "post-two".toList,
                          "index.html".toList] } r2) := by
  have hmain : ∀ sched st, pipeline os src out tpl w sched = .running st → st.closed = true →
      ∃ results, List.Perm st.res results ∧
        List.Forall₂ (fun e r => ResultFor (jobOf src out e) r)
          (entries.filter eligible) results := by
    intro sched st hrun hclosed
    rw [pipeline_eq os src out tpl w w1 entries sched hlist hv] at hrun
    obtain ⟨_, hexec⟩ := (run_running os tpl _ w1 sched st).1 hrun
    obtain ⟨_, hperm, hfor⟩ := closed_results os _ _ sched st hexec hclosed
    exact ⟨_, hperm, List.forall₂_map_left_iff.1 hfor⟩
  refine ⟨hmain, ?_, ?_, ?_⟩
  · rw [pipeline_eq os src out tpl w w1 entries [] hlist hv]
    exact ⟨_, (run_running os tpl _ w1 [] _).2 ⟨htpl, rfl⟩⟩
  · intro sched st hrun
    rw [pipeline_eq os src out tpl w w1 entries sched hlist hv] at hrun
    obtain ⟨hparse, hexec⟩ := (run_running os tpl _ w1 sched st).1 hrun
    obtain ⟨sched1, st1, h3, h4⟩ := exec_can_close os _ _ sched st hexec
    refine ⟨sched1, st1, ?_, h4⟩
    rw [pipeline_eq os src out tpl w w1 entries _ hlist hv]
    exact (run_running os tpl _ w1 _ st1).2 ⟨hparse, h3⟩
  · intro hentries sched st hrun hclosed
    obtain ⟨results, hperm, hfor⟩ := hmain sched st hrun hclosed
    subst hentries
    have hf : List.filter eligible [⟨"a.post-one.md".toList⟩, ⟨"b.post-two.md".toList⟩,
        ⟨"not-valid.md".toList⟩, ⟨"readme.txt".toList⟩] =
        [⟨"a.post-one.md".toList⟩, ⟨"b.post-two.md".toList⟩] := by decide
    rw [hf] at hfor
    rcases results with _ | ⟨r1, _ | ⟨r2, _ | ⟨r3, l⟩⟩⟩
    · cases hfor
    · cases hfor with
      | cons _ h2 => cases h2
    · cases hfor with
      | cons h1 h2 =>
        cases h2 with
        | cons h2 _ => exact ⟨r1, r2, hperm, h1, h2⟩
    · cases hfor with
      | cons _ h2 =>
        cases h2 with
        | cons _ h3 => cases h3

theorem pipeline_results_witness :
    (∀ sched st, pipeline (memOS sampleListing) "src".toList "/out".toList "tpl".toList
          samplePipelineStart sched = .running st → st.closed = true →
        ∃ results, List.Perm st.res results ∧
          List.Forall₂ (fun e r => ResultFor (jobOf "src".toList "/out".toList e) r)
            (sampleListing.filter eligible) results) ∧
      (∃ st, pipeline (memOS sampleListing) "src".toList "/out".toList "tpl".toList
          samplePipelineStart [] = .running st) ∧
      (∀ sched st, pipeline (memOS sampleListing) "src".toList "/out".toList "tpl".toList
          samplePipelineStart sched = .running st →
        ∃ sched1 st1, pipeline (memOS sampleListing) "src".toList "/out".toList "tpl".toList
            samplePipelineStart (sched ++ sched1) = .running st1 ∧ st1.closed = true) ∧
      (sampleListing = [⟨"a.post-one.md".toList⟩, ⟨"b.post-two.md".toList⟩,
          ⟨"not-valid.md".toList⟩, ⟨"readme.txt".toList⟩] →
        ∀ sched st, pipeline (memOS sampleListing) "src".toList "/out".toList "tpl".toList
            samplePipelineStart sched = .running st → st.closed = true →
          ∃ r1 r2, List.Perm st.res [r1, r2] ∧
            ResultFor { inPath := path.Join ["src".toList, "a.post-one.md".toList],
                        outPath := path.Join ["/out".toList, "post-one".toList,
                          "index.html".toList] } r1 ∧
            ResultFor { inPath := path.Join ["src".toList, "b.post-two.md".toList],
                        outPath := path.Join ["/out".toList, "post-two".toList,
                          "index.html".toList] } r2) :=
  pipeline_results (memOS sampleListing) "src".toList "/out".toList "tpl".toList
    samplePipelineStart samplePipelineStart sampleListing rfl (by decide) rfl

/-- The sample run of the pipeline: under the sample schedule the second
job, whose input cannot be read, fails first, the first job succeeds after
it, and `res` is closed on these two results. -/
theorem pipeline_sample_run :
    (pipeline (memOS sampleListing) "src".toList "/out".toList "tpl".toList samplePipelineStart
        sampleSchedule).res =
      [{ path := "src/b.post-two.md".toList, err := some "no such file or directory" },
       { path := "/out/post-one/index.html".toList, err := none }] ∧
    (pipeline (memOS sampleListing) "src".toList "/out".toList "tpl".toList samplePipelineStart
        sampleSchedule).closed = true := by
  decide

/-- C4 as stated fails: the listing of the source directory succeeds and has
two eligible entries, but the template `tpl/article.html` is missing; the
pool panics when it parses the template, and under every schedule the
pipeline sends no result. -/
theorem pipeline_no_template :
    (sampleListing.filter eligible).length = 2 ∧
      ∀ sched : List Pick,
        pipeline (memOS sampleListing) "src".toList "/out".toList "tpl".toList
            [("src/a.post-one.md".toList, "one".toList)] sched =
          .panicked "no such file or directory" ∧
        (pipeline (memOS sampleListing) "src".toList "/out".toList "tpl".toList
            [("src/a.post-one.md".toList, "one".toList)] sched).res = [] := by
  refine ⟨by decide, fun sched => ?_⟩
  have h := pipeline_eq (memOS sampleListing) "src".toList "/out".toList "tpl".toList
    [("src/a.post-one.md".toList, "one".toList)] [("src/a.post-one.md".toList, "one".toList)]
    sampleListing sched rfl (by decide)
  rw [h, run_panicked (memOS sampleListing) "tpl".toList _ _ sched "no such file or directory"
    (by decide)]
  exact ⟨rfl, rfl⟩


/-! ## The bytes written to the output files -/

theorem outPath_ne_of_index (all : List renderJob) (hd : (all.map (·.outPath)).Nodup)
    (k1 k2 : Nat) (j1 j2 : renderJob) (h1 : all[k1]? = some j1) (h2 : all[k2]? = some j2)
    (hne : k1 ≠ k2) : j1.outPath ≠ j2.outPath := by
  have hlt : ∀ (k : Nat) (j : renderJob), all[k]? = some j → k < (all.map (·.outPath)).length := by
    intro k j h
    by_contra hge
    rw [List.length_map] at hge
    rw [List.getElem?_eq_none (by omega)] at h
    exact Option.noConfusion h
  have hm1 : (all.map (·.outPath))[k1]? = some j1.outPath := by rw [List.getElem?_map, h1]; rfl
  have hm2 : (all.map (·.outPath))[k2]? = some j2.outPath := by rw [List.getElem?_map, h2]; rfl
  have hnd := List.nodup_iff_getElem?_ne_getElem?.1 hd
  intro heq
  rcases Nat.lt_or_gt_of_ne hne with h | h
  · exact hnd k1 k2 h (hlt k2 j2 h2) (by rw [hm1, hm2, heq])
  · exact hnd k2 k1 h (hlt k1 j1 h1) (by rw [hm1, hm2, heq])

theorem TaskContent_congr {σ : Type} (os : OS σ) (content : σ → GoString → Option GoString)
    (tmplOut : tmplData → GoString) (c0 : GoString → Option GoString) (w w1 : σ) (t : Task)
    (heq : content w1 t.job.outPath = content w t.job.outPath)
    (h : TaskContent os content tmplOut c0 w t) : TaskContent os content tmplOut c0 w1 t := by
  unfold TaskContent at h ⊢
  rcases hpc : t.pc with _ | body | body | ⟨dst, body⟩ | r | r | r <;> rw [hpc] at h <;>
    simp only at h ⊢
  · exact h
  · exact h
  · rw [heq]
    exact h
  · rw [heq]
    exact h
  · rw [heq]
    exact h
  · rw [heq]
    exact h

/-- A step of a task keeps what is known of its files, and changes the bytes
of no file but its own output file. -/
theorem taskStep_content {σ : Type} (os : OS σ) (content : σ → GoString → Option GoString)
    (tmplOut : tmplData → GoString) (hc : FileContract os content tmplOut)
    (c0 : GoString → Option GoString) (st st1 : PoolState σ) (k : Nat) (t : Task)
    (hin : content st.world t.job.inPath = c0 t.job.inPath)
    (ht : TaskContent os content tmplOut c0 st.world t)
    (h : taskStep os st k t = some st1) :
    ∃ pc1, st1.tasks = st.tasks.set k { job := t.job, pc := pc1 } ∧
      TaskContent os content tmplOut c0 st1.world { job := t.job, pc := pc1 } ∧
      ∀ q, q ≠ t.job.outPath → content st1.world q = content st.world q := by
  unfold taskStep at h
  unfold TaskContent at ht
  rcases hpc : t.pc with _ | body | body | ⟨dst, body⟩ | r | r | r <;> rw [hpc] at h ht <;>
    simp only at h ht
  · have hfr := hc.readFileFrame t.job.inPath st.world
    rcases hr : os.ReadFile t.job.inPath st.world with ⟨err | b, w⟩ <;> rw [hr] at h hfr <;>
      simp only at h hfr <;> injection h with h <;> subst h
    · exact ⟨_, rfl, by simp [TaskContent, failure], fun q _ => by simp only [hfr]⟩
    · refine ⟨_, rfl, ?_, fun q _ => by simp only [hfr]⟩
      simp only [TaskContent]
      exact ⟨b, by rw [← hin]; exact hc.readFile _ _ _ _ hr, rfl⟩
  · have hfr := hc.mkdirAllFrame (path.Dir t.job.outPath) 0o777 st.world
    rcases hr : os.MkdirAll (path.Dir t.job.outPath) 0o777 st.world with ⟨_ | err, w⟩ <;>
      rw [hr] at h hfr <;> simp only at h hfr <;> injection h with h <;> subst h
    · exact ⟨_, rfl, by simpa [TaskContent] using ht, fun q _ => by simp only [hfr]⟩
    · exact ⟨_, rfl, by simp [TaskContent, failure], fun q _ => by simp only [hfr]⟩
  · have hfr := hc.createFrame t.job.outPath st.world
    rcases hr : os.Create t.job.outPath st.world with ⟨err | dst, w⟩ <;> rw [hr] at h hfr <;>
      simp only at h hfr <;> injection h with h <;> subst h
    · exact ⟨_, rfl, by simp [TaskContent, failure], fun q hq => hfr q hq⟩
    · refine ⟨_, rfl, ?_, fun q hq => hfr q hq⟩
      obtain ⟨hname, hempty⟩ := hc.create _ _ _ _ hr
      simp only [TaskContent]
      exact ⟨ht, hname, hempty⟩
  · obtain ⟨⟨b, hb, hbody⟩, hname, hempty⟩ := ht
    have hfr := hc.executeFrame dst
      { Title := "title".toList, CreatedAt := "23/07/23".toList, Content := body } st.world
    rcases hr : os.Execute dst
      { Title := "title".toList, CreatedAt := "23/07/23".toList, Content := body } st.world
      with ⟨_ | err, w⟩ <;> rw [hr] at h hfr <;> simp only at h hfr <;> injection h with h <;>
      subst h
    · refine ⟨_, rfl, ?_, fun q hq => hfr q (by rw [hname]; exact hq)⟩
      simp only [TaskContent]
      intro _
      refine ⟨b, hb, ?_⟩
      have := hc.execute _ _ _ _ hr (by rw [hname]; exact hempty)
      rw [hname, hbody] at this
      exact this
    · exact ⟨_, rfl, by simp [TaskContent, failure],
        fun q hq => hfr q (by rw [hname]; exact hq)⟩
  · by_cases hcl : st.closed = true
    · rw [if_pos hcl] at h
      exact Option.noConfusion h
    · rw [if_neg hcl] at h
      injection h with h
      subst h
      exact ⟨_, rfl, by simpa [TaskContent] using ht, fun q _ => rfl⟩
  · by_cases hw : st.wg = 0
    · rw [if_pos hw] at h
      exact Option.noConfusion h
    · rw [if_neg hw] at h
      injection h with h
      subst h
      exact ⟨_, rfl, by simpa [TaskContent] using ht, fun q _ => rfl⟩
  · exact Option.noConfusion h


theorem poolStep_world {σ : Type} (st st1 : PoolState σ) (h : poolStep st = some st1) :
    st1.world = st.world ∧
      (st1.tasks = st.tasks ∨ ∃ job, st1.tasks = st.tasks ++ [{ job := job, pc := .readFile }]) := by
  unfold poolStep at h
  rcases hp : st.pool with _ | job | job | _ | _ | _ <;> rw [hp] at h <;> simp only at h
  · rcases hj : st.jobs with _ | ⟨job, rest⟩ <;> rw [hj] at h <;> simp only at h <;>
      injection h with h <;> subst h <;> exact ⟨rfl, Or.inl rfl⟩
  · injection h with h
    subst h
    exact ⟨rfl, Or.inl rfl⟩
  · injection h with h
    subst h
    exact ⟨rfl, Or.inr ⟨job, rfl⟩⟩
  · by_cases hw : st.wg = 0
    · rw [if_pos hw] at h
      injection h with h
      subst h
      exact ⟨rfl, Or.inl rfl⟩
    · rw [if_neg hw] at h
      exact Option.noConfusion h
  · injection h with h
    subst h
    exact ⟨rfl, Or.inl rfl⟩
  · exact Option.noConfusion h

theorem step_contentInv {σ : Type} (os : OS σ) (content : σ → GoString → Option GoString)
    (tmplOut : tmplData → GoString) (hc : FileContract os content tmplOut)
    (all : List renderJob) (hd : (all.map (·.outPath)).Nodup)
    (hio : ∀ j ∈ all, ∀ j1 ∈ all, j.inPath ≠ j1.outPath)
    (c0 : GoString → Option GoString) (st st1 : PoolState σ) (pick : Pick)
    (inv : PoolInv all st) (cinv : ContentInv os content tmplOut all c0 st)
    (h : step os st pick = some st1) : ContentInv os content tmplOut all c0 st1 := by
  cases pick with
  | pool =>
    simp only [step] at h
    obtain ⟨hw, htasks⟩ := poolStep_world st st1 h
    refine ⟨fun p hp => by rw [hw]; exact cinv.inputs p hp, ?_⟩
    intro k t hk
    rw [hw]
    rcases htasks with ht | ⟨job, ht⟩
    · rw [ht] at hk
      exact cinv.tasks k t hk
    · rw [ht] at hk
      by_cases hlt : k < st.tasks.length
      · rw [List.getElem?_append_left hlt] at hk
        exact cinv.tasks k t hk
      · rw [List.getElem?_append_right (by omega)] at hk
        rcases hidx : k - st.tasks.length with _ | m
        · rw [hidx] at hk
          simp at hk
          subst hk
          simp [TaskContent]
        · rw [hidx] at hk
          simp at hk
  | task k =>
    simp only [step] at h
    rcases hk : st.tasks[k]? with _ | t
    · rw [hk] at h
      exact Option.noConfusion h
    · rw [hk] at h
      have hjob := tasks_job_at all st inv k t hk
      have hmem : t.job ∈ all := List.getElem?_mem hjob
      have hin : content st.world t.job.inPath = c0 t.job.inPath :=
        cinv.inputs _ (fun j hj => hio t.job hmem j hj)
      obtain ⟨pc1, htasks, hown, hframe⟩ :=
        taskStep_content os content tmplOut hc c0 st st1 k t hin (cinv.tasks k t hk) h
      have hlt : k < st.tasks.length := by
        by_contra hge
        rw [List.getElem?_eq_none (by omega)] at hk
        exact Option.noConfusion hk
      refine ⟨?_, ?_⟩
      · intro p hp
        rw [hframe p (hp t.job hmem)]
        exact cinv.inputs p hp
      · intro k2 t2 hk2
        rw [htasks] at hk2
        by_cases heq : k = k2
        · subst heq
          rw [List.getElem?_set_self hlt] at hk2
          injection hk2 with hk2
          subst hk2
          exact hown
        · rw [List.getElem?_set_ne heq] at hk2
          have hjob2 := tasks_job_at all st inv k2 t2 hk2
          have hne := outPath_ne_of_index all hd k2 k t2.job t.job hjob2 hjob (Ne.symm heq)
          exact TaskContent_congr os content tmplOut c0 st.world st1.world t2 (hframe _ hne)
            (cinv.tasks k2 t2 hk2)

theorem exec_contentInv {σ : Type} (os : OS σ) (content : σ → GoString → Option GoString)
    (tmplOut : tmplData → GoString) (hc : FileContract os content tmplOut)
    (all : List renderJob) (hd : (all.map (·.outPath)).Nodup)
    (hio : ∀ j ∈ all, ∀ j1 ∈ all, j.inPath ≠ j1.outPath)
    (c0 : GoString → Option GoString) (sched : List Pick) :
    ∀ (st st1 : PoolState σ), PoolInv all st → ContentInv os content tmplOut all c0 st →
      exec os st sched = some st1 → ContentInv os content tmplOut all c0 st1 := by
  induction sched with
  | nil =>
    intro st st1 _ cinv h
    simp only [exec] at h
    injection h with h
    exact h ▸ cinv
  | cons pick sched ih =>
    intro st st1 inv cinv h
    simp only [exec] at h
    rcases hs : step os st pick with _ | st2
    · rw [hs] at h
      exact Option.noConfusion h
    · rw [hs] at h
      exact ih st2 st1 (step_inv os all st st2 pick inv hs)
        (step_contentInv os content tmplOut hc all hd hio c0 st st2 pick inv cinv hs) h

/-- In a run of the pool over jobs with pairwise different output paths,
none of which is an input path, a task with a success result has left in its
output file the template's output for the fixed title and date and the
rendering of the bytes that its input file held at the start; and the input
files hold what they held at the start. -/
theorem pool_content {σ : Type} (os : OS σ) (content : σ → GoString → Option GoString)
    (tmplOut : tmplData → GoString) (hc : FileContract os content tmplOut)
    (jobs : List renderJob) (hd : (jobs.map (·.outPath)).Nodup)
    (hio : ∀ j ∈ jobs, ∀ j1 ∈ jobs, j.inPath ≠ j1.outPath) (w : σ) (sched : List Pick)
    (st : PoolState σ) (h : exec os (initPool jobs w) sched = some st) :
    (∀ j ∈ jobs, content st.world j.inPath = content w j.inPath) ∧
      ∀ (k : Nat) (t : Task), st.tasks[k]? = some t →
        t.pc.sent = some { path := t.job.outPath, err := none } →
        jobs[k]? = some t.job ∧
          ∃ b, content w t.job.inPath = some b ∧
            content st.world t.job.outPath = some (tmplOut (taskData os b)) := by
  have inv := exec_inv os jobs sched _ st (initPool_inv jobs w) h
  have cinv : ContentInv os content tmplOut jobs (content w) st := by
    refine exec_contentInv os content tmplOut hc jobs hd hio (content w) sched _ st
      (initPool_inv jobs w) ⟨fun _ _ => rfl, ?_⟩ h
    intro k t hk
    simp [initPool] at hk
  refine ⟨fun j hj => cinv.inputs _ (fun j1 hj1 => hio j hj j1 hj1), ?_⟩
  intro k t hk hsent
  refine ⟨tasks_job_at jobs st inv k t hk, ?_⟩
  have ht := cinv.tasks k t hk
  unfold TaskContent at ht
  rcases hpc : t.pc with _ | body | body | ⟨dst, body⟩ | r | r | r <;> rw [hpc] at ht hsent <;>
    simp only [TaskPc.sent] at ht hsent
  · exact Option.noConfusion hsent
  · exact Option.noConfusion hsent
  · exact Option.noConfusion hsent
  · exact Option.noConfusion hsent
  · exact Option.noConfusion hsent
  · injection hsent with hsent
    subst hsent
    exact ht rfl
  · injection hsent with hsent
    subst hsent
    exact ht rfl


theorem entry_slug (src : GoString) (e : DirEntry) (hv : ValidName e.Name)
    (he : eligible e = true) : slugOf e = [] ∨ path.RealElem (slugOf e) := by
  unfold eligible at he
  simp only [Bool.and_eq_true, decide_eq_true_eq] at he
  obtain ⟨a, slug, c, hs⟩ : ∃ a slug c, strings.Split e.Name '.' = [a, slug, c] := by
    rcases hsp : strings.Split e.Name '.' with _ | ⟨a, _ | ⟨b, _ | ⟨c, _ | ⟨d, l⟩⟩⟩⟩ <;>
      rw [hsp] at he <;> simp at he
    exact ⟨a, b, c, rfl⟩
  have hslug : slugOf e = slug := by simp [slugOf, hs]
  rw [hslug]
  by_cases hne : slug = []
  · exact Or.inl hne
  · exact Or.inr (slug_RealElem (path.Join [src, e.Name]) a slug c
      (by rw [Base_Join_name src e.Name hv]; exact hs) hne)

theorem outPath_inj (out s1 s2 : GoString) (h1 : s1 = [] ∨ path.RealElem s1)
    (h2 : s2 = [] ∨ path.RealElem s2)
    (heq : path.Join [out, s1, "index.html".toList] = path.Join [out, s2, "index.html".toList]) :
    s1 = s2 := by
  have hlen : ∀ (b s : GoString), s ≠ [] →
      b ++ "index.html".toList ≠ b ++ s ++ '/' :: "index.html".toList := by
    intro b s hs h
    have := congrArg List.length h
    simp at this
  rcases h1 with e1 | r1 <;> rcases h2 with e2 | r2
  · rw [e1, e2]
  · subst e1
    rw [outPath_empty, outPath_real out s2 r2] at heq
    exact absurd heq (hlen _ _ r2.1)
  · subst e2
    rw [outPath_empty, outPath_real out s1 r1] at heq
    exact absurd heq.symm (hlen _ _ r1.1)
  · rw [outPath_real out s1 r1, outPath_real out s2 r2, List.append_assoc,
      List.append_assoc] at heq
    exact List.append_cancel_right (List.append_cancel_left heq)

theorem Base_outPath (out s : GoString) (h : s = [] ∨ path.RealElem s) :
    path.Base (path.Join [out, s, "index.html".toList]) = "index.html".toList := by
  rcases h with e | r
  · subst e
    rw [outPath_empty]
    exact path.Base_append _ _ (path.cleanDir_DirPart _) indexHtml_RealElem.1
      indexHtml_RealElem.2.1
  · rw [outPath_real out s r]
    have h1 : path.cleanDir (path.joinDir out) ++ s ++ '/' :: "index.html".toList =
        (path.cleanDir (path.joinDir out) ++ s ++ ['/']) ++ "index.html".toList := by simp
    rw [h1]
    exact path.Base_append _ _ (Or.inr ⟨_, rfl⟩) indexHtml_RealElem.1 indexHtml_RealElem.2.1

/-- The jobs of the pipeline have pairwise different output paths when the
slugs are pairwise different, and no input path is an output path. -/
theorem jobs_paths (src out : GoString) (entries : List DirEntry)
    (hv : ∀ e ∈ entries, ValidName e.Name)
    (hslug : ((entries.filter eligible).map slugOf).Nodup) :
    (((entries.filter eligible).map (jobOf src out)).map (·.outPath)).Nodup ∧
      ∀ j ∈ (entries.filter eligible).map (jobOf src out),
        ∀ j1 ∈ (entries.filter eligible).map (jobOf src out), j.inPath ≠ j1.outPath := by
  have hel : ∀ e ∈ entries.filter eligible, ValidName e.Name ∧ eligible e = true := by
    intro e he
    rw [List.mem_filter] at he
    exact ⟨hv e he.1, he.2⟩
  constructor
  · have hmap : ((entries.filter eligible).map (jobOf src out)).map (·.outPath) =
        ((entries.filter eligible).map slugOf).map
          (fun s => path.Join [out, s, "index.html".toList]) := by
      simp only [List.map_map]
      rfl
    rw [hmap]
    refine List.Nodup.map_on ?_ hslug
    intro s1 hs1 s2 hs2 heq
    rw [List.mem_map] at hs1 hs2
    obtain ⟨e1, he1, rfl⟩ := hs1
    obtain ⟨e2, he2, rfl⟩ := hs2
    exact outPath_inj out _ _ (entry_slug src e1 (hel e1 he1).1 (hel e1 he1).2)
      (entry_slug src e2 (hel e2 he2).1 (hel e2 he2).2) heq
  · intro j hj j1 hj1 heq
    rw [List.mem_map] at hj hj1
    obtain ⟨e, he, rfl⟩ := hj
    obtain ⟨e1, he1, rfl⟩ := hj1
    have hb := congrArg path.Base heq
    simp only [jobOf] at hb
    rw [Base_Join_name src e.Name (hel e he).1] at hb
    have hb1 := Base_outPath out (slugOf e1) (entry_slug src e1 (hel e1 he1).1 (hel e1 he1).2)
    simp only [slugOf] at hb1
    rw [hb1] at hb
    have h3 := (hel e he).2
    unfold eligible at h3
    simp only [Bool.and_eq_true, decide_eq_true_eq] at h3
    rw [hb] at h3
    exact absurd h3.2 (by decide)

theorem memOS_contract (listing : List DirEntry) :
    FileContract (memOS listing) (fun s p => s.lookup p) memTemplate where
  readFile := by
    intro p s b s1 h
    simp only [memOS] at h
    rcases hl : List.lookup p s with _ | b1
    · rw [hl] at h
      simp at h
    · rw [hl] at h
      simp at h
      rw [h.1]
  create := by
    intro p s dst s1 h
    simp only [memOS] at h
    injection h with h1 h2
    injection h1 with h1
    subst h1 h2
    exact ⟨rfl, by simp [List.lookup]⟩
  execute := by
    intro dst d s s1 h hempty
    simp only [memOS] at h
    injection h with _ h2
    subst h2
    simp [List.lookup, hempty]
  readDirFrame := by
    intro p s
    rfl
  parseFrame := by
    intro p s
    simp only [memOS]
    rcases List.lookup p s with _ | b <;> rfl
  readFileFrame := by
    intro p s
    simp only [memOS]
    rcases List.lookup p s with _ | b <;> rfl
  mkdirAllFrame := by
    intro p m s
    rfl
  createFrame := by
    intro p s q hq
    simp only [memOS, List.lookup]
    have : (q == p) = false := by simpa using hq
    rw [this]
  executeFrame := by
    intro dst d s q hq
    simp only [memOS, List.lookup]
    have : (q == dst.name) = false := by simpa using hq
    rw [this]


theorem pipeline_content {σ : Type} (os : OS σ) (content : σ → GoString → Option GoString)
    (tmplOut : tmplData → GoString) (hc : FileContract os content tmplOut)
    (src out tpl : GoString) (w : σ) (entries : List DirEntry) (sched : List Pick)
    (st : PoolState σ) (hv : ∀ e ∈ entries, ValidName e.Name)
    (hslug : ((entries.filter eligible).map slugOf).Nodup)
    (hlist : (os.ReadDir src w).1 = (entries, none))
    (hrun : pipeline os src out tpl w sched = .running st) :
    (∀ j ∈ (entries.filter eligible).map (jobOf src out),
        content st.world j.inPath = content w j.inPath) ∧
      ∀ (k : Nat) (t : Task), st.tasks[k]? = some t →
        t.pc.sent = some { path := t.job.outPath, err := none } →
        ((entries.filter eligible).map (jobOf src out))[k]? = some t.job ∧
          ∃ b, content w t.job.inPath = some b ∧
            content st.world t.job.outPath = some (tmplOut (taskData os b)) := by
  have hl : os.ReadDir src w = ((entries, none), (os.ReadDir src w).2) := by
    rw [← hlist]
  rw [pipeline_eq os src out tpl w _ entries sched hl hv] at hrun
  obtain ⟨_, hexec⟩ := (run_running os tpl _ _ sched st).1 hrun
  obtain ⟨hd, hio⟩ := jobs_paths src out entries hv hslug
  have hw : content (os.ParseFiles (path.Join [tpl, "article.html".toList])
      (os.ReadDir src w).2).2 = content w := by
    rw [hc.parseFrame, hc.readDirFrame]
  obtain ⟨h1, h2⟩ := pool_content os content tmplOut hc _ hd hio _ sched st hexec
  rw [hw] at h1 h2
  exact ⟨h1, h2⟩

/-- C8, amended: when the slugs of the articles are pairwise different,
running the pipeline a second time, on the world that the first run has left
and with the same articles listed, leaves every output file whose job
succeeds in both runs with the bytes that the first run left in it: the
template's output for the fixed title `title`, the fixed date `23/07/23` and
the rendering of the input file's bytes, under every schedule of either run
and whatever the output file held before. -/
theorem pipeline_idempotent {σ : Type} (os : OS σ)
    (content : σ → GoString → Option GoString) (tmplOut : tmplData → GoString)
    (hc : FileContract os content tmplOut) (src out tpl : GoString) (w : σ)
    (entries entries2 : List DirEntry) (sched1 sched2 : List Pick) (st1 st2 : PoolState σ)
    (hv : ∀ e ∈ entries, ValidName e.Name) (hv2 : ∀ e ∈ entries2, ValidName e.Name)
    (hslug : ((entries.filter eligible).map slugOf).Nodup)
    (hlist1 : (os.ReadDir src w).1 = (entries, none))
    (hrun1 : pipeline os src out tpl w sched1 = .running st1)
    (hlist2 : (os.ReadDir src st1.world).1 = (entries2, none))
    (hsame : entries2.filter eligible = entries.filter eligible)
    (hrun2 : pipeline os src out tpl st1.world sched2 = .running st2) :
    ∀ (k : Nat) (t1 t2 : Task), st1.tasks[k]? = some t1 → st2.tasks[k]? = some t2 →
      t1.pc.sent = some { path := t1.job.outPath, err := none } →
      t2.pc.sent = some { path := t2.job.outPath, err := none } →
      t2.job = t1.job ∧
        ∃ b, content w t1.job.inPath = some b ∧
          content st1.world t1.job.outPath =
            some (tmplOut { Title := "title".toList, CreatedAt := "23/07/23".toList,
                            Content := os.Markdown b }) ∧
          content st2.world t1.job.outPath = content st1.world t1.job.outPath := by
  intro k t1 t2 hk1 hk2 hs1 hs2
  obtain ⟨hin1, hout1⟩ := pipeline_content os content tmplOut hc src out tpl w entries sched1 st1
    hv hslug hlist1 hrun1
  obtain ⟨_, hout2⟩ := pipeline_content os content tmplOut hc src out tpl st1.world entries2
    sched2 st2 hv2 (by rw [hsame]; exact hslug) hlist2 hrun2
  obtain ⟨hj1, b1, hb1, hc1⟩ := hout1 k t1 hk1 hs1
  obtain ⟨hj2, b2, hb2, hc2⟩ := hout2 k t2 hk2 hs2
  rw [hsame, hj1] at hj2
  injection hj2 with hj2
  have hmem : t1.job ∈ (entries.filter eligible).map (jobOf src out) := List.getElem?_mem hj1
  rw [← hj2, hin1 t1.job hmem, hb1] at hb2
  injection hb2 with hb2
  subst hb2
  rw [← hj2] at hc2
  exact ⟨hj2.symm, b1, hb1, hc1, by rw [hc1, hc2]⟩

theorem pipeline_idempotent_witness :
    ({ inPath := "src/a.post-one.md".toList, outPath := "/out/post-one/index.html".toList } :
        renderJob) =
      { inPath := "src/a.post-one.md".toList, outPath := "/out/post-one/index.html".toList } ∧
      ∃ b, List.lookup "src/a.post-one.md".toList twoInputs = some b ∧
        List.lookup "/out/post-one/index.html".toList firstRun.world =
          some (memTemplate { Title := "title".toList, CreatedAt := "23/07/23".toList,
                              Content := (memOS sampleListing).Markdown b }) ∧
        List.lookup "/out/post-one/index.html".toList secondRun.world =
          List.lookup "/out/post-one/index.html".toList firstRun.world :=
  pipeline_idempotent (memOS sampleListing) (fun s p => s.lookup p) memTemplate
    (memOS_contract sampleListing) "src".toList "/out".toList "tpl".toList twoInputs
    sampleListing sampleListing scheduleFirstSecond scheduleSecondFirst firstRun secondRun
    (by decide) (by decide) (by decide) rfl rfl rfl rfl rfl 0
    { job := { inPath := "src/a.post-one.md".toList,
               outPath := "/out/post-one/index.html".toList },
      pc := .exited { path := "/out/post-one/index.html".toList, err := none } }
    { job := { inPath := "src/a.post-one.md".toList,
               outPath := "/out/post-one/index.html".toList },
      pc := .exited { path := "/out/post-one/index.html".toList, err := none } }
    (by decide) (by decide) rfl rfl

/-- The two sample runs on distinct slugs close `res` on two success
results each, and leave the same bytes in both output files. -/
theorem sample_two_runs :
    firstRun.closed = true ∧ secondRun.closed = true ∧
      firstRun.res = [{ path := "/out/post-one/index.html".toList, err := none },
                      { path := "/out/post-two/index.html".toList, err := none }] ∧
      secondRun.res = [{ path := "/out/post-two/index.html".toList, err := none },
                       { path := "/out/post-one/index.html".toList, err := none }] ∧
      List.lookup "/out/post-one/index.html".toList secondRun.world =
        some "title|23/07/23|one".toList ∧
      List.lookup "/out/post-two/index.html".toList secondRun.world =
        some "title|23/07/23|two".toList := by
  decide


/-- C8 as stated fails, in two ways.  First, the articles `a.x.md` and
`b.x.md` have the same slug, so both jobs write `/out/x/index.html`: a first
run in which the task of `b.x.md` writes last leaves the rendering of
`b.x.md` in the file, and a second run on unchanged inputs in which the task
of `a.x.md` writes last leaves the rendering of `a.x.md`, although both runs
succeed for both jobs and close `res`.  Second, with a single article whose
job succeeds in the first run, a second run on unchanged inputs in which the
execution of the template fails for lack of space leaves the output file
truncated. -/
theorem pipeline_same_slug :
    (sameSlugFirst.closed = true ∧ sameSlugSecond.closed = true ∧
      sameSlugFirst.res = [{ path := "/out/x/index.html".toList, err := none },
                           { path := "/out/x/index.html".toList, err := none }] ∧
      sameSlugSecond.res = [{ path := "/out/x/index.html".toList, err := none },
                            { path := "/out/x/index.html".toList, err := none }] ∧
      List.lookup "src/a.x.md".toList (sameSlugFirst.world sameSlugInputs) =
        List.lookup "src/a.x.md".toList sameSlugInputs ∧
      List.lookup "src/b.x.md".toList (sameSlugFirst.world sameSlugInputs) =
        List.lookup "src/b.x.md".toList sameSlugInputs ∧
      List.lookup "/out/x/index.html".toList (sameSlugFirst.world sameSlugInputs) =
        some "title|23/07/23|B".toList ∧
      List.lookup "/out/x/index.html".toList
          (sameSlugSecond.world (sameSlugFirst.world sameSlugInputs)) =
        some "title|23/07/23|A".toList) ∧
    (quotaFirst.closed = true ∧ quotaSecond.closed = true ∧
      quotaFirst.res = [{ path := "/out/post-one/index.html".toList, err := none }] ∧
      quotaSecond.res =
        [{ path := "src/a.post-one.md".toList, err := some "no space left on device" }] ∧
      List.lookup "src/a.post-one.md".toList (quotaFirst.world oneInput) =
        List.lookup "src/a.post-one.md".toList oneInput ∧
      List.lookup "/out/post-one/index.html".toList (quotaFirst.world oneInput) =
        some "title|23/07/23|one".toList ∧
      List.lookup "/out/post-one/index.html".toList
          (quotaSecond.world (quotaFirst.world oneInput)) = some []) := by
  decide

end Higo
